import Mathlib

/-!
Verification of the artistpath core (similarity-graph pathfinding engine).

This file is a shallow embedding, in Lean 4, of the Rust sources under
`src/core`, `src/web/backend` and `src/cli` of the artistpath repository,
together with proofs about the embedded definitions.

Modelling conventions, used consistently below:

* Artist identifiers (128-bit UUIDs in Rust) are modelled as `Nat`; the only
  operation the code performs on them is equality.
* `f32` similarity values are modelled as `Rat`.  The pathfinding and
  filtering code compares similarities (`partial_cmp`, `>=`) and, in the
  Dijkstra variants, computes `1 - s` and sums of such weights.  On the
  NaN-free inputs required by the data-model invariant (similarities are
  finite values in [0,1]) these operations are order-isomorphic to the
  corresponding exact rational operations; the theorems below never depend
  on rounding of float sums, only on the comparison structure.
* `FxHashMap` / `FxHashSet` are modelled as association lists
  (`List (key × value)`) with no duplicate keys / as membership lists.
  Iteration order of a Rust hash map is unspecified; wherever the code
  iterates over a map, the properties proved here are insensitive to the
  iteration order, and the model fixes insertion order.
* Memory-mapped graph files are byte lists; reading bytes past the end of
  the mapped region is a parse failure (`Option.none`), mirroring the
  `std::io` errors returned by the byte readers in `utils.rs`.
* Rust `while` loops are modelled with an explicit fuel parameter; the
  loop functions return `Option.none` exactly when the fuel is exhausted,
  and the theorems either quantify over runs that produced a result or
  show that a specific amount of fuel suffices.
-/

set_option autoImplicit false

/-- Artist identifier: the 128-bit UUID value, as a natural number. -/
abbrev ArtistId := Nat

/-- Similarity score: an `f32` in the Rust source, modelled as `Rat`. -/
abbrev Sim := Rat

/-- One step of a returned path: `(artist, similarity)`; mirrors
`type PathStep = (Uuid, f32)` in `core/src/pathfinding/utils.rs`. -/
abbrev PathStep := ArtistId × Sim

/-- Mirrors `PathfindingConfig` in `core/src/pathfinding_config.rs`. -/
structure PathfindingConfig where
  min_match : Sim
  top_related : Nat
  weighted : Bool
deriving DecidableEq

/-- Descending-similarity comparison used by the connection sort:
`a` may come before `b` iff `b`'s similarity is at most `a`'s.  This is the
total preorder realised by the Rust comparator
`|a, b| b.1.partial_cmp(&a.1).unwrap_or(Equal)` on NaN-free values. -/
def simGE (a b : PathStep) : Prop := b.2 ≤ a.2

instance : DecidableRel simGE := fun a b => inferInstanceAs (Decidable (b.2 ≤ a.2))

instance : IsTotal PathStep simGE := ⟨fun a b => le_total b.2 a.2⟩

instance : IsTrans PathStep simGE := ⟨fun _ _ _ h1 h2 => le_trans h2 h1⟩

/-- A connection list sorted by similarity, descending. -/
def SortedBySimDesc (l : List PathStep) : Prop := List.Sorted simGE l

/-- Mirrors `filter_and_sort_connections` in `core/src/pathfinding/utils.rs`:
optionally drop edges below `min_match`, stable-sort by similarity
descending, truncate to `top_related`.  `List.insertionSort simGE` produces
the same list as Rust's stable `sort_by` with the descending comparator:
both are the unique stable descending reordering. -/
def filter_and_sort_connections (connections : List PathStep)
    (config : PathfindingConfig) : List PathStep :=
  ((if 0 < config.min_match then
      connections.filter (fun p => config.min_match ≤ p.2)
    else connections).insertionSort simGE).take config.top_related

/-- Bytes of a memory-mapped graph file. -/
abbrev Bytes := List Nat

/-- Read `n` bytes from a cursor; `none` models the `std::io` error returned
by `read_exact` when the data is truncated. -/
def readBytes (n : Nat) (data : Bytes) : Option (List Nat × Bytes) :=
  if n ≤ data.length then some (data.take n, data.drop n) else none

/-- Little-endian value of a byte list. -/
def leVal : List Nat → Nat
  | [] => 0
  | b :: bs => b + 256 * leVal bs

/-- Mirrors `read_uuid_from_cursor` in `core/src/pathfinding/utils.rs`:
16 bytes, assembled into the identifier value. -/
def read_uuid_from_cursor (data : Bytes) : Option (ArtistId × Bytes) :=
  (readBytes 16 data).map (fun p => (leVal p.1, p.2))

/-- Read a `u32` (little endian): 4 bytes. -/
def readU32 (data : Bytes) : Option (Nat × Bytes) :=
  (readBytes 4 data).map (fun p => (leVal p.1, p.2))

/-- Read the raw bits of an `f32` (4 bytes, little endian).  Decoding the
bit pattern into a similarity value is abstracted by the `bitsToSim`
parameter threaded through the parser. -/
def readF32Bits (data : Bytes) : Option (Nat × Bytes) :=
  (readBytes 4 data).map (fun p => (leVal p.1, p.2))

/-- The `for _ in 0..connection_count` loop of `parse_artist_connections`:
read `n` `(uuid, f32)` pairs. -/
def parseConnList (bitsToSim : Nat → Sim) : Nat → Bytes → Option (List PathStep)
  | 0, _ => some []
  | n + 1, data =>
    match read_uuid_from_cursor data with
    | none => none
    | some (id, rest) =>
      match readF32Bits rest with
      | none => none
      | some (bits, rest2) =>
        match parseConnList bitsToSim n rest2 with
        | none => none
        | some tail => some ((id, bitsToSim bits) :: tail)

/-- Mirrors `parse_artist_connections` in `core/src/pathfinding/utils.rs`:
read the stored UUID, fail with an "Artist ID mismatch" error if it differs
from the expected one, then read `count` connection records. -/
def parse_artist_connections (bitsToSim : Nat → Sim) (expected_artist_id : ArtistId)
    (data : Bytes) : Option (List PathStep) :=
  match read_uuid_from_cursor data with
  | none => none
  | some (stored_artist_id, rest) =>
    if stored_artist_id ≠ expected_artist_id then none
    else
      match readU32 rest with
      | none => none
      | some (connection_count, rest2) => parseConnList bitsToSim connection_count rest2

/-- Mirrors `find_artist_position`: index lookup. -/
def find_artist_position (artist_id : ArtistId) (graph_index : List (ArtistId × Nat)) :
    Option Nat :=
  graph_index.lookup artist_id

/-- Mirrors `get_artist_connections` in `core/src/pathfinding/utils.rs`.
`graph_data.drop pos` is the cursor `Cursor::new(&graph_data[position..])`;
the early `return vec![]` branches are the `None` index lookup and the
`file_position >= graph_data.len()` bound check; parse errors (UUID
mismatch, truncated record) also yield the empty list. -/
def get_artist_connections (bitsToSim : Nat → Sim) (artist_id : ArtistId)
    (graph_data : Bytes) (graph_index : List (ArtistId × Nat))
    (config : PathfindingConfig) : List PathStep :=
  match find_artist_position artist_id graph_index with
  | none => []
  | some file_position =>
    if graph_data.length ≤ file_position then []
    else
      match parse_artist_connections bitsToSim artist_id (graph_data.drop file_position) with
      | some raw_connections => filter_and_sort_connections raw_connections config
      | none => []

/-- Example data used to witness the accessor claims: one well-formed record
for artist 1 with connections to artists 2 (bits 100) and 3 (bits 900). -/
def exData : Bytes :=
  [1] ++ List.replicate 15 0 ++ [2, 0, 0, 0] ++
    ([2] ++ List.replicate 15 0 ++ [100, 0, 0, 0]) ++
    ([3] ++ List.replicate 15 0 ++ [132, 3, 0, 0])

/-- Bit-pattern decoding used in the witnesses. -/
def exBitsToSim : Nat → Sim := fun bits => (bits : Rat) / 1000

/-- Index for the example data. -/
def exIndex : List (ArtistId × Nat) := [(1, 0)]

/-! ### Bidirectional BFS (`core/src/pathfinding/bfs/state.rs`)

The search interacts with the graph files only through
`get_artist_connections(u, data, index, config)`; the embedding abstracts
that call as a function `ArtistId → List PathStep` ("the filtered graph"),
one per direction. -/

/-- A filtered adjacency accessor: `conn u` is the list returned by
`get_artist_connections` for `u` on a fixed mmap/index/config. -/
abbrev ConnFun := ArtistId → List PathStep

/-- Parent map `child ↦ (parent, edge_similarity)`. -/
abbrev ParentMap := List (ArtistId × (ArtistId × Sim))

/-- `HashSet::insert` on a membership list. -/
def insertOnce (x : ArtistId) (l : List ArtistId) : List ArtistId :=
  if x ∈ l then l else x :: l

/-- The local variables of `BfsState::find_path_to_target`. -/
structure BfsSearchState where
  forward_queue : List ArtistId
  reverse_queue : List ArtistId
  forward_visited : List ArtistId
  reverse_visited : List ArtistId
  forward_queued : List ArtistId
  reverse_queued : List ArtistId
  forward_parent : ParentMap
  reverse_parent : ParentMap
  all_visited : List ArtistId

/-- Initialization of `find_path_to_target`: enqueue `start` forward and
`target` reverse, mark both queued, clear `self.visited`. -/
def initBfsState (start target : ArtistId) : BfsSearchState :=
  ⟨[start], [target], [], [], [start], [target], [], [], []⟩

/-- Step 1 of `reconstruct_bidirectional_path`: walk forward parents from
the meeting point back towards `start`, pushing `(current, similarity)`;
stop at `start` or on a missing entry (the `break`).  The Rust loop has no
fuel; any fuel of at least `pm.length` reproduces every terminating
execution, since a longer walk would revisit a key and hence loop forever. -/
def walkToStart (pm : ParentMap) (start : ArtistId) : Nat → ArtistId → List PathStep
  | 0, _ => []
  | fuel + 1, current =>
    if current = start then []
    else
      match pm.lookup current with
      | some (parent, similarity) => (current, similarity) :: walkToStart pm start fuel parent
      | none => []

/-- Step 2 of `reconstruct_bidirectional_path`: walk reverse parents from
the meeting point towards `target`, pushing `(parent, similarity)`. -/
def walkToTarget (pm : ParentMap) (target : ArtistId) : Nat → ArtistId → List PathStep
  | 0, _ => []
  | fuel + 1, current =>
    if current = target then []
    else
      match pm.lookup current with
      | some (parent, similarity) => (parent, similarity) :: walkToTarget pm target fuel parent
      | none => []

/-- Mirrors `BfsState::reconstruct_bidirectional_path`: reverse the walk to
`start` (with the `(start, 0.0)` sentinel appended) and append the walk to
`target`. -/
def reconstruct_bidirectional_path (forward_parent reverse_parent : ParentMap)
    (start target meeting_point : ArtistId) : List PathStep :=
  let fuel := forward_parent.length + reverse_parent.length + 2
  ((walkToStart forward_parent start fuel meeting_point ++ [(start, 0)]).reverse) ++
    walkToTarget reverse_parent target fuel meeting_point

/-- The `for (neighbor, similarity) in connections` loop of an expansion:
record the parent and enqueue every neighbor not yet visited or queued on
this side.  Returns the updated `(queue, queued, parent)`. -/
def enqueueNeighbors (current : ArtistId) :
    List PathStep → List ArtistId → List ArtistId → List ArtistId → ParentMap →
    List ArtistId × List ArtistId × ParentMap
  | [], queue, _, queued, parent => (queue, queued, parent)
  | (neighbor, similarity) :: rest, queue, visited, queued, parent =>
    if neighbor ∉ visited ∧ neighbor ∉ queued then
      enqueueNeighbors current rest (queue ++ [neighbor]) visited (neighbor :: queued)
        ((neighbor, (current, similarity)) :: parent)
    else
      enqueueNeighbors current rest queue visited queued parent

/-- Result of one iteration of the `while` loop: either an early `return`
with a reconstructed path, or the state for the next iteration. -/
inductive BfsIterResult where
  | found (path : List PathStep) (st : BfsSearchState)
  | next (st : BfsSearchState)

/-- The reverse half of one `while` iteration of `find_path_to_target`. -/
def bfsIterReverse (connR : ConnFun) (start target : ArtistId)
    (st : BfsSearchState) : BfsIterResult :=
  match st.reverse_queue with
  | [] => .next st
  | current :: rest =>
    let st1 := { st with reverse_queue := rest }
    if current ∈ st1.reverse_visited then .next st1
    else
      let st2 := { st1 with
        reverse_visited := current :: st1.reverse_visited,
        reverse_queued := st1.reverse_queued.erase current,
        all_visited := insertOnce current st1.all_visited }
      if current ∈ st2.forward_visited then
        .found (reconstruct_bidirectional_path st2.forward_parent st2.reverse_parent
          start target current) st2
      else
        let enqRes := enqueueNeighbors current (connR current) st2.reverse_queue
          st2.reverse_visited st2.reverse_queued st2.reverse_parent
        .next { st2 with
          reverse_queue := enqRes.1,
          reverse_queued := enqRes.2.1,
          reverse_parent := enqRes.2.2 }

/-- One full iteration of the `while` loop: forward expansion, then (unless
the forward branch hit `continue` or returned) reverse expansion. -/
def bfsLoopIter (connF connR : ConnFun) (start target : ArtistId)
    (st : BfsSearchState) : BfsIterResult :=
  match st.forward_queue with
  | [] => bfsIterReverse connR start target st
  | current :: rest =>
    let st1 := { st with forward_queue := rest }
    if current ∈ st1.forward_visited then .next st1
    else
      let st2 := { st1 with
        forward_visited := current :: st1.forward_visited,
        forward_queued := st1.forward_queued.erase current,
        all_visited := insertOnce current st1.all_visited }
      if current ∈ st2.reverse_visited then
        .found (reconstruct_bidirectional_path st2.forward_parent st2.reverse_parent
          start target current) st2
      else
        let enqRes := enqueueNeighbors current (connF current) st2.forward_queue
          st2.forward_visited st2.forward_queued st2.forward_parent
        bfsIterReverse connR start target { st2 with
          forward_queue := enqRes.1,
          forward_queued := enqRes.2.1,
          forward_parent := enqRes.2.2 }

/-- The `while !forward_queue.is_empty() || !reverse_queue.is_empty()` loop.
`none` means the fuel ran out (a model artifact; enough fuel always exists,
see `bfsLoop_total`). -/
def bfsLoop (connF connR : ConnFun) (start target : ArtistId) :
    Nat → BfsSearchState → Option (Option (List PathStep) × BfsSearchState)
  | 0, st =>
    if st.forward_queue = [] ∧ st.reverse_queue = [] then some (none, st) else none
  | fuel + 1, st =>
    if st.forward_queue = [] ∧ st.reverse_queue = [] then some (none, st)
    else
      match bfsLoopIter connF connR start target st with
      | .found p st' => some (some p, st')
      | .next st' => bfsLoop connF connR start target fuel st'

/-- Mirrors `BfsState::find_path_to_target` (plus the `visited` count that
`bfs_find_path` reads off afterwards).  The elapsed-time output is omitted. -/
def find_path_to_target (connF connR : ConnFun) (start target : ArtistId)
    (fuel : Nat) : Option (Option (List PathStep) × Nat) :=
  (bfsLoop connF connR start target fuel (initBfsState start target)).map
    (fun r => (r.1, r.2.all_visited.length))

/-- Mirrors `bfs_find_path` in `core/src/pathfinding/bfs/mod.rs`. -/
def bfs_find_path (connF connR : ConnFun) (start target : ArtistId)
    (fuel : Nat) : Option (Option (List PathStep) × Nat) :=
  find_path_to_target connF connR start target fuel

/-! ### Bidirectional Dijkstra (`core/src/pathfinding/dijkstra.rs`) -/

/-- `FxHashMap::insert`: replace in place or append. -/
def mapInsert {α : Type} (k : ArtistId) (v : α) :
    List (ArtistId × α) → List (ArtistId × α)
  | [] => [(k, v)]
  | (k', v') :: rest => if k' = k then (k, v) :: rest else (k', v') :: mapInsert k v rest

/-- `HashSet::extend`: add all the elements of `b` to `a`. -/
def listUnion (a b : List ArtistId) : List ArtistId :=
  b.foldl (fun acc x => insertOnce x acc) a

/-- `BinaryHeap::pop` through the `DijkstraNode` ordering: remove an entry of
minimal cost (the reversed `partial_cmp`).  Rust leaves the choice among
equal costs unspecified; the model takes the earliest-pushed minimal entry,
and no theorem below depends on the tie order. -/
def popMinCost : List (Sim × ArtistId) → Option ((Sim × ArtistId) × List (Sim × ArtistId))
  | [] => none
  | e :: rest =>
    match popMinCost rest with
    | none => some (e, [])
    | some (m, rest') => if e.1 ≤ m.1 then some (e, rest) else some (m, e :: rest')

/-- The per-side state of `DijkstraState` in `core/src/pathfinding/dijkstra.rs`. -/
structure DijkstraState where
  heap : List (Sim × ArtistId)
  distances : List (ArtistId × Sim)
  parent_map : ParentMap
  visited : List ArtistId

/-- `DijkstraState::new`: push `(0.0, start)`, set its distance to 0. -/
def DijkstraState.init (start : ArtistId) : DijkstraState :=
  ⟨[(0, start)], [(start, 0)], [], []⟩

/-- Mirrors `DijkstraState::visit_neighbor`: relax one edge. -/
def visit_neighbor (st : DijkstraState) (neighbor current : ArtistId)
    (similarity : Sim) (current_cost : Sim) : DijkstraState :=
  let edge_weight := 1 - similarity
  let new_cost := current_cost + edge_weight
  match st.distances.lookup neighbor with
  | some existing_cost =>
    if existing_cost ≤ new_cost then st
    else
      { st with
        distances := mapInsert neighbor new_cost st.distances,
        parent_map := mapInsert neighbor (current, similarity) st.parent_map,
        heap := st.heap ++ [(new_cost, neighbor)] }
  | none =>
    { st with
      distances := mapInsert neighbor new_cost st.distances,
      parent_map := mapInsert neighbor (current, similarity) st.parent_map,
      heap := st.heap ++ [(new_cost, neighbor)] }

/-- Mirrors `reconstruct_bidirectional_dijkstra_path`.  Both halves are the
same walk as step 1 of the BFS reconstruction (pushing
`(current, similarity)`), the reverse half ending with a `(target, 0.0)`
sentinel; the meeting point is dropped from the reverse half (`skip(1)`),
which is only nonempty when it has more than one element. -/
def reconstruct_bidirectional_dijkstra_path (forward_parent reverse_parent : ParentMap)
    (start target meeting_point : ArtistId) : List PathStep :=
  let fuel := forward_parent.length + reverse_parent.length + 2
  let path_to_start := walkToStart forward_parent start fuel meeting_point ++ [(start, 0)]
  let path_to_target := walkToStart reverse_parent target fuel meeting_point ++ [(target, 0)]
  path_to_start.reverse ++
    (if 1 < path_to_target.length then path_to_target.drop 1 else [])

/-- The forward half of one iteration of the `loop` in `dijkstra_find_path`:
returns (early-return path if any, updated forward state, `forward_finished`). -/
def dijStepForward (connF : ConnFun) (start target : ArtistId)
    (fwd rev : DijkstraState) : Option (List PathStep) × DijkstraState × Bool :=
  match popMinCost fwd.heap with
  | none => (none, fwd, true)
  | some ((forward_cost, forward_current), heap') =>
    let fwd1 := { fwd with heap := heap' }
    if forward_current ∈ fwd1.visited then (none, fwd1, false)
    else if forward_current ∈ rev.visited then
      (some (reconstruct_bidirectional_dijkstra_path fwd1.parent_map rev.parent_map
        start target forward_current), fwd1, false)
    else
      let fwd2 := { fwd1 with visited := forward_current :: fwd1.visited }
      let fwd3 := (connF forward_current).foldl
        (fun s p => visit_neighbor s p.1 forward_current p.2 forward_cost) fwd2
      (none, fwd3, false)

/-- The reverse half of one iteration of the `loop` in `dijkstra_find_path`. -/
def dijStepReverse (connR : ConnFun) (start target : ArtistId)
    (fwd rev : DijkstraState) : Option (List PathStep) × DijkstraState × Bool :=
  match popMinCost rev.heap with
  | none => (none, rev, true)
  | some ((reverse_cost, reverse_current), heap') =>
    let rev1 := { rev with heap := heap' }
    if reverse_current ∈ rev1.visited then (none, rev1, false)
    else if reverse_current ∈ fwd.visited then
      (some (reconstruct_bidirectional_dijkstra_path fwd.parent_map rev1.parent_map
        start target reverse_current), rev1, false)
    else
      let rev2 := { rev1 with visited := reverse_current :: rev1.visited }
      let rev3 := (connR reverse_current).foldl
        (fun s p => visit_neighbor s p.1 reverse_current p.2 reverse_cost) rev2
      (none, rev3, false)

/-- The `loop { ... }` of `dijkstra_find_path`; the returned `Nat` is the
size of `all_visited` (`forward.visited ∪ reverse.visited`). -/
def dijkstraLoop (connF connR : ConnFun) (start target : ArtistId) :
    Nat → DijkstraState → DijkstraState → Option (Option (List PathStep) × Nat)
  | 0, _, _ => none
  | fuel + 1, fwd, rev =>
    match dijStepForward connF start target fwd rev with
    | (some p, fwd', _) => some (some p, (listUnion fwd'.visited rev.visited).length)
    | (none, fwd', forward_finished) =>
      match dijStepReverse connR start target fwd' rev with
      | (some p, rev', _) => some (some p, (listUnion fwd'.visited rev'.visited).length)
      | (none, rev', reverse_finished) =>
        if forward_finished ∧ reverse_finished then
          some (none, (listUnion fwd'.visited rev'.visited).length)
        else dijkstraLoop connF connR start target fuel fwd' rev'

/-- Mirrors `dijkstra_find_path` (elapsed time omitted). -/
def dijkstra_find_path (connF connR : ConnFun) (start target : ArtistId)
    (fuel : Nat) : Option (Option (List PathStep) × Nat) :=
  dijkstraLoop connF connR start target fuel
    (DijkstraState.init start) (DijkstraState.init target)

/-- A chain of parent-map entries from `v` back to `src` in `n` steps. -/
inductive StepsToStart (pm : ParentMap) (src : ArtistId) : ArtistId → Nat → Prop
  | base : StepsToStart pm src src 0
  | step {v u : ArtistId} {s : Sim} {n : Nat} :
      v ≠ src → pm.lookup v = some (u, s) → StepsToStart pm src u n →
      StepsToStart pm src v (n + 1)

/-- Characterization of `walkToStart`: the list pushed while walking from
`v` to `src`, pairing each node with the similarity stored on its own
entry. -/
inductive FwdWalkOK (pm : ParentMap) (src : ArtistId) : ArtistId → List PathStep → Prop
  | nil : FwdWalkOK pm src src []
  | cons {v u : ArtistId} {s : Sim} {rest : List PathStep} :
      v ≠ src → pm.lookup v = some (u, s) → FwdWalkOK pm src u rest →
      FwdWalkOK pm src v ((v, s) :: rest)

/-- Characterization of `walkToTarget`: the list pushed while walking from
`v` to `tgt`, pairing each *parent* with the similarity stored on the
child's entry. -/
inductive RevWalkOK (pm : ParentMap) (tgt : ArtistId) : ArtistId → List PathStep → Prop
  | nil : RevWalkOK pm tgt tgt []
  | cons {v u : ArtistId} {s : Sim} {rest : List PathStep} :
      v ≠ tgt → pm.lookup v = some (u, s) → RevWalkOK pm tgt u rest →
      RevWalkOK pm tgt v ((u, s) :: rest)

/-- Postconditions of the neighbor-enqueueing loop, relative to its inputs. -/
structure EnqPost (current : ArtistId) (conns : List PathStep) (src : ArtistId)
    (q vis qd : List ArtistId) (pm : ParentMap)
    (q' qd' : List ArtistId) (pm' : ParentMap) : Prop where
  qq : ∀ v : ArtistId, v ∈ q' ↔ v ∈ qd'
  qnd : q'.Nodup
  qdnd : qd'.Nodup
  dj : ∀ v ∈ vis, v ∉ qd'
  keys : ∀ (v : ArtistId) (e : ArtistId × Sim), pm'.lookup v = some e → v ∈ vis ∨ v ∈ qd'
  entries : ∀ (v u : ArtistId) (s : Sim), pm'.lookup v = some (u, s) →
    pm.lookup v = some (u, s) ∨ (u = current ∧ (v, s) ∈ conns ∧ v ∉ vis)
  preserved : ∀ (v : ArtistId) (e : ArtistId × Sim),
    pm.lookup v = some e → pm'.lookup v = some e
  len : pm.length ≤ pm'.length
  qsub : ∀ v ∈ q, v ∈ q'
  qdsub : ∀ v ∈ qd, v ∈ qd'
  covered : ∀ p ∈ conns, p.1 ∈ vis ∨ p.1 ∈ qd'
  qdnew : ∀ v ∈ qd', v ∈ qd ∨ ∃ s : Sim, (v, s) ∈ conns
  qnew : ∀ v ∈ q', v ∈ q ∨ ∃ s : Sim, (v, s) ∈ conns
  chains : ∀ v : ArtistId, (v ∈ vis ∨ v ∈ qd') →
    ∃ n ≤ pm'.length, StepsToStart pm' src v n

/-! ### Invariants of the bidirectional BFS loop -/

/-- Per-side invariant of the search loop, tying together queue, visited
set, queued set and parent map of one direction. -/
structure SideInv (conn : ConnFun) (src : ArtistId)
    (queue vis queued : List ArtistId) (pm : ParentMap) : Prop where
  qq : ∀ v : ArtistId, v ∈ queue ↔ v ∈ queued
  qnd : queue.Nodup
  qdnd : queued.Nodup
  vnd : vis.Nodup
  dj : ∀ v ∈ vis, v ∉ queued
  keys : ∀ (v : ArtistId) (e : ArtistId × Sim), pm.lookup v = some e →
    v ∈ vis ∨ v ∈ queued
  edges : ∀ (v u : ArtistId) (s : Sim), pm.lookup v = some (u, s) →
    (v, s) ∈ conn u ∧ u ≠ v ∧ u ∈ vis
  chains : ∀ v : ArtistId, (v ∈ vis ∨ v ∈ queued) →
    ∃ n ≤ pm.length, StepsToStart pm src v n
  srcq : src ∈ vis ∨ src ∈ queue
  closed : ∀ u ∈ vis, ∀ p ∈ conn u, p.1 ∈ vis ∨ p.1 ∈ queued

/-- Whole-state invariant of `find_path_to_target`. -/
structure BfsInv (connF connR : ConnFun) (start target : ArtistId)
    (st : BfsSearchState) : Prop where
  fwd : SideInv connF start st.forward_queue st.forward_visited
    st.forward_queued st.forward_parent
  rev : SideInv connR target st.reverse_queue st.reverse_visited
    st.reverse_queued st.reverse_parent
  fr : ∀ v ∈ st.forward_visited, v ∉ st.reverse_visited

/-- One consecutive pair of a returned path: an edge of the filtered forward
graph entering the second node, or a transposed edge of the filtered
reverse graph, in both cases labelled with the second node's similarity;
the two nodes are distinct. -/
def BfsEdgeProp (connF connR : ConnFun) (x y : PathStep) : Prop :=
  ((y.1, y.2) ∈ connF x.1 ∨ (x.1, y.2) ∈ connR y.1) ∧ x.1 ≠ y.1

/-- Soundness package for a path returned by the bidirectional BFS. -/
def BfsPathProps (connF connR : ConnFun) (start target : ArtistId)
    (p : List PathStep) : Prop :=
  p.head? = some (start, 0) ∧ (p.getLast?).map Prod.fst = some target ∧
  List.Chain' (BfsEdgeProp connF connR) p

/-- One step of the connection relation: there is a filtered edge from `a`
to `b`. -/
def connStep (conn : ConnFun) (a b : ArtistId) : Prop := ∃ s : Sim, (b, s) ∈ conn a

/-- The filtered-graph closure condition used for termination bounds. -/
def ClosedUnder (conn : ConnFun) (V : Finset ArtistId) : Prop :=
  ∀ v ∈ V, ∀ p ∈ conn v, p.1 ∈ V

/-- All four worklists of the search stay inside `V`. -/
def BoundBy (V : Finset ArtistId) (st : BfsSearchState) : Prop :=
  (∀ v ∈ st.forward_queue, v ∈ V) ∧ (∀ v ∈ st.forward_visited, v ∈ V) ∧
  (∀ v ∈ st.reverse_queue, v ∈ V) ∧ (∀ v ∈ st.reverse_visited, v ∈ V)

/-! ### Claim C1 -/

/-- Counterexample graph 1 (optimality failure), forward accessor: node 1
has filtered out-edges to 2, 3, 4 (similarity-descending, as
`get_artist_connections` returns them), node 2 to 4, node 4 to 5. -/
def bfsCexConnF : ConnFun := fun u =>
  if u = 1 then [(2, 9/10), (3, 8/10), (4, 1/10)]
  else if u = 2 then [(4, 9/10)]
  else if u = 4 then [(5, 7/10)]
  else []

/-- Counterexample graph 1, reverse accessor (exact transpose of
`bfsCexConnF`, each list similarity-descending): no filter asymmetry. -/
def bfsCexConnR : ConnFun := fun u =>
  if u = 5 then [(4, 7/10)]
  else if u = 4 then [(2, 9/10), (1, 1/10)]
  else if u = 2 then [(1, 9/10)]
  else if u = 3 then [(1, 8/10)]
  else []

/-- Counterexample graph 2 (truncation asymmetry), forward accessor under
`top_related = 1`: the full graph is 1→2 (0.9), 2→3 (0.9), 2→4 (0.5),
3→4 (0.4); node 2's record keeps only its best edge, so 2→4 is dropped
from the forward side. -/
def bfsCexConnF2 : ConnFun := fun u =>
  if u = 1 then [(2, 9/10)]
  else if u = 2 then [(3, 9/10)]
  else if u = 3 then [(4, 4/10)]
  else []

/-- Counterexample graph 2, reverse accessor under `top_related = 1`:
node 4's reverse record keeps only its best in-edge 2→4 (0.5), dropping
3→4 (0.4); so the reverse side sees 2→4 while the forward side does not. -/
def bfsCexConnR2 : ConnFun := fun u =>
  if u = 4 then [(2, 5/10)]
  else if u = 2 then [(1, 9/10)]
  else if u = 3 then [(2, 9/10)]
  else []

/-- Tiny witness graph for C1: a single forward edge 1→2 and its reverse. -/
def c1wF : ConnFun := fun u => if u = 1 then [(2, 1)] else []

/-- Reverse accessor of the witness graph. -/
def c1wR : ConnFun := fun u => if u = 2 then [(1, 1)] else []

/-- Counterexample graph for C2, forward accessor: 1→2 (0.9), 2→3 (0.8). -/
def dijCexConnF : ConnFun := fun u =>
  if u = 1 then [(2, 9/10)]
  else if u = 2 then [(3, 4/5)]
  else []

/-- Counterexample graph for C2, reverse accessor (exact transpose). -/
def dijCexConnR : ConnFun := fun u =>
  if u = 3 then [(2, 4/5)]
  else if u = 2 then [(1, 9/10)]
  else []

/-! ### Path-plus-context (`core/src/pathfinding/mod.rs`,
`core/src/pathfinding/bfs/neighborhood.rs`) -/

/-- `DiscoveredArtists = FxHashMap<Uuid, (f32, usize)>` as an association
list with unique keys (maintained by `mapInsert`). -/
abbrev DiscoveredArtists := List (ArtistId × (Sim × Nat))

/-- `ArtistConnections = FxHashMap<Uuid, Vec<(Uuid, f32)>>`. -/
abbrev ArtistConnections := List (ArtistId × List PathStep)

/-- One step of the duplicate-avoiding merge in `collect_path_connections`
and `add_neighbors_to_discovered`: find the first forward entry with the
same id and keep the higher similarity, else push at the end. -/
def mergeOne : List PathStep → PathStep → List PathStep
  | [], p => [p]
  | q :: rest, p =>
    if q.1 = p.1 then (if q.2 < p.2 then (q.1, p.2) :: rest else q :: rest)
    else q :: mergeOne rest p

/-- Merge reverse-graph connections into the forward-graph list. -/
def mergeConnections (fwd rev : List PathStep) : List PathStep :=
  rev.foldl mergeOne fwd

/-- Mirrors `collect_path_connections`. -/
def collect_path_connections (path : List PathStep) (connF connR : ConnFun) :
    ArtistConnections :=
  path.foldl
    (fun conns p => mapInsert p.1 (mergeConnections (connF p.1) (connR p.1)) conns) []

/-- The `entry(neighbor).or_insert({0.0, 0})` update of
`analyze_neighbor_connectivity`: take the max similarity and bump the
path-connection count. -/
def bumpInfo : List (ArtistId × (Sim × Nat)) → PathStep → List (ArtistId × (Sim × Nat))
  | [], p => [(p.1, (max 0 p.2, 1))]
  | (k, (s, c)) :: rest, p =>
    if k = p.1 then (k, (max s p.2, c + 1)) :: rest
    else (k, (s, c)) :: bumpInfo rest p

/-- Mirrors `analyze_neighbor_connectivity`. -/
def analyze_neighbor_connectivity (path : List PathStep)
    (path_connections : ArtistConnections) : List (ArtistId × (Sim × Nat)) :=
  path_connections.foldl
    (fun info e => e.2.foldl
      (fun i p => if p.1 ∈ path.map Prod.fst then i else bumpInfo i p) info) []

/-- The comparator of `prioritize_neighbors`: connection count descending,
then similarity descending. -/
def prioGE (a b : ArtistId × (Sim × Nat)) : Prop :=
  b.2.2 < a.2.2 ∨ (a.2.2 = b.2.2 ∧ b.2.1 ≤ a.2.1)

instance : DecidableRel prioGE := fun a b => by
  unfold prioGE
  infer_instance

/-- Mirrors `prioritize_neighbors` (stable sort by the comparator). -/
def prioritize_neighbors (info : List (ArtistId × (Sim × Nat))) :
    List (ArtistId × (Sim × Nat)) :=
  info.insertionSort prioGE

/-- Mirrors `add_neighbors_to_discovered` (the `break` when the budget is
reached, the vacancy check, and the merged-connection fetch for admitted
neighbors). -/
def add_neighbors_to_discovered (connF connR : ConnFun) (budget path_length : Nat) :
    List (ArtistId × (Sim × Nat)) → DiscoveredArtists × ArtistConnections →
    DiscoveredArtists × ArtistConnections
  | [], st => st
  | (nb, (sim, _)) :: rest, (d, ac) =>
    if budget ≤ d.length then (d, ac)
    else if (d.lookup nb).isSome then
      add_neighbors_to_discovered connF connR budget path_length rest (d, ac)
    else
      add_neighbors_to_discovered connF connR budget path_length rest
        (mapInsert nb (sim, path_length) d,
         mapInsert nb (mergeConnections (connF nb) (connR nb)) ac)

/-- Mirrors `explore_path_neighborhood`. -/
def explore_path_neighborhood (path : List PathStep) (budget : Nat)
    (connF connR : ConnFun) : DiscoveredArtists × ArtistConnections :=
  let discovered := path.enum.foldl (fun d q => mapInsert q.2.1 (q.2.2, q.1) d) []
  let all_connections := collect_path_connections path connF connR
  if budget - path.length = 0 then (discovered, all_connections)
  else
    add_neighbors_to_discovered connF connR budget path.length
      (prioritize_neighbors (analyze_neighbor_connectivity path all_connections))
      (discovered, all_connections)

/-- `utils::EnhancedPathResult` (timings omitted). -/
inductive EnhancedPathResult where
  | Success (primary_path : List PathStep) (related_artists : DiscoveredArtists)
      (connections : ArtistConnections) (artists_visited : Nat)
  | PathTooLong (primary_path : List PathStep)
      (path_length minimum_budget_needed artists_visited : Nat)
  | NoPath (artists_visited : Nat)
deriving DecidableEq

/-- Mirrors `handle_successful_path_generic`. -/
def handle_successful_path_generic (path : List PathStep) (budget : Nat)
    (artists_visited : Nat) (connF connR : ConnFun) : EnhancedPathResult :=
  if budget < path.length then
    .PathTooLong path path.length path.length artists_visited
  else
    let r := explore_path_neighborhood path budget connF connR
    .Success path r.1 r.2 artists_visited

/-- `crate::Algorithm`. -/
inductive Algorithm where
  | dijkstra
  | bfs

/-- Mirrors `find_paths_with_exploration` (the primary-path search is the
chosen bidirectional algorithm; `none` is fuel exhaustion, a model
artifact). -/
def find_paths_with_exploration (alg : Algorithm) (connF connR : ConnFun)
    (start target : ArtistId) (budget fuel : Nat) : Option EnhancedPathResult :=
  match (match alg with
    | .dijkstra => dijkstra_find_path connF connR start target fuel
    | .bfs => bfs_find_path connF connR start target fuel) with
  | none => none
  | some (some path, artists_visited) =>
    some (handle_successful_path_generic path budget artists_visited connF connR)
  | some (none, artists_visited) => some (.NoPath artists_visited)

/-! ### Ego-graph exploration (`core/src/exploration/bfs.rs`,
`core/src/exploration/dijkstra.rs`) -/

/-- Mirrors `BfsExplorer::should_add_artist`. -/
def should_add_artist (index : List ArtistId) (discovered : DiscoveredArtists)
    (artist_id : ArtistId) (budget : Nat) : Bool :=
  !(discovered.lookup artist_id).isSome && index.contains artist_id &&
    decide (discovered.length < budget)

/-- One settled node of `BfsExplorer::discover_artists`: walk the (truncated)
connection list, admitting each eligible neighbor into the discovered map
and onto the back of the queue. -/
def bfs_admit_neighbors (index : List ArtistId) (budget layer : Nat)
    (conns : List PathStep) (discovered : DiscoveredArtists)
    (queue : List (ArtistId × Nat)) : DiscoveredArtists × List (ArtistId × Nat) :=
  conns.foldl
    (fun st p =>
      if should_add_artist index st.1 p.1 budget then
        (mapInsert p.1 (p.2, layer + 1) st.1, st.2 ++ [(p.1, layer + 1)])
      else st)
    (discovered, queue)

/-- The `while !queue.is_empty() && discovered.len() < budget` loop of
`BfsExplorer::discover_artists`; `conn` abstracts the cached accessor and
`max_relations` its truncation.  `none` is fuel exhaustion (a model
artifact). -/
def discover_artists (conn : ConnFun) (index : List ArtistId)
    (max_relations budget : Nat) :
    Nat → List (ArtistId × Nat) → DiscoveredArtists → Option DiscoveredArtists
  | 0, queue, discovered =>
    if queue = [] ∨ budget ≤ discovered.length then some discovered else none
  | fuel + 1, queue, discovered =>
    if queue = [] ∨ budget ≤ discovered.length then some discovered
    else
      match queue with
      | [] => some discovered
      | (current, layer) :: rest =>
        let res := bfs_admit_neighbors index budget layer
          ((conn current).take max_relations) discovered rest
        discover_artists conn index max_relations budget fuel res.2 res.1

/-- `discover_artists` from the initial state (`center` queued at layer 0
and pre-discovered with similarity 1.0). -/
def explore_bfs_discover (conn : ConnFun) (index : List ArtistId)
    (max_relations budget : Nat) (center : ArtistId) (fuel : Nat) :
    Option DiscoveredArtists :=
  discover_artists conn index max_relations budget fuel
    [(center, 0)] [(center, (1, 0))]

/-- Reachability from the center through the truncated filtered connection
lists, stepping only onto artists present in the graph index — exactly the
nodes `discover_artists` can ever admit. -/
inductive ReachAdm (conn : ConnFun) (index : List ArtistId) (max_relations : Nat)
    (center : ArtistId) : ArtistId → Prop
  | base : ReachAdm conn index max_relations center center
  | step {u v : ArtistId} {s : Sim} :
      ReachAdm conn index max_relations center u →
      (v, s) ∈ (conn u).take max_relations → v ∈ index →
      ReachAdm conn index max_relations center v

/-- The per-run state of `explore_dijkstra`. -/
structure ExplorationState where
  heap : List (Sim × ArtistId)
  distances : List (ArtistId × Sim)
  discovered : DiscoveredArtists
  visited : List ArtistId

/-- The initialization of `explore_dijkstra`: center pushed at cost 0,
distance 0, discovered with `(1.0, 0)`. -/
def initExplorationState (center : ArtistId) : ExplorationState :=
  ⟨[(0, center)], [(center, 0)], [(center, (1, 0))], []⟩

/-- `1 + (new_cost * 5.0) as usize` (layer 0 for the center); the `as usize`
cast truncates toward zero and maps negative values to 0. -/
def explLayer (center neighbor : ArtistId) (new_cost : Sim) : Nat :=
  if neighbor = center then 0 else 1 + (new_cost * 5).floor.toNat

/-- The neighbor-relaxation body of the `explore_dijkstra` loop. -/
def expl_visit_neighbor (center : ArtistId) (cost : Sim) (st : ExplorationState)
    (p : PathStep) : ExplorationState :=
  if p.1 ∈ st.visited then st
  else
    let new_cost := cost + (1 - p.2)
    let is_better := match st.distances.lookup p.1 with
      | some existing => decide (new_cost < existing)
      | none => true
    if is_better then
      { st with
        distances := mapInsert p.1 new_cost st.distances,
        heap := st.heap ++ [(new_cost, p.1)],
        discovered :=
          mapInsert p.1 (p.2, explLayer center p.1 new_cost) st.discovered }
    else st

/-- The `sorted_costs.get(budget - 1)` threshold of the stopping check. -/
def budget_threshold (distances : List (ArtistId × Sim)) (budget : Nat) :
    Option Sim :=
  ((distances.map Prod.snd).insertionSort (fun a b => a ≤ b)).get? (budget - 1)

/-- The full stopping condition of `explore_dijkstra`. -/
def breakCheck (distances : List (ArtistId × Sim)) (discLen budget : Nat)
    (cost : Sim) : Bool :=
  decide (budget ≤ discLen) &&
    (match budget_threshold distances budget with
     | some thr => decide (thr < cost)
     | none => false)

/-- The `while let Some(node) = heap.pop()` loop of `explore_dijkstra`.
`none` is fuel exhaustion (a model artifact). -/
def explore_dijkstra_loop (conn : ConnFun) (center : ArtistId)
    (budget max_relations : Nat) :
    Nat → ExplorationState → Option ExplorationState
  | 0, _ => none
  | fuel + 1, st =>
    match popMinCost st.heap with
    | none => some st
    | some ((cost, current), heap') =>
      if breakCheck st.distances st.discovered.length budget cost then some st
      else
        let st1 := { st with heap := heap' }
        if current ∈ st1.visited then
          explore_dijkstra_loop conn center budget max_relations fuel st1
        else
          let st2 := { st1 with visited := insertOnce current st1.visited }
          let st3 := ((conn current).take max_relations).foldl
            (expl_visit_neighbor center cost) st2
          explore_dijkstra_loop conn center budget max_relations fuel st3

/-- Mirrors `select_optimal_subset`: sort the distance table by cost
ascending, keep the cheapest `budget` artists, and rebuild the
`(similarity, layer)` map for them. -/
def select_optimal_subset (center : ArtistId) (distances : List (ArtistId × Sim))
    (budget : Nat) : DiscoveredArtists :=
  let candidates := distances.insertionSort (fun a b => a.2 ≤ b.2)
  let selected := (candidates.take budget).map Prod.fst
  selected.foldl
    (fun r id =>
      let cost := (distances.lookup id).getD 0
      mapInsert id
        (if id = center then ((1 : Sim), 0)
         else (1 - cost, 1 + (cost * 5).floor.toNat)) r)
    []

/-- Reachability from the center through the truncated filtered connection
lists (the Dijkstra explorer admits neighbors without an index check). -/
inductive ReachD (conn : ConnFun) (max_relations : Nat) (center : ArtistId) :
    ArtistId → Prop
  | base : ReachD conn max_relations center center
  | step {u v : ArtistId} {s : Sim} :
      ReachD conn max_relations center u →
      (v, s) ∈ (conn u).take max_relations →
      ReachD conn max_relations center v

/-- Run invariant of `BfsExplorer::discover_artists`: queued artists are
discovered, discovered artists are admissible-reachable, the map is within
budget, every discovered artist is still queued or has had its admissible
neighbors handled (unless the budget filled), and the center stays
discovered. -/
structure BfsExpInv (conn : ConnFun) (index : List ArtistId)
    (max_relations budget : Nat) (center : ArtistId)
    (queue : List (ArtistId × Nat)) (d : DiscoveredArtists) : Prop where
  qmem : ∀ e ∈ queue, ((d.lookup e.1).isSome)
  reach : ∀ a : ArtistId, (d.lookup a).isSome →
    ReachAdm conn index max_relations center a
  lenle : d.length ≤ budget
  closed : ∀ a : ArtistId, (d.lookup a).isSome → a ∈ queue.map Prod.fst ∨
    ∀ p ∈ (conn a).take max_relations, p.1 ∈ index →
      ((d.lookup p.1).isSome ∨ d.length = budget)
  cmem : (d.lookup center).isSome

/-- Run invariant of the `explore_dijkstra` loop. -/
structure DijExpInv (conn : ConnFun) (max_relations : Nat) (center : ArtistId)
    (st : ExplorationState) : Prop where
  dnd : (st.distances.map Prod.fst).Nodup
  cnd : (st.discovered.map Prod.fst).Nodup
  keys : ∀ a : ArtistId,
    ((st.discovered.lookup a).isSome) ↔ ((st.distances.lookup a).isSome)
  vis : ∀ a ∈ st.visited, ((st.distances.lookup a).isSome)
  heapk : ∀ e ∈ st.heap, ((st.distances.lookup e.2).isSome)
  closed : ∀ u ∈ st.visited, ∀ p ∈ (conn u).take max_relations,
    ((st.distances.lookup p.1).isSome)
  actv : ∀ a : ArtistId, ((st.distances.lookup a).isSome) →
    a ∈ st.visited ∨ ∃ e ∈ st.heap, e.2 = a
  cmem : ((st.distances.lookup center).isSome)

/-- An artist with no stored connections (for concrete witnesses). -/
def c4wE : ConnFun := fun _ => []

/-! ### Ego-graph edge outputs (`core/src/exploration/bfs.rs`,
`web/backend/src/exploration.rs`) -/

/-- Mirrors `BfsExplorer::get_all_connections` (and the web explorer's
sibling): every discovered artist's (cached, truncated) connection list is
emitted unfiltered under its key. -/
def get_all_connections (conn : ConnFun) (max_relations : Nat)
    (discovered : DiscoveredArtists) : ArtistConnections :=
  (discovered.map Prod.fst).foldl
    (fun ac id => mapInsert id ((conn id).take max_relations) ac) []

/-- `GraphEdge { from, to, similarity }` of the web backend (`from`/`to`
renamed `fromId`/`toId`). -/
structure GraphEdge where
  fromId : ArtistId
  toId : ArtistId
  similarity : Sim
deriving DecidableEq

/-- Mirrors `ArtistExplorer::build_graph_edges`: keep a connection as an
edge only if the target is discovered and it is not a self-loop. -/
def build_graph_edges (discovered : DiscoveredArtists)
    (all_connections : ArtistConnections) : List GraphEdge :=
  all_connections.foldl
    (fun edges entry =>
      entry.2.foldl
        (fun edges p =>
          if ((discovered.lookup p.1).isSome) ∧ entry.1 ≠ p.1 then
            edges ++ [⟨entry.1, p.1, p.2⟩]
          else edges)
        edges)
    []

/-- A record carrying a self-loop (for the counterexample). -/
def c7loop : ConnFun := fun u => if u = 1 then [(1, 1)] else []

/-! ### Artist-name resolution (`cli/src/search.rs`, `core/src/parsing.rs`) -/

/-- Mirrors `find_best_artist_match`; `lower` abstracts
`str::to_lowercase` and `cleanq` abstracts `clean_str`.  The error payload
is the queried name (the message format is elided).  `artist_ids[0]` on
the nonempty list is `headD 0`. -/
def find_best_artist_match (lower cleanq : String → String) (name : String)
    (name_lookup : List (String × List ArtistId))
    (artist_metadata : List (ArtistId × String)) : Except String ArtistId :=
  match name_lookup.lookup (cleanq name) with
  | none => .error name
  | some artist_ids =>
    if artist_ids = [] then .error name
    else if artist_ids.length = 1 then .ok (artist_ids.headD 0)
    else
      match artist_ids.find? (fun id =>
        match artist_metadata.lookup id with
        | some nm => lower nm == lower name
        | none => false) with
      | some id => .ok id
      | none => .ok (artist_ids.headD 0)

/-! ### Name normalization (`core/src/string_normalization.rs`) -/

/-- `char::is_whitespace` restricted to the ASCII range (the pipeline
applies it after transliteration to ASCII): U+0009–U+000D and U+0020. -/
def isWs (c : Char) : Bool :=
  c ∈ [' ', '\t', '\n', Char.ofNat 11, Char.ofNat 12, '\r']

/-- `str::to_lowercase` on ASCII input: map A–Z to a–z. -/
def toLowerAscii (c : Char) : Char :=
  if 'A' ≤ c ∧ c ≤ 'Z' then Char.ofNat (c.toNat + 32) else c

/-- `str::trim`: drop whitespace from both ends. -/
def trimL (s : List Char) : List Char :=
  ((s.dropWhile isWs).reverse.dropWhile isWs).reverse

/-- `split_whitespace` as an accumulator recursion: the maximal
whitespace-free chunks, in order. -/
def chunksAux : List Char → List Char → List (List Char)
  | [], acc => if acc = [] then [] else [acc.reverse]
  | c :: rest, acc =>
    if isWs c then
      if acc = [] then chunksAux rest []
      else acc.reverse :: chunksAux rest []
    else chunksAux rest (c :: acc)

/-- `.join(" ")`. -/
def joinSpace : List (List Char) → List Char
  | [] => []
  | [w] => w
  | w :: w2 :: ws => w ++ ' ' :: joinSpace (w2 :: ws)

/-- Mirrors `clean_str` over character lists; `translit` abstracts the
per-character `unidecode` transliteration table. -/
def clean_str (translit : Char → List Char) (s : List Char) : List Char :=
  joinSpace (chunksAux ((trimL (s.flatMap translit)).map toLowerAscii) [])

/-- A concrete transliteration table: identity on ASCII, `o` elsewhere. -/
def translitO (c : Char) : List Char := if c.toNat < 128 then [c] else ['o']

/-! ## Theorems -/

/-! ### Ordering lemmas for the connection filter and sort (claim C6) -/

theorem mem_take_of_mem_takeWhile_take {p : PathStep → Bool} {x : PathStep} :
    ∀ (L : List PathStep) (k : Nat), x ∈ ((L.takeWhile p).take k) → x ∈ L.take k := by
  intro L
  induction L with
  | nil => intro k h; simp at h
  | cons y ys ih =>
    intro k h
    by_cases hy : p y
    · rw [List.takeWhile_cons_of_pos hy] at h
      cases k with
      | zero => simp at h
      | succ k =>
        simp only [List.take_succ_cons, List.mem_cons] at h ⊢
        rcases h with h | h
        · exact Or.inl h
        · exact Or.inr (ih k h)
    · rw [List.takeWhile_cons_of_neg hy] at h
      simp at h

theorem takeWhile_takeWhile_of_imp {p q : PathStep → Bool}
    (himp : ∀ x, q x = true → p x = true) :
    ∀ L : List PathStep, L.takeWhile q = (L.takeWhile p).takeWhile q := by
  intro L
  induction L with
  | nil => rfl
  | cons y ys ih =>
    by_cases hq : q y
    · have hp : p y := himp y hq
      rw [List.takeWhile_cons_of_pos hq, List.takeWhile_cons_of_pos hp,
        List.takeWhile_cons_of_pos hq, ih]
    · by_cases hp : p y
      · rw [List.takeWhile_cons_of_neg (by simpa using hq), List.takeWhile_cons_of_pos hp,
          List.takeWhile_cons_of_neg (by simpa using hq)]
      · rw [List.takeWhile_cons_of_neg (by simpa using hq), List.takeWhile_cons_of_neg
          (by simpa using hp)]
        rfl

/-- In a descending-sorted list, filtering with an upward-closed predicate is
the same as taking the leading run satisfying it. -/
theorem filter_eq_takeWhile_of_sorted {p : PathStep → Bool}
    (hup : ∀ a b : PathStep, b.2 ≤ a.2 → p b = true → p a = true) :
    ∀ L : List PathStep, SortedBySimDesc L → L.filter p = L.takeWhile p := by
  intro L
  induction L with
  | nil => intro _; rfl
  | cons y ys ih =>
    intro hs
    have hs' : SortedBySimDesc ys := (List.sorted_cons.mp hs).2
    have hall : ∀ z ∈ ys, z.2 ≤ y.2 := fun z hz => (List.sorted_cons.mp hs).1 z hz
    by_cases hy : p y
    · rw [List.filter_cons_of_pos hy, List.takeWhile_cons_of_pos hy, ih hs']
    · have hnone : ∀ z ∈ ys, p z = false := by
        intro z hz
        by_contra hc
        have : p z = true := by revert hc; cases p z <;> simp
        exact hy (hup y z (hall z hz) this)
      rw [List.filter_cons_of_neg (by simpa using hy), List.takeWhile_cons_of_neg
        (by simpa using hy)]
      rw [List.filter_eq_nil_iff.mpr (fun z hz => by simp [hnone z hz])]

theorem filter_orderedInsert_of_all_neg {p : PathStep → Bool} {a : PathStep}
    (ha : p a = true) :
    ∀ L : List PathStep, (∀ z ∈ L, p z = false) →
      (List.orderedInsert simGE a L).filter p = [a] := by
  intro L
  induction L with
  | nil => intro _; simp [List.orderedInsert, ha]
  | cons c L' ih =>
    intro hall
    by_cases hac : simGE a c
    · rw [List.orderedInsert, if_pos hac]
      have hc : p c = false := hall c (by simp)
      have hrest : ∀ z ∈ L', p z = false := fun z hz => hall z (by simp [hz])
      rw [List.filter_cons_of_pos ha, List.filter_cons_of_neg (by simp [hc])]
      rw [List.filter_eq_nil_iff.mpr (fun z hz => by simp [hrest z hz])]
    · rw [List.orderedInsert, if_neg hac]
      have hc : p c = false := hall c (by simp)
      rw [List.filter_cons_of_neg (by simp [hc])]
      exact ih (fun z hz => hall z (by simp [hz]))

theorem filter_orderedInsert_neg {p : PathStep → Bool} {a : PathStep}
    (ha : p a = false) :
    ∀ L : List PathStep, (List.orderedInsert simGE a L).filter p = L.filter p := by
  intro L
  induction L with
  | nil => simp [List.orderedInsert, ha]
  | cons c L' ih =>
    by_cases hac : simGE a c
    · rw [List.orderedInsert, if_pos hac, List.filter_cons_of_neg (by simp [ha])]
    · rw [List.orderedInsert, if_neg hac]
      by_cases hc : p c
      · rw [List.filter_cons_of_pos hc, List.filter_cons_of_pos hc, ih]
      · rw [List.filter_cons_of_neg (by simpa using hc),
          List.filter_cons_of_neg (by simpa using hc), ih]

theorem orderedInsert_filter_sorted {p : PathStep → Bool} {a : PathStep}
    (hup : ∀ x y : PathStep, y.2 ≤ x.2 → p y = true → p x = true)
    (ha : p a = true) :
    ∀ L : List PathStep, SortedBySimDesc L →
      List.orderedInsert simGE a (L.filter p) = (List.orderedInsert simGE a L).filter p := by
  intro L
  induction L with
  | nil => simp [List.orderedInsert, ha]
  | cons b L' ih =>
    intro hs
    have hs' : SortedBySimDesc L' := (List.sorted_cons.mp hs).2
    have hall : ∀ z ∈ L', z.2 ≤ b.2 := fun z hz => (List.sorted_cons.mp hs).1 z hz
    by_cases hb : p b
    · rw [List.filter_cons_of_pos hb]
      by_cases hab : simGE a b
      · rw [List.orderedInsert, if_pos hab, List.orderedInsert, if_pos hab,
          List.filter_cons_of_pos ha, List.filter_cons_of_pos hb]
      · rw [List.orderedInsert, if_neg hab, List.orderedInsert, if_neg hab,
          List.filter_cons_of_pos hb, ih hs']
    · have hnone : ∀ z ∈ L', p z = false := by
        intro z hz
        by_contra hc
        have : p z = true := by revert hc; cases p z <;> simp
        exact hb (hup b z (hall z hz) this)
      rw [List.filter_cons_of_neg (by simpa using hb),
        List.filter_eq_nil_iff.mpr (fun z hz => by simp [hnone z hz])]
      by_cases hab : simGE a b
      · have hoi : List.orderedInsert simGE a (b :: L') = a :: b :: L' := by
          simp only [List.orderedInsert, if_pos hab]
        rw [hoi, List.filter_cons_of_pos ha, List.filter_cons_of_neg (by simpa using hb),
          List.filter_eq_nil_iff.mpr (fun z hz => by simp [hnone z hz])]
        simp [List.orderedInsert]
      · have hoi : List.orderedInsert simGE a (b :: L') =
            b :: List.orderedInsert simGE a L' := by
          simp only [List.orderedInsert, if_neg hab]
        rw [hoi, List.filter_cons_of_neg (by simpa using hb),
          filter_orderedInsert_of_all_neg ha L' hnone]
        simp [List.orderedInsert]

theorem insertionSort_filter_comm {p : PathStep → Bool}
    (hup : ∀ x y : PathStep, y.2 ≤ x.2 → p y = true → p x = true) :
    ∀ l : List PathStep,
      (l.filter p).insertionSort simGE = (l.insertionSort simGE).filter p := by
  intro l
  induction l with
  | nil => rfl
  | cons x l ih =>
    by_cases hx : p x
    · rw [List.filter_cons_of_pos hx, List.insertionSort, List.insertionSort, ih]
      exact orderedInsert_filter_sorted hup hx _ (List.sorted_insertionSort simGE l)
    · rw [List.filter_cons_of_neg (by simpa using hx), List.insertionSort, ih,
        filter_orderedInsert_neg (by simpa using hx)]

theorem sortedBySimDesc_take {L : List PathStep} (h : SortedBySimDesc L) (k : Nat) :
    SortedBySimDesc (L.take k) :=
  List.Pairwise.sublist (List.take_sublist k L) h

theorem filter_and_sort_eq_takeWhile (l : List PathStep) (m : Sim) (k : Nat) (w : Bool)
    (hm : 0 < m) :
    filter_and_sort_connections l ⟨m, k, w⟩ =
      ((l.insertionSort simGE).takeWhile (fun x => decide (m ≤ x.2))).take k := by
  have hup : ∀ x y : PathStep, y.2 ≤ x.2 →
      decide (m ≤ y.2) = true → decide (m ≤ x.2) = true := by
    intro x y h1 h2
    simp only [decide_eq_true_eq] at h2 ⊢
    exact le_trans h2 h1
  unfold filter_and_sort_connections
  simp only [if_pos hm]
  rw [insertionSort_filter_comm hup l,
    filter_eq_takeWhile_of_sorted hup _ (List.sorted_insertionSort simGE l)]

theorem filter_and_sort_sorted (l : List PathStep) (config : PathfindingConfig) :
    SortedBySimDesc (filter_and_sort_connections l config) := by
  unfold filter_and_sort_connections
  exact sortedBySimDesc_take (List.sorted_insertionSort simGE _) _

theorem filter_and_sort_mono (l : List PathStep) (k : Nat) (w1 w2 : Bool) (m1 m2 : Sim)
    (h : m1 ≤ m2) :
    ∀ x ∈ filter_and_sort_connections l ⟨m2, k, w2⟩,
      x ∈ filter_and_sort_connections l ⟨m1, k, w1⟩ := by
  intro x hx
  by_cases h2 : 0 < m2
  · rw [filter_and_sort_eq_takeWhile l m2 k w2 h2] at hx
    by_cases h1 : 0 < m1
    · rw [filter_and_sort_eq_takeWhile l m1 k w1 h1]
      have himp : ∀ y : PathStep, decide (m2 ≤ y.2) = true → decide (m1 ≤ y.2) = true := by
        intro y hy
        simp only [decide_eq_true_eq] at hy ⊢
        exact le_trans h hy
      rw [takeWhile_takeWhile_of_imp himp] at hx
      exact mem_take_of_mem_takeWhile_take _ k hx
    · unfold filter_and_sort_connections
      simp only [if_neg h1]
      exact mem_take_of_mem_takeWhile_take _ k hx
  · have h1 : ¬ 0 < m1 := fun hc => h2 (lt_of_lt_of_le hc h)
    unfold filter_and_sort_connections at hx ⊢
    simp only [if_neg h1, if_neg h2] at hx ⊢
    exact hx

theorem get_artist_connections_sorted (bitsToSim : Nat → Sim) (artist_id : ArtistId)
    (graph_data : Bytes) (graph_index : List (ArtistId × Nat))
    (config : PathfindingConfig) :
    SortedBySimDesc (get_artist_connections bitsToSim artist_id graph_data graph_index config) := by
  unfold get_artist_connections
  cases find_artist_position artist_id graph_index with
  | none => exact List.sorted_nil
  | some pos =>
    by_cases hb : graph_data.length ≤ pos
    · simp only [if_pos hb]
      exact List.sorted_nil
    · simp only [if_neg hb]
      cases parse_artist_connections bitsToSim artist_id (graph_data.drop pos) with
      | none => exact List.sorted_nil
      | some raw => exact filter_and_sort_sorted raw config

/-- Claim C6 (confirmed): for a fixed graph, artist and `top_related`, and
thresholds `m1 ≤ m2`, every `(neighbor, similarity)` pair returned by the
connections accessor under `min_match = m2` is also returned under
`min_match = m1`, and both returned lists are sorted by similarity
descending. -/
theorem C6_accessor_filter_monotonicity
    (bitsToSim : Nat → Sim) (artist_id : ArtistId) (graph_data : Bytes)
    (graph_index : List (ArtistId × Nat)) (top_related : Nat) (w1 w2 : Bool)
    (m1 m2 : Sim) (h : m1 ≤ m2) :
    (∀ x ∈ get_artist_connections bitsToSim artist_id graph_data graph_index
        ⟨m2, top_related, w2⟩,
      x ∈ get_artist_connections bitsToSim artist_id graph_data graph_index
        ⟨m1, top_related, w1⟩) ∧
    SortedBySimDesc (get_artist_connections bitsToSim artist_id graph_data graph_index
        ⟨m1, top_related, w1⟩) ∧
    SortedBySimDesc (get_artist_connections bitsToSim artist_id graph_data graph_index
        ⟨m2, top_related, w2⟩) := by
  refine ⟨?_, get_artist_connections_sorted _ _ _ _ _,
    get_artist_connections_sorted _ _ _ _ _⟩
  intro x hx
  unfold get_artist_connections at hx ⊢
  revert hx
  cases find_artist_position artist_id graph_index with
  | none => intro hx; simp at hx
  | some pos =>
    dsimp only
    by_cases hb : graph_data.length ≤ pos
    · rw [if_pos hb]
      intro hx
      simp at hx
    · rw [if_neg hb, if_neg hb]
      cases parse_artist_connections bitsToSim artist_id (graph_data.drop pos) with
      | none => intro hx; simp at hx
      | some raw =>
        dsimp only
        intro hx
        exact filter_and_sort_mono raw top_related w1 w2 m1 m2 h x hx

theorem C6_witness :
    (0 : Sim) ≤ 1 / 2 ∧
    ((∀ x ∈ get_artist_connections exBitsToSim 1 exData exIndex ⟨1 / 2, 5, false⟩,
        x ∈ get_artist_connections exBitsToSim 1 exData exIndex ⟨0, 5, false⟩) ∧
      SortedBySimDesc (get_artist_connections exBitsToSim 1 exData exIndex ⟨0, 5, false⟩) ∧
      SortedBySimDesc (get_artist_connections exBitsToSim 1 exData exIndex ⟨1 / 2, 5, false⟩)) :=
  ⟨by norm_num,
    C6_accessor_filter_monotonicity exBitsToSim 1 exData exIndex 5 false false 0 (1 / 2)
      (by norm_num)⟩

/-- Claim C5 (confirmed): the connections accessor returns the empty list
(and never an error) when the artist is missing from the index, when the
stored offset is at or past the end of the mapped region, when the record's
stored UUID differs from the requested artist, or when the record is
truncated mid-read (the latter two are the `Err` results of
`parse_artist_connections`, both absorbed into an empty list, so a search
hitting such a record just sees no edges and continues). -/
theorem C5_accessor_error_absorption
    (bitsToSim : Nat → Sim) (artist_id : ArtistId) (graph_data : Bytes)
    (graph_index : List (ArtistId × Nat)) (config : PathfindingConfig) :
    (find_artist_position artist_id graph_index = none →
      get_artist_connections bitsToSim artist_id graph_data graph_index config = []) ∧
    (∀ pos, find_artist_position artist_id graph_index = some pos →
      graph_data.length ≤ pos →
      get_artist_connections bitsToSim artist_id graph_data graph_index config = []) ∧
    (∀ pos stored rest, find_artist_position artist_id graph_index = some pos →
      pos < graph_data.length →
      read_uuid_from_cursor (graph_data.drop pos) = some (stored, rest) →
      stored ≠ artist_id →
      get_artist_connections bitsToSim artist_id graph_data graph_index config = []) ∧
    (∀ pos, find_artist_position artist_id graph_index = some pos →
      pos < graph_data.length →
      parse_artist_connections bitsToSim artist_id (graph_data.drop pos) = none →
      get_artist_connections bitsToSim artist_id graph_data graph_index config = []) := by
  refine ⟨?_, ?_, ?_, ?_⟩
  · intro hfind
    unfold get_artist_connections
    rw [hfind]
  · intro pos hfind hge
    unfold get_artist_connections
    rw [hfind]
    dsimp only
    rw [if_pos hge]
  · intro pos stored rest hfind hlt huuid hne
    have hparse : parse_artist_connections bitsToSim artist_id (graph_data.drop pos) = none := by
      unfold parse_artist_connections
      rw [huuid]
      dsimp only
      rw [if_pos hne]
    unfold get_artist_connections
    rw [hfind]
    dsimp only
    rw [if_neg (not_le.mpr hlt), hparse]
  · intro pos hfind hlt hparse
    unfold get_artist_connections
    rw [hfind]
    dsimp only
    rw [if_neg (not_le.mpr hlt), hparse]

theorem C5_witness :
    get_artist_connections exBitsToSim 9 exData exIndex ⟨0, 5, false⟩ = [] ∧
    get_artist_connections exBitsToSim 2 exData [(2, 0)] ⟨0, 5, false⟩ = [] ∧
    get_artist_connections exBitsToSim 1 [1, 0, 0] [(1, 0)] ⟨0, 5, false⟩ = [] := by
  refine ⟨?_, ?_, ?_⟩
  · exact (C5_accessor_error_absorption exBitsToSim 9 exData exIndex ⟨0, 5, false⟩).1
      (by decide)
  · exact (C5_accessor_error_absorption exBitsToSim 2 exData [(2, 0)] ⟨0, 5, false⟩).2.2.2
      0 (by decide) (by decide) (by decide)
  · exact (C5_accessor_error_absorption exBitsToSim 1 [1, 0, 0] [(1, 0)] ⟨0, 5, false⟩).2.2.2
      0 (by decide) (by decide) (by decide)

/-! ### Parent-map chains and walk characterizations -/

theorem lookup_cons_self {β : Type} (k : ArtistId) (v : β) (l : List (ArtistId × β)) :
    ((k, v) :: l).lookup k = some v := by
  simp [List.lookup]

theorem lookup_cons_ne {β : Type} {a k : ArtistId} (v : β) (l : List (ArtistId × β))
    (h : a ≠ k) : ((k, v) :: l).lookup a = l.lookup a := by
  have hb : (a == k) = false := by simpa using h
  simp [List.lookup, hb]

/-- Chains are stable under any map extension that preserves existing
entries. -/
theorem StepsToStart.of_preserved {pm pm' : ParentMap} {src v : ArtistId} {n : Nat}
    (h : StepsToStart pm src v n)
    (hpres : ∀ (w : ArtistId) (e : ArtistId × Sim),
      pm.lookup w = some e → pm'.lookup w = some e) :
    StepsToStart pm' src v n := by
  induction h with
  | base => exact .base
  | step hne hl _ ih => exact .step hne (hpres _ _ hl) ih

/-- Chains are stable under consing an entry for a key with no entry. -/
theorem StepsToStart.mono_cons {pm : ParentMap} {src v : ArtistId} {n : Nat}
    {k : ArtistId} {e : ArtistId × Sim} (h : StepsToStart pm src v n)
    (hk : pm.lookup k = none) : StepsToStart ((k, e) :: pm) src v n := by
  refine h.of_preserved ?_
  intro w ew hw
  have hne : w ≠ k := by
    intro heq
    rw [heq, hk] at hw
    exact Option.noConfusion hw
  rw [lookup_cons_ne _ _ hne]
  exact hw

theorem walkToStart_ok {pm : ParentMap} {src v : ArtistId} {n : Nat}
    (h : StepsToStart pm src v n) :
    ∀ fuel : Nat, n ≤ fuel → FwdWalkOK pm src v (walkToStart pm src fuel v) := by
  induction h with
  | base =>
    intro fuel _
    cases fuel with
    | zero => exact .nil
    | succ f => simp only [walkToStart, if_pos rfl]; exact .nil
  | step hne hl _ ih =>
    intro fuel hf
    cases fuel with
    | zero => omega
    | succ f =>
      simp only [walkToStart, if_neg hne, hl]
      exact .cons hne hl (ih f (by omega))

theorem walkToTarget_ok {pm : ParentMap} {tgt v : ArtistId} {n : Nat}
    (h : StepsToStart pm tgt v n) :
    ∀ fuel : Nat, n ≤ fuel → RevWalkOK pm tgt v (walkToTarget pm tgt fuel v) := by
  induction h with
  | base =>
    intro fuel _
    cases fuel with
    | zero => exact .nil
    | succ f => simp only [walkToTarget, if_pos rfl]; exact .nil
  | step hne hl _ ih =>
    intro fuel hf
    cases fuel with
    | zero => omega
    | succ f =>
      simp only [walkToTarget, if_neg hne, hl]
      exact .cons hne hl (ih f (by omega))

theorem enqueueNeighbors_spec (src current : ArtistId) :
    ∀ (conns : List PathStep) (q vis qd : List ArtistId) (pm : ParentMap),
      (∀ v : ArtistId, v ∈ q ↔ v ∈ qd) → q.Nodup → qd.Nodup →
      (∀ v ∈ vis, v ∉ qd) →
      (∀ (v : ArtistId) (e : ArtistId × Sim), pm.lookup v = some e → v ∈ vis ∨ v ∈ qd) →
      (src ∈ vis ∨ src ∈ qd) →
      (∃ n ≤ pm.length, StepsToStart pm src current n) →
      (∀ v : ArtistId, (v ∈ vis ∨ v ∈ qd) → ∃ n ≤ pm.length, StepsToStart pm src v n) →
      EnqPost current conns src q vis qd pm
        (enqueueNeighbors current conns q vis qd pm).1
        (enqueueNeighbors current conns q vis qd pm).2.1
        (enqueueNeighbors current conns q vis qd pm).2.2 := by
  intro conns
  induction conns with
  | nil =>
    intro q vis qd pm hqq hqnd hqdnd hdj hkeys hsrc _hcur hchains
    refine ⟨hqq, hqnd, hqdnd, hdj, (fun v e h => hkeys v e h), ?_, ?_, le_refl _,
      fun v h => h, fun v h => h, ?_, fun v h => Or.inl h, fun v h => Or.inl h, hchains⟩
    · intro v u s h
      exact Or.inl h
    · intro v e h
      exact h
    · intro p hp
      exact absurd hp (List.not_mem_nil p)
  | cons c rest ih =>
    intro q vis qd pm hqq hqnd hqdnd hdj hkeys hsrc hcur hchains
    obtain ⟨nb, sim⟩ := c
    by_cases hc : nb ∉ vis ∧ nb ∉ qd
    · have hfresh : pm.lookup nb = none := by
        cases hnb : pm.lookup nb with
        | none => rfl
        | some e =>
          rcases hkeys nb e hnb with h | h
          · exact absurd h hc.1
          · exact absurd h hc.2
      have hnbq : nb ∉ q := fun h => hc.2 ((hqq nb).mp h)
      have hnbsrc : nb ≠ src := by
        intro heq
        rcases hsrc with h | h
        · exact hc.1 (heq ▸ h)
        · exact hc.2 (heq ▸ h)
      have heq1 : enqueueNeighbors current ((nb, sim) :: rest) q vis qd pm =
          enqueueNeighbors current rest (q ++ [nb]) vis (nb :: qd)
            ((nb, (current, sim)) :: pm) := by
        simp only [enqueueNeighbors, if_pos hc]
      -- re-establish the preconditions at the updated state
      have hqq1 : ∀ v : ArtistId, v ∈ q ++ [nb] ↔ v ∈ nb :: qd := by
        intro v
        have h := hqq v
        simp only [List.mem_append, List.mem_cons, List.not_mem_nil, or_false]
        tauto
      have hqnd1 : (q ++ [nb]).Nodup := by
        apply List.Nodup.append hqnd (List.nodup_singleton nb)
        intro a ha hb
        simp only [List.mem_singleton] at hb
        exact hnbq (hb ▸ ha)
      have hqdnd1 : (nb :: qd).Nodup := List.nodup_cons.mpr ⟨hc.2, hqdnd⟩
      have hdj1 : ∀ v ∈ vis, v ∉ nb :: qd := by
        intro v hv
        simp only [List.mem_cons, not_or]
        exact ⟨fun heq => hc.1 (heq ▸ hv), hdj v hv⟩
      have hkeys1 : ∀ (v : ArtistId) (e : ArtistId × Sim),
          ((nb, (current, sim)) :: pm).lookup v = some e → v ∈ vis ∨ v ∈ nb :: qd := by
        intro v e h
        by_cases hv : v = nb
        · exact Or.inr (by simp [hv])
        · rw [lookup_cons_ne _ _ hv] at h
          rcases hkeys v e h with h' | h'
          · exact Or.inl h'
          · exact Or.inr (by simp [h'])
      have hsrc1 : src ∈ vis ∨ src ∈ nb :: qd := by
        rcases hsrc with h | h
        · exact Or.inl h
        · exact Or.inr (by simp [h])
      have hlen1 : ((nb, (current, sim)) :: pm).length = pm.length + 1 := rfl
      have hcur1 : ∃ n ≤ ((nb, (current, sim)) :: pm).length,
          StepsToStart ((nb, (current, sim)) :: pm) src current n := by
        obtain ⟨n, hn, hs⟩ := hcur
        exact ⟨n, by omega, hs.mono_cons hfresh⟩
      have hchains1 : ∀ v : ArtistId, (v ∈ vis ∨ v ∈ nb :: qd) →
          ∃ n ≤ ((nb, (current, sim)) :: pm).length,
            StepsToStart ((nb, (current, sim)) :: pm) src v n := by
        intro v hv
        by_cases hvnb : v = nb
        · obtain ⟨n, hn, hs⟩ := hcur
          subst hvnb
          exact ⟨n + 1, by omega,
            .step hnbsrc (lookup_cons_self _ _ _) (hs.mono_cons hfresh)⟩
        · have hv' : v ∈ vis ∨ v ∈ qd := by
            rcases hv with h | h
            · exact Or.inl h
            · rcases List.mem_cons.mp h with h' | h'
              · exact absurd h' hvnb
              · exact Or.inr h'
          obtain ⟨n, hn, hs⟩ := hchains v hv'
          exact ⟨n, by omega, hs.mono_cons hfresh⟩
      have post := ih (q ++ [nb]) vis (nb :: qd) ((nb, (current, sim)) :: pm)
        hqq1 hqnd1 hqdnd1 hdj1 hkeys1 hsrc1 hcur1 hchains1
      rw [heq1]
      refine ⟨post.qq, post.qnd, post.qdnd, post.dj, post.keys, ?_, ?_, ?_, ?_, ?_, ?_,
        ?_, ?_, post.chains⟩
      · -- entries
        intro v u s h
        rcases post.entries v u s h with h' | h'
        · by_cases hv : v = nb
          · subst hv
            rw [lookup_cons_self] at h'
            have h1 : current = u := by injection h' with h3; exact congrArg Prod.fst h3
            have h2 : sim = s := by injection h' with h3; exact congrArg Prod.snd h3
            refine Or.inr ⟨h1.symm, ?_, hc.1⟩
            rw [← h2]
            exact List.mem_cons_self _ _
          · rw [lookup_cons_ne _ _ hv] at h'
            exact Or.inl h'
        · exact Or.inr ⟨h'.1, List.mem_cons_of_mem _ h'.2.1, h'.2.2⟩
      · -- preserved
        intro v e h
        have hvnb : v ≠ nb := by
          intro heq
          rw [heq, hfresh] at h
          exact Option.noConfusion h
        exact post.preserved v e (by rw [lookup_cons_ne _ _ hvnb]; exact h)
      · -- len
        have := post.len
        omega
      · -- qsub
        intro v hv
        exact post.qsub v (by simp [hv])
      · -- qdsub
        intro v hv
        exact post.qdsub v (by simp [hv])
      · -- covered
        intro p hp
        rcases List.mem_cons.mp hp with h | h
        · subst h
          exact Or.inr (post.qdsub nb (by simp))
        · exact post.covered p h
      · -- qdnew
        intro v hv
        rcases post.qdnew v hv with h | h
        · rcases List.mem_cons.mp h with h' | h'
          · exact Or.inr ⟨sim, by simp [h']⟩
          · exact Or.inl h'
        · obtain ⟨s, hs⟩ := h
          exact Or.inr ⟨s, by simp [hs]⟩
      · -- qnew
        intro v hv
        rcases post.qnew v hv with h | h
        · rcases List.mem_append.mp h with h' | h'
          · exact Or.inl h'
          · simp only [List.mem_singleton] at h'
            exact Or.inr ⟨sim, by simp [h']⟩
        · obtain ⟨s, hs⟩ := h
          exact Or.inr ⟨s, by simp [hs]⟩
    · have heq1 : enqueueNeighbors current ((nb, sim) :: rest) q vis qd pm =
          enqueueNeighbors current rest q vis qd pm := by
        simp only [enqueueNeighbors, if_neg hc]
      have post := ih q vis qd pm hqq hqnd hqdnd hdj hkeys hsrc hcur hchains
      rw [heq1]
      have hnbin : nb ∈ vis ∨ nb ∈ qd := by
        by_contra hn
        push_neg at hn
        exact hc ⟨hn.1, hn.2⟩
      refine ⟨post.qq, post.qnd, post.qdnd, post.dj, post.keys, ?_, post.preserved,
        post.len, post.qsub, post.qdsub, ?_, ?_, ?_, post.chains⟩
      · intro v u s h
        rcases post.entries v u s h with h' | h'
        · exact Or.inl h'
        · exact Or.inr ⟨h'.1, by simp [h'.2.1], h'.2.2⟩
      · intro p hp
        rcases List.mem_cons.mp hp with h | h
        · subst h
          rcases hnbin with h' | h'
          · exact Or.inl h'
          · exact Or.inr (post.qdsub nb h')
        · exact post.covered p h
      · intro v hv
        rcases post.qdnew v hv with h | h
        · exact Or.inl h
        · obtain ⟨s, hs⟩ := h
          exact Or.inr ⟨s, by simp [hs]⟩
      · intro v hv
        rcases post.qnew v hv with h | h
        · exact Or.inl h
        · obtain ⟨s, hs⟩ := h
          exact Or.inr ⟨s, by simp [hs]⟩

theorem bfsInv_init (connF connR : ConnFun) (start target : ArtistId) :
    BfsInv connF connR start target (initBfsState start target) := by
  refine ⟨?_, ?_, ?_⟩
  · refine ⟨fun v => Iff.rfl, List.nodup_singleton _, List.nodup_singleton _,
      List.nodup_nil, ?_, ?_, ?_, ?_, Or.inr (by simp [initBfsState]), ?_⟩
    · intro v hv
      simp [initBfsState] at hv
    · intro v e h
      simp [initBfsState, List.lookup] at h
    · intro v u s h
      simp [initBfsState, List.lookup] at h
    · intro v hv
      have hvs : v = start := by
        rcases hv with h | h
        · simp [initBfsState] at h
        · simp [initBfsState] at h
          exact h
      exact ⟨0, Nat.zero_le _, hvs ▸ StepsToStart.base⟩
    · intro u hu
      simp [initBfsState] at hu
  · refine ⟨fun v => Iff.rfl, List.nodup_singleton _, List.nodup_singleton _,
      List.nodup_nil, ?_, ?_, ?_, ?_, Or.inr (by simp [initBfsState]), ?_⟩
    · intro v hv
      simp [initBfsState] at hv
    · intro v e h
      simp [initBfsState, List.lookup] at h
    · intro v u s h
      simp [initBfsState, List.lookup] at h
    · intro v hv
      have hvt : v = target := by
        rcases hv with h | h
        · simp [initBfsState] at h
        · simp [initBfsState] at h
          exact h
      exact ⟨0, Nat.zero_le _, hvt ▸ StepsToStart.base⟩
    · intro u hu
      simp [initBfsState] at hu
  · intro v hv
    simp [initBfsState] at hv

/-- Settling the head of a side's queue and enqueueing its connections
restores the side invariant; the settled node is fresh, and every new queue
element comes from the settled node's connection list. -/
theorem settle_side {conn : ConnFun} {src : ArtistId}
    {queue vis queued : List ArtistId} {pm : ParentMap}
    (inv : SideInv conn src queue vis queued pm)
    {current : ArtistId} {rest : List ArtistId} (hq : queue = current :: rest) :
    current ∉ vis ∧
    SideInv conn src
      (enqueueNeighbors current (conn current) rest (current :: vis)
        (queued.erase current) pm).1
      (current :: vis)
      (enqueueNeighbors current (conn current) rest (current :: vis)
        (queued.erase current) pm).2.1
      (enqueueNeighbors current (conn current) rest (current :: vis)
        (queued.erase current) pm).2.2 ∧
    (∀ v ∈ (enqueueNeighbors current (conn current) rest (current :: vis)
        (queued.erase current) pm).1,
      v ∈ rest ∨ ∃ s : Sim, (v, s) ∈ conn current) := by
  have hcq : current ∈ queue := by rw [hq]; simp
  have hcqd : current ∈ queued := (inv.qq current).mp hcq
  have hcv : current ∉ vis := fun h => inv.dj current h hcqd
  have hqnd' : queue.Nodup := inv.qnd
  rw [hq] at hqnd'
  have hcrest : current ∉ rest := (List.nodup_cons.mp hqnd').1
  have hrestnd : rest.Nodup := (List.nodup_cons.mp hqnd').2
  have hqq1 : ∀ v : ArtistId, v ∈ rest ↔ v ∈ queued.erase current := by
    intro v
    rw [inv.qdnd.mem_erase_iff]
    constructor
    · intro h
      refine ⟨fun heq => hcrest (heq ▸ h), (inv.qq v).mp (by rw [hq]; simp [h])⟩
    · rintro ⟨hne, hqd⟩
      have := (inv.qq v).mpr hqd
      rw [hq] at this
      rcases List.mem_cons.mp this with h | h
      · exact absurd h hne
      · exact h
  have hqdnd1 : (queued.erase current).Nodup := inv.qdnd.erase current
  have hdj1 : ∀ v ∈ current :: vis, v ∉ queued.erase current := by
    intro v hv hmem
    rw [inv.qdnd.mem_erase_iff] at hmem
    rcases List.mem_cons.mp hv with h | h
    · exact hmem.1 h
    · exact inv.dj v h hmem.2
  have hkeys1 : ∀ (v : ArtistId) (e : ArtistId × Sim), pm.lookup v = some e →
      v ∈ current :: vis ∨ v ∈ queued.erase current := by
    intro v e h
    rcases inv.keys v e h with h' | h'
    · exact Or.inl (List.mem_cons_of_mem _ h')
    · by_cases hvc : v = current
      · exact Or.inl (by simp [hvc])
      · exact Or.inr (inv.qdnd.mem_erase_iff.mpr ⟨hvc, h'⟩)
  have hsrc1 : src ∈ current :: vis ∨ src ∈ queued.erase current := by
    rcases inv.srcq with h | h
    · exact Or.inl (List.mem_cons_of_mem _ h)
    · rw [hq] at h
      rcases List.mem_cons.mp h with h' | h'
      · exact Or.inl (by simp [h'])
      · exact Or.inr ((hqq1 src).mp h')
  have hcur1 : ∃ n ≤ pm.length, StepsToStart pm src current n :=
    inv.chains current (Or.inr hcqd)
  have hchains1 : ∀ v : ArtistId, (v ∈ current :: vis ∨ v ∈ queued.erase current) →
      ∃ n ≤ pm.length, StepsToStart pm src v n := by
    intro v hv
    apply inv.chains
    rcases hv with h | h
    · rcases List.mem_cons.mp h with h' | h'
      · exact Or.inr (h' ▸ hcqd)
      · exact Or.inl h'
    · exact Or.inr (List.mem_of_mem_erase h)
  have post := enqueueNeighbors_spec src current (conn current) rest (current :: vis)
    (queued.erase current) pm hqq1 hrestnd hqdnd1 hdj1 hkeys1 hsrc1 hcur1 hchains1
  refine ⟨hcv, ?_, ?_⟩
  · refine ⟨post.qq, post.qnd, post.qdnd, List.nodup_cons.mpr ⟨hcv, inv.vnd⟩,
      post.dj, post.keys, ?_, post.chains, ?_, ?_⟩
    · -- edges
      intro v u s h
      rcases post.entries v u s h with h' | h'
      · obtain ⟨he, hne, hu⟩ := inv.edges v u s h'
        exact ⟨he, hne, List.mem_cons_of_mem _ hu⟩
      · obtain ⟨hu, hm, hnv⟩ := h'
        refine ⟨?_, ?_, ?_⟩
        · rw [hu]
          exact hm
        · intro heq
          apply hnv
          rw [← heq, hu]
          exact List.mem_cons_self _ _
        · rw [hu]
          exact List.mem_cons_self _ _
    · -- srcq
      rcases hsrc1 with h | h
      · exact Or.inl h
      · exact Or.inr ((post.qq src).mpr (post.qdsub src h))
    · -- closed
      intro u hu p hp
      rcases List.mem_cons.mp hu with h | h
      · subst h
        exact post.covered p hp
      · rcases inv.closed u h p hp with h' | h'
        · exact Or.inl (List.mem_cons_of_mem _ h')
        · by_cases hpc : p.1 = current
          · exact Or.inl (by simp [hpc])
          · exact Or.inr (post.qdsub p.1 (inv.qdnd.mem_erase_iff.mpr ⟨hpc, h'⟩))
  · -- new queue elements
    intro v hv
    rcases post.qnew v hv with h | h
    · exact Or.inl h
    · exact Or.inr h

theorem fwdWalk_head {pm : ParentMap} {src u : ArtistId} {W : List PathStep}
    (h : FwdWalkOK pm src u W) :
    ∀ y ∈ (W ++ [(src, 0)]).head?, y.1 = u := by
  cases h with
  | nil =>
    intro y hy
    simp at hy
    rw [← hy]
  | cons hne hl h' =>
    intro y hy
    simp at hy
    rw [← hy]

theorem fwdWalk_chain {pm : ParentMap} {src v : ArtistId} {W : List PathStep}
    (h : FwdWalkOK pm src v W) :
    List.Chain' (fun x y : PathStep => pm.lookup x.1 = some (y.1, x.2))
      (W ++ [(src, 0)]) := by
  induction h with
  | nil => exact List.chain'_singleton _
  | @cons v u s rest hne hl h' ih =>
    rw [List.cons_append, List.chain'_cons']
    refine ⟨?_, ih⟩
    intro y hy
    have := fwdWalk_head h' y hy
    simp only [this, hl]

theorem revWalk_head {pm : ParentMap} {tgt v : ArtistId} {T : List PathStep}
    (h : RevWalkOK pm tgt v T) (hne : T ≠ []) :
    ∃ y : PathStep, T.head? = some y ∧ pm.lookup v = some (y.1, y.2) := by
  cases h with
  | nil => exact absurd rfl hne
  | @cons v u s rest hvne hl h' => exact ⟨(u, s), rfl, hl⟩

theorem revWalk_chain {pm : ParentMap} {tgt v : ArtistId} {T : List PathStep}
    (h : RevWalkOK pm tgt v T) :
    List.Chain' (fun x y : PathStep => pm.lookup x.1 = some (y.1, y.2)) T := by
  induction h with
  | nil => exact List.chain'_nil
  | @cons v u s rest hvne hl h' ih =>
    rw [List.chain'_cons']
    refine ⟨?_, ih⟩
    intro y hy
    by_cases hrest : rest = []
    · subst hrest
      simp at hy
    · obtain ⟨y', hy', hly'⟩ := revWalk_head h' hrest
      rw [hy'] at hy
      have hyy : y = y' := by injection hy with h; exact h.symm
      rw [hyy]
      exact hly'

theorem revWalk_last {pm : ParentMap} {tgt v : ArtistId} {T : List PathStep}
    (h : RevWalkOK pm tgt v T) (hne : T ≠ []) :
    (T.getLast?).map Prod.fst = some tgt := by
  induction h with
  | nil => exact absurd rfl hne
  | @cons v u s rest hvne hl h' ih =>
    by_cases hrest : rest = []
    · subst hrest
      cases h' with
      | nil => rfl
    · have : ((u, s) :: rest).getLast? = rest.getLast? := by
        cases rest with
        | nil => exact absurd rfl hrest
        | cons a as => simp [List.getLast?_cons_cons]
      rw [this]
      exact ih hrest

theorem reconstruct_path_props {connF connR : ConnFun} {start target m : ArtistId}
    {fpm rpm : ParentMap}
    (hfc : ∃ n ≤ fpm.length, StepsToStart fpm start m n)
    (hrc : ∃ n ≤ rpm.length, StepsToStart rpm target m n)
    (hfe : ∀ (v u : ArtistId) (s : Sim), fpm.lookup v = some (u, s) →
      (v, s) ∈ connF u ∧ u ≠ v)
    (hre : ∀ (v u : ArtistId) (s : Sim), rpm.lookup v = some (u, s) →
      (v, s) ∈ connR u ∧ u ≠ v) :
    BfsPathProps connF connR start target
      (reconstruct_bidirectional_path fpm rpm start target m) := by
  obtain ⟨nf, hnf, hsf⟩ := hfc
  obtain ⟨nr, hnr, hsr⟩ := hrc
  have hWok : FwdWalkOK fpm start m
      (walkToStart fpm start (fpm.length + rpm.length + 2) m) :=
    walkToStart_ok hsf _ (by omega)
  have hTok : RevWalkOK rpm target m
      (walkToTarget rpm target (fpm.length + rpm.length + 2) m) :=
    walkToTarget_ok hsr _ (by omega)
  set W := walkToStart fpm start (fpm.length + rpm.length + 2) m with hW
  set T := walkToTarget rpm target (fpm.length + rpm.length + 2) m with hT
  have hp : reconstruct_bidirectional_path fpm rpm start target m =
      (W ++ [(start, 0)]).reverse ++ T := rfl
  have hrev : (W ++ [(start, 0)]).reverse = (start, 0) :: W.reverse := by
    simp
  have hfirstLast : ∀ y ∈ ((W ++ [(start, 0)]).reverse).getLast?, y.1 = m := by
    intro y hy
    rw [List.getLast?_reverse] at hy
    exact fwdWalk_head hWok y hy
  constructor
  · -- head
    rw [hp, hrev]
    simp
  constructor
  · -- last is the target
    rw [hp]
    by_cases hTnil : T = []
    · have hmt : m = target := by
        rw [hTnil] at hTok
        cases hTok
        rfl
      rw [hTnil, List.append_nil]
      cases hgl : ((W ++ [(start, 0)]).reverse).getLast? with
      | none =>
        rw [List.getLast?_reverse] at hgl
        simp at hgl
      | some y =>
        have : y.1 = m := hfirstLast y (by rw [hgl]; rfl)
        simp [this, hmt]
    · rw [List.getLast?_append]
      have : T.getLast?.isSome := by
        cases hTg : T.getLast? with
        | none => rw [List.getLast?_eq_none_iff] at hTg; exact absurd hTg hTnil
        | some y => rfl
      cases hTg : T.getLast? with
      | none => rw [hTg] at this; simp at this
      | some y =>
        have hl := revWalk_last hTok hTnil
        rw [hTg] at hl
        simpa using hl
  · -- consecutive pairs
    rw [hp]
    rw [List.chain'_append]
    refine ⟨?_, ?_, ?_⟩
    · -- forward half
      have hbase : List.Chain' (fun x y : PathStep =>
          fpm.lookup y.1 = some (x.1, y.2)) ((W ++ [(start, 0)]).reverse) := by
        rw [List.chain'_reverse]
        have : (flip fun x y : PathStep => fpm.lookup y.1 = some (x.1, y.2)) =
            fun x y : PathStep => fpm.lookup x.1 = some (y.1, x.2) := rfl
        rw [this]
        exact fwdWalk_chain hWok
      refine List.Chain'.imp ?_ hbase
      intro a b hab
      obtain ⟨he, hne⟩ := hfe b.1 a.1 b.2 hab
      exact ⟨Or.inl he, hne⟩
    · -- reverse half
      have hbase : List.Chain' (fun x y : PathStep =>
          rpm.lookup x.1 = some (y.1, y.2)) T := revWalk_chain hTok
      refine List.Chain'.imp ?_ hbase
      intro a b hab
      obtain ⟨he, hne⟩ := hre a.1 b.1 b.2 hab
      exact ⟨Or.inr he, fun heq => hne heq.symm⟩
    · -- junction
      intro x hx y hy
      have hxm : x.1 = m := hfirstLast x hx
      have hTne : T ≠ [] := by
        intro hTnil
        rw [hTnil] at hy
        simp at hy
      obtain ⟨y', hy', hly'⟩ := revWalk_head hTok hTne
      rw [hy'] at hy
      have hyy : y = y' := by injection hy with h; exact h.symm
      obtain ⟨he, hne⟩ := hre m y'.1 y'.2 hly'
      constructor
      · right
        rw [hxm, hyy]
        exact he
      · rw [hxm, hyy]
        exact fun heq => hne heq.symm

theorem bfsIterReverse_cases (connF connR : ConnFun) (start target : ArtistId)
    (st : BfsSearchState) (inv : BfsInv connF connR start target st) :
    (∀ (p : List PathStep) (st' : BfsSearchState),
      bfsIterReverse connR start target st = .found p st' →
      BfsPathProps connF connR start target p) ∧
    (∀ st' : BfsSearchState, bfsIterReverse connR start target st = .next st' →
      BfsInv connF connR start target st' ∧
      st'.forward_queue = st.forward_queue ∧
      st'.forward_visited = st.forward_visited ∧
      (st.reverse_queue = [] → st' = st) ∧
      (st.reverse_queue ≠ [] →
        st'.reverse_visited.length = st.reverse_visited.length + 1) ∧
      (∀ v ∈ st'.reverse_visited, v ∈ st.reverse_visited ∨ v ∈ st.reverse_queue) ∧
      (∀ v ∈ st'.reverse_queue, v ∈ st.reverse_queue ∨
        ∃ c ∈ st.reverse_queue, ∃ s : Sim, (v, s) ∈ connR c)) := by
  obtain ⟨fq, rq, fv, rv, fqd, rqd, fpm, rpm, av⟩ := st
  obtain ⟨finv, rinv, frinv⟩ := inv
  cases rq with
  | nil =>
    constructor
    · intro p st' h
      simp only [bfsIterReverse] at h
      exact absurd h (by intro hc; cases hc)
    · intro st' h
      simp only [bfsIterReverse] at h
      cases h
      refine ⟨⟨finv, rinv, frinv⟩, rfl, rfl, fun _ => rfl, fun hne => absurd rfl hne,
        fun v hv => Or.inl hv, fun v hv => Or.inl hv⟩
  | cons current rest =>
    have hcv : current ∉ rv := by
      intro h
      exact rinv.dj current h ((rinv.qq current).mp (by simp))
    have hset := settle_side rinv rfl
    by_cases hmeet : current ∈ fv
    · -- the meeting branch returns a reconstructed path
      constructor
      · intro p st' h
        simp only [bfsIterReverse, if_neg hcv, if_pos hmeet] at h
        cases h
        apply reconstruct_path_props
        · exact finv.chains current (Or.inl hmeet)
        · exact rinv.chains current (Or.inr ((rinv.qq current).mp (by simp)))
        · intro v u s hl
          obtain ⟨he, hne, _⟩ := finv.edges v u s hl
          exact ⟨he, hne⟩
        · intro v u s hl
          obtain ⟨he, hne, _⟩ := rinv.edges v u s hl
          exact ⟨he, hne⟩
      · intro st' h
        simp only [bfsIterReverse, if_neg hcv, if_pos hmeet] at h
        exact absurd h (by intro hc; cases hc)
    · constructor
      · intro p st' h
        simp only [bfsIterReverse, if_neg hcv, if_neg hmeet] at h
        exact absurd h (by intro hc; cases hc)
      · intro st' h
        simp only [bfsIterReverse, if_neg hcv, if_neg hmeet] at h
        cases h
        obtain ⟨_, sinv, hqnew⟩ := hset
        refine ⟨⟨finv, sinv, ?_⟩, rfl, rfl, ?_, fun _ => rfl, ?_, ?_⟩
        · intro v hv
          simp only [List.mem_cons, not_or]
          exact ⟨fun heq => hmeet (heq ▸ hv), frinv v hv⟩
        · intro hne
          exact absurd hne (List.cons_ne_nil _ _)
        · intro v hv
          rcases List.mem_cons.mp hv with h' | h'
          · exact Or.inr (by simp [h'])
          · exact Or.inl h'
        · intro v hv
          rcases hqnew v hv with h' | h'
          · exact Or.inl (by simp [h'])
          · exact Or.inr ⟨current, by simp, h'⟩

theorem bfsLoopIter_cases (connF connR : ConnFun) (start target : ArtistId)
    (st : BfsSearchState) (inv : BfsInv connF connR start target st) :
    (∀ (p : List PathStep) (st' : BfsSearchState),
      bfsLoopIter connF connR start target st = .found p st' →
      BfsPathProps connF connR start target p) ∧
    (∀ st' : BfsSearchState, bfsLoopIter connF connR start target st = .next st' →
      BfsInv connF connR start target st' ∧
      ((st.forward_queue ≠ [] ∨ st.reverse_queue ≠ []) →
        st.forward_visited.length + st.reverse_visited.length + 1 ≤
          st'.forward_visited.length + st'.reverse_visited.length) ∧
      (∀ v ∈ st'.forward_visited, v ∈ st.forward_visited ∨ v ∈ st.forward_queue) ∧
      (∀ v ∈ st'.reverse_visited, v ∈ st.reverse_visited ∨ v ∈ st.reverse_queue) ∧
      (∀ v ∈ st'.forward_queue, v ∈ st.forward_queue ∨
        ∃ c ∈ st.forward_queue, ∃ s : Sim, (v, s) ∈ connF c) ∧
      (∀ v ∈ st'.reverse_queue, v ∈ st.reverse_queue ∨
        ∃ c ∈ st.reverse_queue, ∃ s : Sim, (v, s) ∈ connR c)) := by
  obtain ⟨fq, rq, fv, rv, fqd, rqd, fpm, rpm, av⟩ := st
  cases fq with
  | nil =>
    have hiter : bfsLoopIter connF connR start target
        ⟨[], rq, fv, rv, fqd, rqd, fpm, rpm, av⟩ =
        bfsIterReverse connR start target ⟨[], rq, fv, rv, fqd, rqd, fpm, rpm, av⟩ := by
      simp only [bfsLoopIter]
    have hrc := bfsIterReverse_cases connF connR start target
      ⟨[], rq, fv, rv, fqd, rqd, fpm, rpm, av⟩ inv
    constructor
    · intro p st' h
      rw [hiter] at h
      exact hrc.1 p st' h
    · intro st' h
      rw [hiter] at h
      obtain ⟨inv', hfq, hfv, hempty, hgrow, hrvm, hrqm⟩ := hrc.2 st' h
      refine ⟨inv', ?_, ?_, hrvm, ?_, hrqm⟩
      · rintro (hne | hne)
        · exact absurd rfl hne
        · rw [hfv, hgrow hne]
          omega
      · intro v hv
        rw [hfv] at hv
        exact Or.inl hv
      · intro v hv
        rw [hfq] at hv
        exact Or.inl hv
  | cons current rest =>
    obtain ⟨finv, rinv, frinv⟩ := inv
    have hcv : current ∉ fv := by
      intro h
      exact finv.dj current h ((finv.qq current).mp (by simp))
    have hset := settle_side finv rfl
    obtain ⟨_, sinv, hqnew⟩ := hset
    by_cases hmeet : current ∈ rv
    · constructor
      · intro p st' h
        simp only [bfsLoopIter, if_neg hcv, if_pos hmeet] at h
        cases h
        apply reconstruct_path_props
        · exact finv.chains current (Or.inr ((finv.qq current).mp (by simp)))
        · exact rinv.chains current (Or.inl hmeet)
        · intro v u s hl
          obtain ⟨he, hne, _⟩ := finv.edges v u s hl
          exact ⟨he, hne⟩
        · intro v u s hl
          obtain ⟨he, hne, _⟩ := rinv.edges v u s hl
          exact ⟨he, hne⟩
      · intro st' h
        simp only [bfsLoopIter, if_neg hcv, if_pos hmeet] at h
        exact absurd h (by intro hc; cases hc)
    · have inv3 : BfsInv connF connR start target
          ⟨(enqueueNeighbors current (connF current) rest (current :: fv)
              (fqd.erase current) fpm).1, rq, current :: fv, rv,
            (enqueueNeighbors current (connF current) rest (current :: fv)
              (fqd.erase current) fpm).2.1, rqd,
            (enqueueNeighbors current (connF current) rest (current :: fv)
              (fqd.erase current) fpm).2.2, rpm, insertOnce current av⟩ := by
        refine ⟨sinv, rinv, ?_⟩
        intro v hv
        rcases List.mem_cons.mp hv with h' | h'
        · exact h' ▸ hmeet
        · exact frinv v h'
      have hrc := bfsIterReverse_cases connF connR start target _ inv3
      have hiter : bfsLoopIter connF connR start target
          ⟨current :: rest, rq, fv, rv, fqd, rqd, fpm, rpm, av⟩ =
          bfsIterReverse connR start target
          ⟨(enqueueNeighbors current (connF current) rest (current :: fv)
              (fqd.erase current) fpm).1, rq, current :: fv, rv,
            (enqueueNeighbors current (connF current) rest (current :: fv)
              (fqd.erase current) fpm).2.1, rqd,
            (enqueueNeighbors current (connF current) rest (current :: fv)
              (fqd.erase current) fpm).2.2, rpm, insertOnce current av⟩ := by
        simp only [bfsLoopIter, if_neg hcv, if_neg hmeet]
      constructor
      · intro p st' h
        rw [hiter] at h
        exact hrc.1 p st' h
      · intro st' h
        rw [hiter] at h
        obtain ⟨inv', hfq, hfv, hempty, hgrow, hrvm, hrqm⟩ := hrc.2 st' h
        refine ⟨inv', ?_, ?_, ?_, ?_, ?_⟩
        · intro _
          have hrvlen : rv.length ≤ st'.reverse_visited.length := by
            by_cases hrq : rq = []
            · rw [hempty hrq]
            · rw [hgrow hrq]
              show rv.length ≤ rv.length + 1
              omega
          rw [hfv]
          simp only [List.length_cons]
          omega
        · intro v hv
          rw [hfv] at hv
          rcases List.mem_cons.mp hv with h' | h'
          · exact Or.inr (by simp [h'])
          · exact Or.inl h'
        · intro v hv
          exact hrvm v hv
        · intro v hv
          rw [hfq] at hv
          rcases hqnew v hv with h' | h'
          · exact Or.inl (by simp [h'])
          · exact Or.inr ⟨current, by simp, h'⟩
        · intro v hv
          exact hrqm v hv

theorem bfsLoop_sound (connF connR : ConnFun) (start target : ArtistId) :
    ∀ (fuel : Nat) (st : BfsSearchState), BfsInv connF connR start target st →
      ∀ (p : List PathStep) (st' : BfsSearchState),
        bfsLoop connF connR start target fuel st = some (some p, st') →
        BfsPathProps connF connR start target p := by
  intro fuel
  induction fuel with
  | zero =>
    intro st inv p st' h
    simp only [bfsLoop] at h
    by_cases hc : st.forward_queue = [] ∧ st.reverse_queue = []
    · rw [if_pos hc] at h
      simp at h
    · rw [if_neg hc] at h
      exact absurd h (by simp)
  | succ f ih =>
    intro st inv p st' h
    simp only [bfsLoop] at h
    by_cases hc : st.forward_queue = [] ∧ st.reverse_queue = []
    · rw [if_pos hc] at h
      simp at h
    · rw [if_neg hc] at h
      cases hiter : bfsLoopIter connF connR start target st with
      | found p2 st2 =>
        rw [hiter] at h
        simp only at h
        have hp : p2 = p := by
          injection h with h1
          injection h1 with h2 _
          injection h2
        rw [← hp]
        exact (bfsLoopIter_cases connF connR start target st inv).1 p2 st2 hiter
      | next st2 =>
        rw [hiter] at h
        simp only at h
        have inv2 := ((bfsLoopIter_cases connF connR start target st inv).2 st2 hiter).1
        exact ih st2 inv2 p st' h

theorem bfsLoop_none_terminal (connF connR : ConnFun) (start target : ArtistId) :
    ∀ (fuel : Nat) (st : BfsSearchState), BfsInv connF connR start target st →
      ∀ st' : BfsSearchState,
        bfsLoop connF connR start target fuel st = some (none, st') →
        BfsInv connF connR start target st' ∧
        st'.forward_queue = [] ∧ st'.reverse_queue = [] := by
  intro fuel
  induction fuel with
  | zero =>
    intro st inv st' h
    simp only [bfsLoop] at h
    by_cases hc : st.forward_queue = [] ∧ st.reverse_queue = []
    · rw [if_pos hc] at h
      simp only [Option.some.injEq, Prod.mk.injEq] at h
      rw [← h.2]
      exact ⟨inv, hc.1, hc.2⟩
    · rw [if_neg hc] at h
      exact absurd h (by simp)
  | succ f ih =>
    intro st inv st' h
    simp only [bfsLoop] at h
    by_cases hc : st.forward_queue = [] ∧ st.reverse_queue = []
    · rw [if_pos hc] at h
      simp only [Option.some.injEq, Prod.mk.injEq] at h
      rw [← h.2]
      exact ⟨inv, hc.1, hc.2⟩
    · rw [if_neg hc] at h
      cases hiter : bfsLoopIter connF connR start target st with
      | found p2 st2 =>
        rw [hiter] at h
        simp at h
      | next st2 =>
        rw [hiter] at h
        simp only at h
        have inv2 := ((bfsLoopIter_cases connF connR start target st inv).2 st2 hiter).1
        exact ih st2 inv2 st' h

theorem nodup_length_le_card {l : List ArtistId} {V : Finset ArtistId}
    (hnd : l.Nodup) (hsub : ∀ v ∈ l, v ∈ V) : l.length ≤ V.card := by
  have hsubset : l.toFinset ⊆ V := fun v hv => hsub v (List.mem_toFinset.mp hv)
  calc l.length = l.toFinset.card := (List.toFinset_card_of_nodup hnd).symm
  _ ≤ V.card := Finset.card_le_card hsubset

theorem bfsLoop_isSome (connF connR : ConnFun) (start target : ArtistId)
    (V : Finset ArtistId) (hcF : ClosedUnder connF V) (hcR : ClosedUnder connR V) :
    ∀ (fuel : Nat) (st : BfsSearchState), BfsInv connF connR start target st →
      BoundBy V st →
      2 * V.card + 1 ≤ fuel + st.forward_visited.length + st.reverse_visited.length →
      (bfsLoop connF connR start target fuel st).isSome := by
  intro fuel
  induction fuel with
  | zero =>
    intro st inv hb hm
    exfalso
    have h1 : st.forward_visited.length ≤ V.card :=
      nodup_length_le_card inv.fwd.vnd hb.2.1
    have h2 : st.reverse_visited.length ≤ V.card :=
      nodup_length_le_card inv.rev.vnd hb.2.2.2
    omega
  | succ f ih =>
    intro st inv hb hm
    simp only [bfsLoop]
    by_cases hc : st.forward_queue = [] ∧ st.reverse_queue = []
    · rw [if_pos hc]
      rfl
    · rw [if_neg hc]
      cases hiter : bfsLoopIter connF connR start target st with
      | found p2 st2 => rfl
      | next st2 =>
        simp only
        obtain ⟨inv2, hgrow, hfvm, hrvm, hfqm, hrqm⟩ :=
          (bfsLoopIter_cases connF connR start target st inv).2 st2 hiter
        have hne : st.forward_queue ≠ [] ∨ st.reverse_queue ≠ [] := by
          by_contra hcon
          push_neg at hcon
          exact hc ⟨hcon.1, hcon.2⟩
        have hb2 : BoundBy V st2 := by
          refine ⟨?_, ?_, ?_, ?_⟩
          · intro v hv
            rcases hfqm v hv with h' | h'
            · exact hb.1 v h'
            · obtain ⟨c, hcq, s, hs⟩ := h'
              exact hcF c (hb.1 c hcq) (v, s) hs
          · intro v hv
            rcases hfvm v hv with h' | h'
            · exact hb.2.1 v h'
            · exact hb.1 v h'
          · intro v hv
            rcases hrqm v hv with h' | h'
            · exact hb.2.2.1 v h'
            · obtain ⟨c, hcq, s, hs⟩ := h'
              exact hcR c (hb.2.2.1 c hcq) (v, s) hs
          · intro v hv
            rcases hrvm v hv with h' | h'
            · exact hb.2.2.2 v h'
            · exact hb.2.2.1 v h'
        exact ih st2 inv2 hb2 (by have := hgrow hne; omega)

theorem bfs_terminal_no_path_contradiction {connF connR : ConnFun}
    {start target : ArtistId} {st : BfsSearchState}
    (inv : BfsInv connF connR start target st)
    (hfq : st.forward_queue = []) (hrq : st.reverse_queue = [])
    (hreach : Relation.ReflTransGen (connStep connF) start target) : False := by
  have hqd_empty : ∀ v : ArtistId, v ∉ st.forward_queued := by
    intro v hv
    have := (inv.fwd.qq v).mpr hv
    rw [hfq] at this
    simp at this
  have hfv : ∀ v : ArtistId, Relation.ReflTransGen (connStep connF) start v →
      v ∈ st.forward_visited := by
    intro v hv
    induction hv with
    | refl =>
      rcases inv.fwd.srcq with h | h
      · exact h
      · rw [hfq] at h
        simp at h
    | tail _ hbc ihb =>
      obtain ⟨s, hs⟩ := hbc
      rcases inv.fwd.closed _ ihb _ hs with h' | h'
      · exact h'
      · exact absurd h' (hqd_empty _)
  have htf : target ∈ st.forward_visited := hfv target hreach
  have htr : target ∈ st.reverse_visited := by
    rcases inv.rev.srcq with h | h
    · exact h
    · rw [hrq] at h
      simp at h
  exact inv.fr target htf htr

/-- Combined completeness and soundness of the embedded bidirectional BFS:
on a graph bounded by a finite closed vertex set, a reachable target makes
the search return a path with the soundness package. -/
theorem bfs_run_exists (connF connR : ConnFun) (start target : ArtistId)
    (V : Finset ArtistId) (hcF : ClosedUnder connF V) (hcR : ClosedUnder connR V)
    (hs : start ∈ V) (ht : target ∈ V)
    (hreach : Relation.ReflTransGen (connStep connF) start target) :
    ∃ (p : List PathStep) (n : Nat),
      bfs_find_path connF connR start target (2 * V.card + 1) = some (some p, n) ∧
      BfsPathProps connF connR start target p := by
  have hinv := bfsInv_init connF connR start target
  have hb : BoundBy V (initBfsState start target) := by
    refine ⟨?_, ?_, ?_, ?_⟩ <;> intro v hv <;> simp [initBfsState] at hv
    · exact hv ▸ hs
    · exact hv ▸ ht
  have hsome := bfsLoop_isSome connF connR start target V hcF hcR
    (2 * V.card + 1) (initBfsState start target) hinv hb
    (by simp [initBfsState])
  cases hrun : bfsLoop connF connR start target (2 * V.card + 1)
      (initBfsState start target) with
  | none => rw [hrun] at hsome; simp at hsome
  | some r =>
    obtain ⟨res, stF⟩ := r
    cases res with
    | none =>
      exfalso
      obtain ⟨invF, hfqF, hrqF⟩ :=
        bfsLoop_none_terminal connF connR start target _ _ hinv stF hrun
      exact bfs_terminal_no_path_contradiction invF hfqF hrqF hreach
    | some p =>
      refine ⟨p, stF.all_visited.length, ?_, ?_⟩
      · unfold bfs_find_path find_path_to_target
        rw [hrun]
        rfl
      · exact bfsLoop_sound connF connR start target _ _ hinv p stF hrun

/-- Claim C1 (counterexample): on graph 1 (whose reverse accessor is the
exact transpose of the forward one) the pair (1, 5) is connected in the
filtered forward graph, yet `bfs_find_path` returns the 4-node path
1→2→4→5 although the forward edges 1→4 and 4→5 form a 3-node path, so the
returned length is not the shortest-path length.  On graph 2 the returned
path 1→2→4 contains the consecutive pair (2, 4) although the filtered
forward graph has no edge from 2 to 4 (the reverse half traversed a
reverse-record edge); (1, 4) is connected in the filtered forward graph. -/
theorem C1_counterexample :
    (bfs_find_path bfsCexConnF bfsCexConnR 1 5 20 =
      some (some [(1, 0), (2, 9/10), (4, 9/10), (5, 7/10)], 5)) ∧
    connStep bfsCexConnF 1 4 ∧ connStep bfsCexConnF 4 5 ∧
    (bfs_find_path bfsCexConnF2 bfsCexConnR2 1 4 20 =
      some (some [(1, 0), (2, 9/10), (4, 5/10)], 3)) ∧
    Relation.ReflTransGen (connStep bfsCexConnF2) 1 4 ∧
    (∀ s : Sim, ((4 : ArtistId), s) ∉ bfsCexConnF2 2) := by
  refine ⟨by rfl, ⟨1/10, ?_⟩, ⟨7/10, ?_⟩, by rfl, ?_, ?_⟩
  · show (4, 1/10) ∈ [(2, 9/10), (3, 8/10), (4, 1/10)]
    exact .tail _ (.tail _ (.head _))
  · show (5, 7/10) ∈ [(5, 7/10)]
    exact .head _
  · have h12 : connStep bfsCexConnF2 1 2 := ⟨9/10, .head _⟩
    have h23 : connStep bfsCexConnF2 2 3 := ⟨9/10, .head _⟩
    have h34 : connStep bfsCexConnF2 3 4 := ⟨4/10, .head _⟩
    exact Relation.ReflTransGen.tail (Relation.ReflTransGen.tail
      (Relation.ReflTransGen.single h12) h23) h34
  · intro s h
    simp [bfsCexConnF2] at h

/-- Claim C1 (amended, proved): for every pair `(start, target)` with
`target` reachable from `start` in the filtered forward graph (and the
search confined to a finite, filter-closed vertex set `V`), bidirectional
BFS `find_path` returns `Some path`; the path starts at `start` (with the
0.0 sentinel) and ends at `target`, and every consecutive pair is an edge
of the filtered forward graph or the transpose of an edge of the filtered
reverse graph, labelled with the similarity of that edge; when the two
filtered graphs are mutual transposes every consecutive pair is an edge of
the filtered forward graph.  The returned length need not be the
shortest-path length (see the counterexample). -/
theorem C1_amended_bidirectional_bfs (connF connR : ConnFun)
    (start target : ArtistId) (V : Finset ArtistId)
    (hcF : ClosedUnder connF V) (hcR : ClosedUnder connR V)
    (hs : start ∈ V) (ht : target ∈ V)
    (hreach : Relation.ReflTransGen (connStep connF) start target) :
    ∃ (p : List PathStep) (n : Nat),
      bfs_find_path connF connR start target (2 * V.card + 1) = some (some p, n) ∧
      p.head? = some (start, 0) ∧ (p.getLast?).map Prod.fst = some target ∧
      List.Chain' (fun x y : PathStep =>
        (y.1, y.2) ∈ connF x.1 ∨ (x.1, y.2) ∈ connR y.1) p ∧
      ((∀ (u v : ArtistId) (s : Sim), (u, s) ∈ connR v ↔ (v, s) ∈ connF u) →
        List.Chain' (fun x y : PathStep => (y.1, y.2) ∈ connF x.1) p) := by
  obtain ⟨p, n, hrun, hhead, hlast, hchain⟩ :=
    bfs_run_exists connF connR start target V hcF hcR hs ht hreach
  refine ⟨p, n, hrun, hhead, hlast, hchain.imp (fun a b hab => hab.1), ?_⟩
  intro hsym
  refine hchain.imp ?_
  intro a b hab
  rcases hab.1 with h | h
  · exact h
  · exact (hsym a.1 b.1 b.2).mp h

theorem C1_witness :
    ∃ (p : List PathStep) (n : Nat),
      bfs_find_path c1wF c1wR 1 2 (2 * ({1, 2} : Finset ArtistId).card + 1) =
        some (some p, n) ∧
      p.head? = some (1, 0) ∧ (p.getLast?).map Prod.fst = some 2 ∧
      List.Chain' (fun x y : PathStep =>
        (y.1, y.2) ∈ c1wF x.1 ∨ (x.1, y.2) ∈ c1wR y.1) p ∧
      ((∀ (u v : ArtistId) (s : Sim), (u, s) ∈ c1wR v ↔ (v, s) ∈ c1wF u) →
        List.Chain' (fun x y : PathStep => (y.1, y.2) ∈ c1wF x.1) p) :=
  C1_amended_bidirectional_bfs c1wF c1wR 1 2 {1, 2}
    (by unfold ClosedUnder; decide) (by unfold ClosedUnder; decide)
    (by decide) (by decide) (Relation.ReflTransGen.single ⟨1, by decide⟩)

/-! ### Claim C2 -/

/-- A forward walk from the source itself is empty. -/
theorem fwdWalk_nil_of_src {pm : ParentMap} {src : ArtistId} {T : List PathStep}
    (h : FwdWalkOK pm src src T) : T = [] := by
  cases h with
  | nil => rfl
  | cons hne _ _ => exact absurd rfl hne

/-- A forward walk from a node other than the source starts with that node
and its own stored similarity. -/
theorem fwdWalk_cons_of_ne {pm : ParentMap} {src v : ArtistId} {T : List PathStep}
    (h : FwdWalkOK pm src v T) (hne : v ≠ src) :
    ∃ (u : ArtistId) (s : Sim) (rest : List PathStep),
      T = (v, s) :: rest ∧ pm.lookup v = some (u, s) ∧ FwdWalkOK pm src u rest := by
  cases h with
  | nil => exact absurd rfl hne
  | @cons v u s rest hvne hl h' => exact ⟨u, s, rest, rfl, hl, h'⟩

/-- Structure of `reconstruct_bidirectional_dijkstra_path`: the output splits
into a forward half `A` (start sentinel `(start, 0)`, then each node paired
with the similarity on its own forward-parent entry — the edge entering it
— ending at the meeting point) and a reverse half `B` in which each node
before the end is paired with the similarity on its own reverse-parent
entry — the edge leaving it toward the target — and the final element is
the `(target, 0)` sentinel; the meeting point's reverse-parent similarity
is dropped. -/
theorem dijkstra_reconstruct_split {fpm rpm : ParentMap} {start target m : ArtistId}
    (hfc : ∃ n ≤ fpm.length, StepsToStart fpm start m n)
    (hrc : ∃ n ≤ rpm.length, StepsToStart rpm target m n) :
    ∃ A B : List PathStep,
      reconstruct_bidirectional_dijkstra_path fpm rpm start target m = A ++ B ∧
      A.head? = some (start, 0) ∧
      (A.getLast?).map Prod.fst = some m ∧
      List.Chain' (fun x y : PathStep => fpm.lookup y.1 = some (x.1, y.2)) A ∧
      (m = target → B = []) ∧
      (m ≠ target →
        B.getLast? = some (target, 0) ∧
        List.Chain' (fun x y : PathStep => rpm.lookup x.1 = some (y.1, x.2)) B ∧
        ∃ (y : PathStep) (s : Sim), B.head? = some y ∧ rpm.lookup m = some (y.1, s)) := by
  obtain ⟨nf, hnf, hsf⟩ := hfc
  obtain ⟨nr, hnr, hsr⟩ := hrc
  have hWok : FwdWalkOK fpm start m
      (walkToStart fpm start (fpm.length + rpm.length + 2) m) :=
    walkToStart_ok hsf _ (by omega)
  have hTok : FwdWalkOK rpm target m
      (walkToStart rpm target (fpm.length + rpm.length + 2) m) :=
    walkToStart_ok hsr _ (by omega)
  set W := walkToStart fpm start (fpm.length + rpm.length + 2) m with hW
  set T := walkToStart rpm target (fpm.length + rpm.length + 2) m with hT
  refine ⟨(W ++ [(start, 0)]).reverse,
    (if 1 < (T ++ [(target, 0)]).length then (T ++ [(target, 0)]).drop 1 else []),
    rfl, ?_, ?_, ?_, ?_, ?_⟩
  · simp
  · rw [List.getLast?_reverse]
    cases hh : (W ++ [(start, 0)]).head? with
    | none =>
      rw [List.head?_eq_none_iff] at hh
      simp at hh
    | some y =>
      have hy : y.1 = m := fwdWalk_head hWok y (by rw [hh]; rfl)
      simp [hy]
  · rw [List.chain'_reverse]
    have hfl : (flip fun x y : PathStep => fpm.lookup y.1 = some (x.1, y.2)) =
        fun x y : PathStep => fpm.lookup x.1 = some (y.1, x.2) := rfl
    rw [hfl]
    exact fwdWalk_chain hWok
  · intro hmt
    rw [hmt] at hTok
    have hTnil : T = [] := fwdWalk_nil_of_src hTok
    rw [hTnil]
    simp
  · intro hne
    obtain ⟨u, s, rest, hTc, hlm, hsub⟩ := fwdWalk_cons_of_ne hTok hne
    rw [hTc]
    have hdrop : ((m, s) :: rest ++ [(target, 0)]).drop 1 = rest ++ [(target, 0)] := rfl
    have hlen : 1 < ((m, s) :: rest ++ [(target, 0)]).length := by
      simp
    rw [if_pos hlen, hdrop]
    refine ⟨?_, ?_, ?_⟩
    · exact List.getLast?_concat _
    · have hchain := fwdWalk_chain hTok
      rw [hTc] at hchain
      exact (List.chain'_cons'.mp hchain).2
    · cases hh : (rest ++ [(target, 0)]).head? with
      | none =>
        rw [List.head?_eq_none_iff] at hh
        simp at hh
      | some y =>
        have hy : y.1 = u := fwdWalk_head hsub y (by rw [hh]; rfl)
        exact ⟨y, s, rfl, by rw [hy]; exact hlm⟩

/-- Claim C2 (amended, proved).  BFS half: in every path returned by the
bidirectional BFS, the first element is the `(start, 0.0)` sentinel and
every subsequent element is paired with the similarity of an edge entering
it from its predecessor (read from the forward record of the predecessor
or the reverse record of the node).  Dijkstra half: the reconstructed path
splits at the meeting point; on the forward half the first element is the
`(start, 0.0)` sentinel and every subsequent node is paired with the
similarity of the edge entering it, but on the reverse half every node is
paired with the similarity of the edge *leaving* it toward the target, the
final element is a second `(target, 0.0)` sentinel, and the similarity
stored on the meeting point's reverse-parent edge is dropped — so the
original claim's "edge entering the node" pairing and "exactly the first
element carries 0.0" both fail on the Dijkstra variant (see the
counterexample). -/
theorem C2_amended_sentinel_and_edge_sims :
    (∀ (connF connR : ConnFun) (start target : ArtistId) (fuel : Nat)
        (p : List PathStep) (n : Nat),
      bfs_find_path connF connR start target fuel = some (some p, n) →
      p.head? = some (start, 0) ∧
      List.Chain' (fun x y : PathStep =>
        (y.1, y.2) ∈ connF x.1 ∨ (x.1, y.2) ∈ connR y.1) p) ∧
    (∀ (fpm rpm : ParentMap) (start target m : ArtistId),
      (∃ n ≤ fpm.length, StepsToStart fpm start m n) →
      (∃ n ≤ rpm.length, StepsToStart rpm target m n) →
      ∃ A B : List PathStep,
        reconstruct_bidirectional_dijkstra_path fpm rpm start target m = A ++ B ∧
        A.head? = some (start, 0) ∧
        (A.getLast?).map Prod.fst = some m ∧
        List.Chain' (fun x y : PathStep => fpm.lookup y.1 = some (x.1, y.2)) A ∧
        (m = target → B = []) ∧
        (m ≠ target →
          B.getLast? = some (target, 0) ∧
          List.Chain' (fun x y : PathStep => rpm.lookup x.1 = some (y.1, x.2)) B ∧
          ∃ (y : PathStep) (s : Sim), B.head? = some y ∧ rpm.lookup m = some (y.1, s))) := by
  constructor
  · intro connF connR start target fuel p n h
    have hloop : ∃ st', bfsLoop connF connR start target fuel
        (initBfsState start target) = some (some p, st') := by
      unfold bfs_find_path find_path_to_target at h
      revert h
      cases hb : bfsLoop connF connR start target fuel (initBfsState start target) with
      | none => intro h; simp at h
      | some r =>
        intro h
        have h' : some (r.1, r.2.all_visited.length) = some (some p, n) := h
        injection h' with h''
        have hr1 : r.1 = some p := congrArg Prod.fst h''
        exact ⟨r.2, by rw [← hr1]⟩
    obtain ⟨st', hst⟩ := hloop
    have hprops := bfsLoop_sound connF connR start target fuel _
      (bfsInv_init connF connR start target) p st' hst
    exact ⟨hprops.1, hprops.2.2.imp (fun a b hab => hab.1)⟩
  · intro fpm rpm start target m hfc hrc
    exact dijkstra_reconstruct_split hfc hrc

/-- Claim C2 (counterexample): on the two-edge graph 1→2 (0.9), 2→3 (0.8)
the Dijkstra variant returns `[(1, 0), (2, 0.9), (3, 0)]`: the last
element — the target 3, reached by the edge 2→3 of similarity 0.8 ≠ 0 —
carries the sentinel 0.0 instead of the similarity of the edge entering
it, so the sentinel is not carried by exactly the first element. -/
theorem C2_counterexample :
    (dijkstra_find_path dijCexConnF dijCexConnR 1 3 10 =
      some (some [(1, 0), (2, 9/10), (3, 0)], 3)) ∧
    dijCexConnF 2 = [(3, 4/5)] ∧ ((4 : Sim)/5 ≠ 0) := by
  refine ⟨by rfl, rfl, by norm_num⟩

theorem C2_witness :
    (([((1 : ArtistId), (0 : Sim)), (2, 1)] : List PathStep).head? = some (1, 0) ∧
      List.Chain' (fun x y : PathStep =>
        (y.1, y.2) ∈ c1wF x.1 ∨ (x.1, y.2) ∈ c1wR y.1)
        ([((1 : ArtistId), (0 : Sim)), (2, 1)] : List PathStep)) ∧
    (∃ A B : List PathStep,
      reconstruct_bidirectional_dijkstra_path [(2, (1, 1))] [(2, (3, 1))] 1 3 2 =
        A ++ B ∧
      A.head? = some (1, 0) ∧
      (A.getLast?).map Prod.fst = some 2 ∧
      List.Chain' (fun x y : PathStep =>
        ([((2 : ArtistId), ((1 : ArtistId), (1 : Sim)))].lookup y.1) = some (x.1, y.2)) A ∧
      ((2 : ArtistId) = 3 → B = []) ∧
      ((2 : ArtistId) ≠ 3 →
        B.getLast? = some (3, 0) ∧
        List.Chain' (fun x y : PathStep =>
          ([((2 : ArtistId), ((3 : ArtistId), (1 : Sim)))].lookup x.1) = some (y.1, x.2)) B ∧
        ∃ (y : PathStep) (s : Sim), B.head? = some y ∧
          ([((2 : ArtistId), ((3 : ArtistId), (1 : Sim)))].lookup 2) = some (y.1, s))) :=
  ⟨C2_amended_sentinel_and_edge_sims.1 c1wF c1wR 1 2 5 [(1, 0), (2, 1)] 2 (by rfl),
   C2_amended_sentinel_and_edge_sims.2 [(2, (1, 1))] [(2, (3, 1))] 1 3 2
     ⟨1, by decide, .step (by decide) (by rfl) .base⟩
     ⟨1, by decide, .step (by decide) (by rfl) .base⟩⟩

theorem lookup_mapInsert_self {α : Type} (k : ArtistId) (v : α)
    (l : List (ArtistId × α)) : (mapInsert k v l).lookup k = some v := by
  induction l with
  | nil => simp [mapInsert, List.lookup]
  | cons e rest ih =>
    by_cases h : e.1 = k
    · simp [mapInsert, h, List.lookup]
    · have hb : (k == e.1) = false := by simpa using (fun he => h he.symm)
      simp [mapInsert, h, List.lookup, hb, ih]

theorem lookup_mapInsert_ne {α : Type} {a k : ArtistId} (v : α)
    (l : List (ArtistId × α)) (h : a ≠ k) :
    (mapInsert k v l).lookup a = l.lookup a := by
  induction l with
  | nil =>
    have hb : (a == k) = false := by simpa using h
    simp [mapInsert, List.lookup, hb]
  | cons e rest ih =>
    by_cases he : e.1 = k
    · have hb : (a == k) = false := by simpa using h
      have hb2 : (a == e.1) = false := by simpa using (he ▸ h)
      simp [mapInsert, he, List.lookup, hb, hb2]
    · by_cases hae : a = e.1
      · simp [mapInsert, he, List.lookup, hae]
      · have hb : (a == e.1) = false := by simpa using hae
        simp [mapInsert, he, List.lookup, hb, ih]

theorem mapInsert_length_le {α : Type} (k : ArtistId) (v : α)
    (l : List (ArtistId × α)) : (mapInsert k v l).length ≤ l.length + 1 := by
  induction l with
  | nil => simp [mapInsert]
  | cons e rest ih =>
    by_cases h : e.1 = k
    · simp [mapInsert, h]
    · simp only [mapInsert, if_neg h, List.length_cons]
      omega

/-- `mapInsert` preserves the presence of every key. -/
theorem lookup_mapInsert_isSome {α : Type} {a : ArtistId} (k : ArtistId) (v : α)
    (l : List (ArtistId × α)) (h : (l.lookup a).isSome) :
    ((mapInsert k v l).lookup a).isSome := by
  by_cases hak : a = k
  · rw [hak, lookup_mapInsert_self]
    rfl
  · rw [lookup_mapInsert_ne v l hak]
    exact h

/-- Length bound for the path-artist insertion fold. -/
theorem enumFold_length_le (l : List (Nat × PathStep)) :
    ∀ d : DiscoveredArtists,
      (l.foldl (fun d q => mapInsert q.2.1 (q.2.2, q.1) d) d).length ≤
        d.length + l.length := by
  induction l with
  | nil => intro d; simp
  | cons q rest ih =>
    intro d
    calc (rest.foldl (fun d q => mapInsert q.2.1 (q.2.2, q.1) d)
            (mapInsert q.2.1 (q.2.2, q.1) d)).length
        ≤ (mapInsert q.2.1 (q.2.2, q.1) d).length + rest.length := ih _
      _ ≤ d.length + 1 + rest.length := by
          have := mapInsert_length_le q.2.1 (q.2.2, q.1) d
          omega
      _ = d.length + (q :: rest).length := by simp; omega

/-- Every key of the input, and every path artist, is present after the
path-artist insertion fold. -/
theorem enumFold_lookup_isSome (l : List (Nat × PathStep)) :
    ∀ (d : DiscoveredArtists) (x : ArtistId),
      ((d.lookup x).isSome ∨ x ∈ l.map (fun q => q.2.1)) →
      (((l.foldl (fun d q => mapInsert q.2.1 (q.2.2, q.1) d) d).lookup x).isSome) := by
  induction l with
  | nil =>
    intro d x hx
    simpa using hx
  | cons q rest ih =>
    intro d x hx
    simp only [List.foldl_cons]
    refine ih _ x ?_
    by_cases hq : x = q.2.1
    · left
      rw [hq, lookup_mapInsert_self]
      rfl
    · rcases hx with h | h
      · left
        exact lookup_mapInsert_isSome _ _ _ h
      · simp only [List.map_cons, List.mem_cons] at h
        rcases h with h | h
        · exact absurd h hq
        · right
          exact h

/-- The neighbor-admission loop never grows the discovered map past the
budget. -/
theorem add_neighbors_length_le (connF connR : ConnFun) (budget path_length : Nat) :
    ∀ (ns : List (ArtistId × (Sim × Nat))) (d : DiscoveredArtists)
      (ac : ArtistConnections), d.length ≤ budget →
      (add_neighbors_to_discovered connF connR budget path_length ns (d, ac)).1.length ≤
        budget := by
  intro ns
  induction ns with
  | nil => intro d ac h; exact h
  | cons n rest ih =>
    intro d ac h
    obtain ⟨nb, sim, cnt⟩ := n
    simp only [add_neighbors_to_discovered]
    by_cases hb : budget ≤ d.length
    · rw [if_pos hb]
      exact h
    · rw [if_neg hb]
      by_cases hv : (d.lookup nb).isSome
      · rw [if_pos hv]
        exact ih d ac h
      · rw [if_neg hv]
        refine ih _ _ ?_
        have := mapInsert_length_le nb (sim, path_length) d
        omega

/-- The neighbor-admission loop preserves the presence of every key. -/
theorem add_neighbors_lookup_isSome (connF connR : ConnFun) (budget path_length : Nat) :
    ∀ (ns : List (ArtistId × (Sim × Nat))) (d : DiscoveredArtists)
      (ac : ArtistConnections) (x : ArtistId), (d.lookup x).isSome →
      ((add_neighbors_to_discovered connF connR budget path_length
        ns (d, ac)).1.lookup x).isSome := by
  intro ns
  induction ns with
  | nil => intro d ac x h; exact h
  | cons n rest ih =>
    intro d ac x h
    obtain ⟨nb, sim, cnt⟩ := n
    simp only [add_neighbors_to_discovered]
    by_cases hb : budget ≤ d.length
    · rw [if_pos hb]
      exact h
    · rw [if_neg hb]
      by_cases hv : (d.lookup nb).isSome
      · rw [if_pos hv]
        exact ih d ac x h
      · rw [if_neg hv]
        exact ih _ _ x (lookup_mapInsert_isSome _ _ _ h)

/-- The discovered map of `explore_path_neighborhood` stays within the
budget (provided the path itself fits) and contains every path artist. -/
theorem explore_path_neighborhood_spec (path : List PathStep) (budget : Nat)
    (connF connR : ConnFun) (hfit : path.length ≤ budget) :
    (explore_path_neighborhood path budget connF connR).1.length ≤ budget ∧
    ∀ p ∈ path,
      (((explore_path_neighborhood path budget connF connR).1.lookup p.1).isSome) := by
  unfold explore_path_neighborhood
  have hd0len : (path.enum.foldl (fun d q => mapInsert q.2.1 (q.2.2, q.1) d)
      ([] : DiscoveredArtists)).length ≤ budget := by
    have := enumFold_length_le path.enum []
    simp only [List.length_nil, List.enum_length] at this
    omega
  have hd0mem : ∀ p ∈ path,
      ((path.enum.foldl (fun d q => mapInsert q.2.1 (q.2.2, q.1) d)
        ([] : DiscoveredArtists)).lookup p.1).isSome := by
    intro p hp
    refine enumFold_lookup_isSome path.enum [] p.1 (Or.inr ?_)
    have hmap : path.enum.map (fun q => q.2.1) = path.map Prod.fst := by
      rw [show (fun q : Nat × PathStep => q.2.1) =
        (Prod.fst ∘ Prod.snd) from rfl]
      rw [← List.map_map, List.enum_map_snd]
    rw [hmap]
    exact List.mem_map_of_mem Prod.fst hp
  by_cases hz : budget - path.length = 0
  · rw [if_pos hz]
    exact ⟨hd0len, hd0mem⟩
  · rw [if_neg hz]
    refine ⟨add_neighbors_length_le _ _ _ _ _ _ _ hd0len, ?_⟩
    intro p hp
    exact add_neighbors_lookup_isSome _ _ _ _ _ _ _ _ (hd0mem p hp)

/-- Claim C3: whenever `find_paths_with_exploration` returns Success, the
discovered-artists map has at most `budget` entries and contains every
artist of the primary path; whenever it returns PathTooLong, the path
length exceeds the budget and `minimum_budget_needed` equals the path
length. -/
theorem C3_budget_enforcement (alg : Algorithm) (connF connR : ConnFun)
    (start target : ArtistId) (budget fuel : Nat) (r : EnhancedPathResult)
    (h : find_paths_with_exploration alg connF connR start target budget fuel = some r) :
    (∀ (path : List PathStep) (d : DiscoveredArtists) (ac : ArtistConnections)
        (v : Nat), r = .Success path d ac v →
      d.length ≤ budget ∧ ∀ p ∈ path, (d.lookup p.1).isSome) ∧
    (∀ (path : List PathStep) (len minb v : Nat), r = .PathTooLong path len minb v →
      budget < len ∧ minb = len) := by
  unfold find_paths_with_exploration at h
  revert h
  cases hrun : (match alg with
    | .dijkstra => dijkstra_find_path connF connR start target fuel
    | .bfs => bfs_find_path connF connR start target fuel) with
  | none => intro h; simp at h
  | some res =>
    obtain ⟨po, v0⟩ := res
    cases po with
    | none =>
      intro h
      simp only [Option.some.injEq] at h
      constructor
      · intro path d ac v hr
        rw [← h] at hr
        exact absurd hr (by simp)
      · intro path len minb v hr
        rw [← h] at hr
        exact absurd hr (by simp)
    | some path0 =>
      intro h
      simp only [Option.some.injEq] at h
      rw [← h]
      unfold handle_successful_path_generic
      by_cases hlong : budget < path0.length
      · rw [if_pos hlong]
        constructor
        · intro path d ac v hr
          exact absurd hr (by simp)
        · intro path len minb v hr
          simp only [EnhancedPathResult.PathTooLong.injEq] at hr
          obtain ⟨_, hlen, hminb, _⟩ := hr
          constructor
          · omega
          · omega
      · rw [if_neg hlong]
        constructor
        · intro path d ac v hr
          simp only [EnhancedPathResult.Success.injEq] at hr
          obtain ⟨hpath, hd, hac, _⟩ := hr
          have hspec := explore_path_neighborhood_spec path0 budget connF connR
            (by omega)
          rw [← hd, ← hpath]
          exact hspec
        · intro path len minb v hr
          exact absurd hr (by simp)

theorem C3_witness :
    (([((1 : ArtistId), ((0 : Sim), (0 : Nat))), (2, (1, 1))] :
        DiscoveredArtists).length ≤ 2 ∧
      ∀ p ∈ ([(1, 0), (2, 1)] : List PathStep),
        ((([((1 : ArtistId), ((0 : Sim), (0 : Nat))), (2, (1, 1))] :
          DiscoveredArtists).lookup p.1).isSome)) ∧
    ((1 : Nat) < 2 ∧ (2 : Nat) = 2) :=
  ⟨(C3_budget_enforcement .bfs c1wF c1wR 1 2 2 5
      (.Success [(1, 0), (2, 1)] [(1, (0, 0)), (2, (1, 1))]
        [(1, [(2, 1)]), (2, [(1, 1)])] 2) (by rfl)).1
      [(1, 0), (2, 1)] [(1, (0, 0)), (2, (1, 1))] [(1, [(2, 1)]), (2, [(1, 1)])] 2 rfl,
   (C3_budget_enforcement .bfs c1wF c1wR 1 2 1 5
      (.PathTooLong [(1, 0), (2, 1)] 2 2 2) (by rfl)).2
      [(1, 0), (2, 1)] 2 2 2 rfl⟩

theorem mapInsert_length_fresh {α : Type} (k : ArtistId) (v : α)
    (l : List (ArtistId × α)) (h : l.lookup k = none) :
    (mapInsert k v l).length = l.length + 1 := by
  induction l with
  | nil => rfl
  | cons e rest ih =>
    by_cases he : e.1 = k
    · rw [show e = (e.1, e.2) from rfl, he] at h
      rw [lookup_cons_self] at h
      exact Option.noConfusion h
    · have h' : rest.lookup k = none := by
        have hb : (k == e.1) = false := by simpa using fun hk => he hk.symm
        cases e with
        | mk e1 e2 =>
          simp only [List.lookup, hb] at h
          exact h
      simp only [mapInsert, if_neg he, List.length_cons, ih h']

theorem lookup_isSome_iff_mem_fst {α : Type} (l : List (ArtistId × α))
    (a : ArtistId) : (l.lookup a).isSome ↔ a ∈ l.map Prod.fst := by
  induction l with
  | nil => simp [List.lookup]
  | cons e rest ih =>
    by_cases he : a = e.1
    · cases e with
      | mk k v => rw [he]; simp [lookup_cons_self]
    · cases e with
      | mk k v =>
        rw [lookup_cons_ne _ _ he]
        simp only [List.map_cons, List.mem_cons]
        rw [ih]
        constructor
        · exact Or.inr
        · intro h
          rcases h with h | h
          · exact absurd h he
          · exact h

/-- Once the budget is reached, the admission fold is a no-op. -/
theorem bfs_admit_noop (index : List ArtistId) (budget layer : Nat) :
    ∀ (conns : List PathStep) (d : DiscoveredArtists)
      (q : List (ArtistId × Nat)), budget ≤ d.length →
      bfs_admit_neighbors index budget layer conns d q = (d, q) := by
  intro conns
  induction conns with
  | nil => intro d q _; rfl
  | cons p rest ih =>
    intro d q h
    have hsa : should_add_artist index d p.1 budget = false := by
      unfold should_add_artist
      have : decide (d.length < budget) = false := by
        simp only [decide_eq_false_iff_not]
        omega
      simp [this]
    simp only [bfs_admit_neighbors, List.foldl_cons, hsa, Bool.false_eq_true,
      if_false]
    exact ih d q h

/-- Postconditions of the admission fold: the discovered map only grows,
stays within the budget, every listed in-index neighbor ends up discovered
unless the budget is full, new keys come from the list (and are queued),
and the queue only grows. -/
theorem bfs_admit_spec (index : List ArtistId) (budget layer : Nat) :
    ∀ (conns : List PathStep) (d : DiscoveredArtists)
      (q : List (ArtistId × Nat)), d.length ≤ budget →
      (∀ x, (d.lookup x).isSome →
        (((bfs_admit_neighbors index budget layer conns d q).1.lookup x).isSome)) ∧
      d.length ≤ (bfs_admit_neighbors index budget layer conns d q).1.length ∧
      (bfs_admit_neighbors index budget layer conns d q).1.length ≤ budget ∧
      (∀ p ∈ conns, p.1 ∈ index →
        (((bfs_admit_neighbors index budget layer conns d q).1.lookup p.1).isSome) ∨
        (bfs_admit_neighbors index budget layer conns d q).1.length = budget) ∧
      (∀ x, ((bfs_admit_neighbors index budget layer conns d q).1.lookup x).isSome →
        (d.lookup x).isSome ∨ ∃ s, (x, s) ∈ conns ∧ x ∈ index) ∧
      (∀ x, ((bfs_admit_neighbors index budget layer conns d q).1.lookup x).isSome →
        (d.lookup x).isSome ∨
        x ∈ (bfs_admit_neighbors index budget layer conns d q).2.map Prod.fst) ∧
      (∀ e ∈ q, e ∈ (bfs_admit_neighbors index budget layer conns d q).2) ∧
      (∀ e ∈ (bfs_admit_neighbors index budget layer conns d q).2, e ∈ q ∨
        (((bfs_admit_neighbors index budget layer conns d q).1.lookup e.1).isSome)) := by
  intro conns
  induction conns with
  | nil =>
    intro d q hle
    refine ⟨fun x h => h, le_refl _, hle, ?_, ?_, ?_, fun e he => he, fun e he => Or.inl he⟩
    · intro p hp
      exact absurd hp (List.not_mem_nil p)
    · intro x h
      exact Or.inl h
    · intro x h
      exact Or.inl h
  | cons p rest ih =>
    intro d q hle
    by_cases hsa : should_add_artist index d p.1 budget = true
    · -- admitted
      have hfresh : d.lookup p.1 = none := by
        unfold should_add_artist at hsa
        simp only [Bool.and_eq_true, Bool.not_eq_true'] at hsa
        cases hl : d.lookup p.1 with
        | none => rfl
        | some v => rw [hl] at hsa; simp at hsa
      have hidx : p.1 ∈ index := by
        unfold should_add_artist at hsa
        simp only [Bool.and_eq_true] at hsa
        have := hsa.1.2
        simpa using this
      have hlt : d.length < budget := by
        unfold should_add_artist at hsa
        simp only [Bool.and_eq_true, decide_eq_true_eq] at hsa
        exact hsa.2
      have hstep : bfs_admit_neighbors index budget layer (p :: rest) d q =
          bfs_admit_neighbors index budget layer rest
            (mapInsert p.1 (p.2, layer + 1) d) (q ++ [(p.1, layer + 1)]) := by
        simp only [bfs_admit_neighbors, List.foldl_cons, hsa, if_true]
      set d1 := mapInsert p.1 (p.2, layer + 1) d with hd1
      have hd1len : d1.length = d.length + 1 := mapInsert_length_fresh _ _ _ hfresh
      have hd1le : d1.length ≤ budget := by omega
      obtain ⟨imono, ilow, ihigh, iclos, iprov, iprovq, iqpre, iqent⟩ :=
        ih d1 (q ++ [(p.1, layer + 1)]) hd1le
      rw [hstep]
      refine ⟨?_, ?_, ihigh, ?_, ?_, ?_, ?_, ?_⟩
      · intro x hx
        exact imono x (lookup_mapInsert_isSome _ _ _ hx)
      · omega
      · intro p' hp' hpidx
        rcases List.mem_cons.mp hp' with h | h
        · left
          refine imono p'.1 ?_
          rw [h, hd1, lookup_mapInsert_self]
          rfl
        · exact iclos p' h hpidx
      · intro x hx
        rcases iprov x hx with h | h
        · by_cases hxp : x = p.1
          · right
            exact ⟨p.2, by rw [hxp]; exact List.mem_cons_self _ _, by rw [hxp]; exact hidx⟩
          · left
            rw [hd1, lookup_mapInsert_ne _ _ hxp] at h
            exact h
        · obtain ⟨s, hs, hsidx⟩ := h
          exact Or.inr ⟨s, List.mem_cons_of_mem _ hs, hsidx⟩
      · intro x hx
        rcases iprovq x hx with h | h
        · by_cases hxp : x = p.1
          · right
            have : (p.1, layer + 1) ∈ (q ++ [(p.1, layer + 1)]) := by simp
            have h2 := iqpre _ this
            rw [hxp]
            exact List.mem_map_of_mem Prod.fst h2
          · left
            rw [hd1, lookup_mapInsert_ne _ _ hxp] at h
            exact h
        · exact Or.inr h
      · intro e he
        exact iqpre e (List.mem_append_left _ he)
      · intro e he
        rcases iqent e he with h | h
        · rcases List.mem_append.mp h with h2 | h2
          · exact Or.inl h2
          · right
            have he1 : e.1 = p.1 := by
              simp only [List.mem_singleton] at h2
              rw [h2]
            refine imono e.1 ?_
            rw [he1, hd1, lookup_mapInsert_self]
            rfl
        · exact Or.inr h
    · -- not admitted
      have hsa' : should_add_artist index d p.1 budget = false := by
        simpa using hsa
      have hstep : bfs_admit_neighbors index budget layer (p :: rest) d q =
          bfs_admit_neighbors index budget layer rest d q := by
        simp only [bfs_admit_neighbors, List.foldl_cons, hsa', Bool.false_eq_true,
          if_false]
      obtain ⟨imono, ilow, ihigh, iclos, iprov, iprovq, iqpre, iqent⟩ := ih d q hle
      rw [hstep]
      refine ⟨imono, ilow, ihigh, ?_, ?_, iprovq, iqpre, iqent⟩
      · intro p' hp' hpidx
        rcases List.mem_cons.mp hp' with h | h
        · -- the skipped head: already present, not in the index, or budget full
          have htri : ((d.lookup p.1).isSome = true) ∨ p.1 ∉ index ∨
              budget ≤ d.length := by
            by_cases h1 : (d.lookup p.1).isSome
            · exact Or.inl h1
            · by_cases h2 : p.1 ∈ index
              · by_cases h3 : d.length < budget
                · exfalso
                  apply hsa
                  unfold should_add_artist
                  simp [h1, h2, h3]
                · exact Or.inr (Or.inr (by omega))
              · exact Or.inr (Or.inl h2)
          rcases htri with hsome | hnidx | hbud
          · left
            refine imono p'.1 ?_
            rw [h]
            exact hsome
          · rw [h] at hpidx
            exact absurd hpidx hnidx
          · right
            have hnoop := bfs_admit_noop index budget layer rest d q hbud
            rw [hnoop]
            have hgoal : d.length = budget := by omega
            exact hgoal
        · exact iclos p' h hpidx
      · intro x hx
        rcases iprov x hx with hh | hh
        · exact Or.inl hh
        · obtain ⟨s, hs, hsidx⟩ := hh
          exact Or.inr ⟨s, List.mem_cons_of_mem _ hs, hsidx⟩

theorem bfsExpInv_init (conn : ConnFun) (index : List ArtistId)
    (max_relations budget : Nat) (center : ArtistId) (hb : 1 ≤ budget) :
    BfsExpInv conn index max_relations budget center
      [(center, 0)] [(center, (1, 0))] := by
  have hself : (([(center, ((1 : Sim), 0))] :
      DiscoveredArtists).lookup center) = some (1, 0) := lookup_cons_self _ _ _
  have honly : ∀ a : ArtistId,
      ((([(center, ((1 : Sim), 0))] : DiscoveredArtists).lookup a).isSome) →
      a = center := by
    intro a ha
    by_cases h : a = center
    · exact h
    · rw [lookup_cons_ne _ _ h] at ha
      simp [List.lookup] at ha
  refine ⟨?_, ?_, ?_, ?_, ?_⟩
  · intro e he
    simp only [List.mem_singleton] at he
    rw [he, hself]
    rfl
  · intro a ha
    rw [honly a ha]
    exact .base
  · simpa using hb
  · intro a ha
    left
    rw [honly a ha]
    simp
  · rw [hself]
    rfl

/-- Conclusions at loop exit (`queue` empty or budget reached). -/
theorem bfsExpInv_terminal {conn : ConnFun} {index : List ArtistId}
    {max_relations budget : Nat} {center : ArtistId}
    {queue : List (ArtistId × Nat)} {d : DiscoveredArtists}
    (inv : BfsExpInv conn index max_relations budget center queue d)
    (hterm : queue = [] ∨ budget ≤ d.length) :
    d.length ≤ budget ∧
    ((∃ S : Finset ArtistId, budget < S.card ∧
        ∀ x ∈ S, ReachAdm conn index max_relations center x) →
      d.length = budget) := by
  refine ⟨inv.lenle, ?_⟩
  intro ⟨S, hScard, hSreach⟩
  rcases hterm with hq | hlen
  · by_cases hfull : d.length = budget
    · exact hfull
    · exfalso
      have hlt : d.length < budget := lt_of_le_of_ne inv.lenle hfull
      have hcov : ∀ x : ArtistId, ReachAdm conn index max_relations center x →
          ((d.lookup x).isSome) := by
        intro x hx
        induction hx with
        | base => exact inv.cmem
        | @step u v s _ hedge hvidx ih =>
          rcases inv.closed u ih with hinq | hcl
          · rw [hq] at hinq
            simp at hinq
          · rcases hcl (v, s) hedge hvidx with h | h
            · exact h
            · omega
      have hsub : S ⊆ (d.map Prod.fst).toFinset := by
        intro x hx
        rw [List.mem_toFinset]
        exact (lookup_isSome_iff_mem_fst d x).mp (hcov x (hSreach x hx))
      have hcard : S.card ≤ d.length := by
        calc S.card ≤ (d.map Prod.fst).toFinset.card := Finset.card_le_card hsub
          _ ≤ (d.map Prod.fst).length := (d.map Prod.fst).toFinset_card_le
          _ = d.length := by simp
      omega
  · exact le_antisymm inv.lenle hlen

/-- Soundness of the discover loop relative to the invariant. -/
theorem discover_artists_sound (conn : ConnFun) (index : List ArtistId)
    (max_relations budget : Nat) (center : ArtistId) :
    ∀ (fuel : Nat) (queue : List (ArtistId × Nat)) (d : DiscoveredArtists),
      BfsExpInv conn index max_relations budget center queue d →
      ∀ d' : DiscoveredArtists,
        discover_artists conn index max_relations budget fuel queue d = some d' →
        d'.length ≤ budget ∧
        ((∃ S : Finset ArtistId, budget < S.card ∧
            ∀ x ∈ S, ReachAdm conn index max_relations center x) →
          d'.length = budget) := by
  intro fuel
  induction fuel with
  | zero =>
    intro queue d inv d' h
    simp only [discover_artists] at h
    by_cases hc : queue = [] ∨ budget ≤ d.length
    · rw [if_pos hc] at h
      injection h with h
      rw [← h]
      exact bfsExpInv_terminal inv hc
    · rw [if_neg hc] at h
      exact absurd h (by simp)
  | succ f ih =>
    intro queue d inv d' h
    simp only [discover_artists] at h
    by_cases hc : queue = [] ∨ budget ≤ d.length
    · rw [if_pos hc] at h
      injection h with h
      rw [← h]
      exact bfsExpInv_terminal inv hc
    · rw [if_neg hc] at h
      have hlt : d.length < budget := by
        push_neg at hc
        omega
      revert h
      cases hqe : queue with
      | nil =>
        exfalso
        push_neg at hc
        exact hc.1 hqe
      | cons e rest =>
        obtain ⟨current, layer⟩ := e
        intro h
        simp only at h
        obtain ⟨imono, ilow, ihigh, iclos, iprov, iprovq, iqpre, iqent⟩ :=
          bfs_admit_spec index budget layer ((conn current).take max_relations)
            d rest inv.lenle
        refine ih _ _ ?_ d' h
        set r := bfs_admit_neighbors index budget layer
          ((conn current).take max_relations) d rest with hr
        have hcur : (d.lookup current).isSome := by
          refine inv.qmem (current, layer) ?_
          rw [hqe]
          exact List.mem_cons_self _ _
        refine ⟨?_, ?_, ihigh, ?_, ?_⟩
        · intro e2 he2
          rcases iqent e2 he2 with h2 | h2
          · refine imono e2.1 ?_
            refine inv.qmem e2 ?_
            rw [hqe]
            exact List.mem_cons_of_mem _ h2
          · exact h2
        · intro a ha
          rcases iprov a ha with h2 | h2
          · exact inv.reach a h2
          · obtain ⟨s, hs, hsidx⟩ := h2
            exact .step (inv.reach current hcur) hs hsidx
        · intro a ha
          by_cases hda : (d.lookup a).isSome
          · rcases inv.closed a hda with hinq | hcl
            · rw [hqe] at hinq
              simp only [List.map_cons, List.mem_cons] at hinq
              rcases hinq with hac | har
              · right
                intro p hp hpidx
                rw [hac] at hp
                exact iclos p hp hpidx
              · left
                obtain ⟨e2, he2, he2a⟩ := List.mem_map.mp har
                have : e2 ∈ r.2 := iqpre e2 he2
                rw [← he2a]
                exact List.mem_map_of_mem Prod.fst this
            · right
              intro p hp hpidx
              rcases hcl p hp hpidx with h2 | h2
              · exact Or.inl (imono p.1 h2)
              · right
                omega
          · rcases iprovq a ha with h2 | h2
            · exact absurd h2 hda
            · exact Or.inl h2
        · exact imono center inv.cmem

theorem mem_map_fst_mapInsert {α : Type} (k : ArtistId) (v : α)
    (l : List (ArtistId × α)) (a : ArtistId) :
    a ∈ (mapInsert k v l).map Prod.fst ↔ a = k ∨ a ∈ l.map Prod.fst := by
  induction l with
  | nil => simp [mapInsert]
  | cons e rest ih =>
    by_cases he : e.1 = k
    · simp only [mapInsert, if_pos he, List.map_cons, List.mem_cons]
      rw [he]
      tauto
    · simp only [mapInsert, if_neg he, List.map_cons, List.mem_cons, ih]
      tauto

theorem mapInsert_keys_nodup {α : Type} (k : ArtistId) (v : α)
    (l : List (ArtistId × α)) (h : (l.map Prod.fst).Nodup) :
    ((mapInsert k v l).map Prod.fst).Nodup := by
  induction l with
  | nil => simp [mapInsert]
  | cons e rest ih =>
    simp only [List.map_cons, List.nodup_cons] at h
    by_cases he : e.1 = k
    · simp only [mapInsert, if_pos he, List.map_cons, List.nodup_cons]
      rw [← he]
      exact h
    · simp only [mapInsert, if_neg he, List.map_cons, List.nodup_cons]
      refine ⟨?_, ih h.2⟩
      rw [mem_map_fst_mapInsert]
      push_neg
      exact ⟨he, h.1⟩

theorem length_eq_of_keyset {α β : Type} (l1 : List (ArtistId × α))
    (l2 : List (ArtistId × β)) (h1 : (l1.map Prod.fst).Nodup)
    (h2 : (l2.map Prod.fst).Nodup)
    (h : ∀ a : ArtistId, a ∈ l1.map Prod.fst ↔ a ∈ l2.map Prod.fst) :
    l1.length = l2.length := by
  have hfs : (l1.map Prod.fst).toFinset = (l2.map Prod.fst).toFinset := by
    ext a
    rw [List.mem_toFinset, List.mem_toFinset]
    exact h a
  calc l1.length = (l1.map Prod.fst).length := by simp
    _ = (l1.map Prod.fst).toFinset.card := (List.toFinset_card_of_nodup h1).symm
    _ = (l2.map Prod.fst).toFinset.card := by rw [hfs]
    _ = (l2.map Prod.fst).length := List.toFinset_card_of_nodup h2
    _ = l2.length := by simp

theorem popMinCost_none_iff (h : List (Sim × ArtistId)) :
    popMinCost h = none ↔ h = [] := by
  cases h with
  | nil => simp [popMinCost]
  | cons a rest =>
    cases hrec : popMinCost rest with
    | none =>
      simp only [popMinCost, hrec]
      simp
    | some me =>
      obtain ⟨m, rest2⟩ := me
      simp only [popMinCost, hrec]
      by_cases hb : a.1 ≤ m.1
      · rw [if_pos hb]
        simp
      · rw [if_neg hb]
        simp

theorem popMinCost_perm :
    ∀ (h : List (Sim × ArtistId)) (e : Sim × ArtistId) (h' : List (Sim × ArtistId)),
      popMinCost h = some (e, h') → h.Perm (e :: h') := by
  intro h
  induction h with
  | nil => intro e h' hp; simp [popMinCost] at hp
  | cons a rest ih =>
    intro e h' hp
    cases hrec : popMinCost rest with
    | none =>
      have hrest : rest = [] := (popMinCost_none_iff rest).mp hrec
      simp only [popMinCost, hrec] at hp
      simp only [Option.some.injEq, Prod.mk.injEq] at hp
      rw [← hp.1, ← hp.2, hrest]
    | some me =>
      obtain ⟨m, rest2⟩ := me
      simp only [popMinCost, hrec] at hp
      by_cases hb : a.1 ≤ m.1
      · rw [if_pos hb] at hp
        simp only [Option.some.injEq, Prod.mk.injEq] at hp
        rw [← hp.1, ← hp.2]
      · rw [if_neg hb] at hp
        simp only [Option.some.injEq, Prod.mk.injEq] at hp
        rw [← hp.1, ← hp.2]
        have hr : rest.Perm (m :: rest2) := ih m rest2 hrec
        exact (List.Perm.cons a hr).trans (List.Perm.swap m a rest2)

theorem mem_insertOnce (a b : ArtistId) (l : List ArtistId) :
    a ∈ insertOnce b l ↔ a = b ∨ a ∈ l := by
  unfold insertOnce
  by_cases h : b ∈ l
  · rw [if_pos h]
    constructor
    · exact Or.inr
    · intro hx
      rcases hx with hx | hx
      · rw [hx]; exact h
      · exact hx
  · rw [if_neg h]
    simp

theorem dijExpInv_init (conn : ConnFun) (max_relations : Nat) (center : ArtistId) :
    DijExpInv conn max_relations center (initExplorationState center) := by
  have hkey : ∀ (α : Type) (v : α) (a : ArtistId),
      (([(center, v)] : List (ArtistId × α)).lookup a).isSome → a = center := by
    intro α v a ha
    by_cases h : a = center
    · exact h
    · rw [lookup_cons_ne _ _ h] at ha
      simp [List.lookup] at ha
  refine ⟨?_, ?_, ?_, ?_, ?_, ?_, ?_, ?_⟩
  · simp [initExplorationState]
  · simp [initExplorationState]
  · intro a
    constructor
    · intro h
      have := hkey _ _ _ h
      rw [this]
      rw [show (initExplorationState center).distances = [(center, 0)] from rfl,
        lookup_cons_self]
      rfl
    · intro h
      have := hkey _ _ _ h
      rw [this]
      rw [show (initExplorationState center).discovered = [(center, (1, 0))] from rfl,
        lookup_cons_self]
      rfl
  · intro a ha
    simp [initExplorationState] at ha
  · intro e he
    simp only [initExplorationState, List.mem_singleton] at he
    rw [he]
    rw [show (initExplorationState center).distances = [(center, 0)] from rfl,
      lookup_cons_self]
    rfl
  · intro u hu
    simp [initExplorationState] at hu
  · intro a ha
    right
    refine ⟨(0, center), ?_, ?_⟩
    · simp [initExplorationState]
    · exact (hkey _ _ _ ha).symm
  · rw [show (initExplorationState center).distances = [(center, 0)] from rfl,
      lookup_cons_self]
    rfl

/-- Postconditions of one neighbor relaxation. -/
theorem expl_visit_spec (center : ArtistId) (cost : Sim) (st : ExplorationState)
    (p : PathStep) :
    (expl_visit_neighbor center cost st p).visited = st.visited ∧
    (∀ x : ArtistId, ((st.distances.lookup x).isSome) →
      (((expl_visit_neighbor center cost st p).distances.lookup x).isSome)) ∧
    ((st.distances.map Prod.fst).Nodup →
      (((expl_visit_neighbor center cost st p).distances.map Prod.fst).Nodup)) ∧
    ((st.discovered.map Prod.fst).Nodup →
      (((expl_visit_neighbor center cost st p).discovered.map Prod.fst).Nodup)) ∧
    ((∀ a : ArtistId, ((st.discovered.lookup a).isSome) ↔
        ((st.distances.lookup a).isSome)) →
      ∀ a : ArtistId, (((expl_visit_neighbor center cost st p).discovered.lookup a).isSome) ↔
        (((expl_visit_neighbor center cost st p).distances.lookup a).isSome)) ∧
    (∀ e ∈ st.heap, e ∈ (expl_visit_neighbor center cost st p).heap) ∧
    (∀ x : ArtistId,
      (((expl_visit_neighbor center cost st p).distances.lookup x).isSome) →
      ((st.distances.lookup x).isSome) ∨
      ∃ e ∈ (expl_visit_neighbor center cost st p).heap, e.2 = x) ∧
    ((p.1 ∈ st.visited → ((st.distances.lookup p.1).isSome)) →
      (((expl_visit_neighbor center cost st p).distances.lookup p.1).isSome)) := by
  unfold expl_visit_neighbor
  by_cases hv : p.1 ∈ st.visited
  · rw [if_pos hv]
    refine ⟨rfl, fun x h => h, fun h => h, fun h => h, fun h => h, fun e he => he,
      fun x h => Or.inl h, fun h => h hv⟩
  · rw [if_neg hv]
    set new_cost := cost + (1 - p.2) with hnc
    by_cases hbetter : (match st.distances.lookup p.1 with
      | some existing => decide (new_cost < existing)
      | none => true) = true
    · rw [if_pos hbetter]
      refine ⟨rfl, ?_, ?_, ?_, ?_, ?_, ?_, ?_⟩
      · intro x h
        exact lookup_mapInsert_isSome _ _ _ h
      · intro h
        exact mapInsert_keys_nodup _ _ _ h
      · intro h
        exact mapInsert_keys_nodup _ _ _ h
      · intro h a
        by_cases ha : a = p.1
        · rw [ha]
          simp only [lookup_mapInsert_self]
          constructor <;> (intro; rfl)
        · rw [lookup_mapInsert_ne _ _ ha, lookup_mapInsert_ne _ _ ha]
          exact h a
      · intro e he
        exact List.mem_append_left _ he
      · intro x hx
        by_cases hxp : x = p.1
        · right
          refine ⟨(new_cost, p.1), ?_, hxp.symm⟩
          simp
        · left
          rw [lookup_mapInsert_ne _ _ hxp] at hx
          exact hx
      · intro _
        rw [lookup_mapInsert_self]
        rfl
    · rw [if_neg hbetter]
      have hentry : ((st.distances.lookup p.1).isSome) := by
        revert hbetter
        cases st.distances.lookup p.1 with
        | none => intro hb; exact absurd rfl hb
        | some v => intro _; rfl
      refine ⟨rfl, fun x h => h, fun h => h, fun h => h, fun h => h, fun e he => he,
        fun x h => Or.inl h, fun _ => hentry⟩

/-- Postconditions of the whole relaxation fold of one settled node. -/
theorem expl_fold_spec (center : ArtistId) (cost : Sim) :
    ∀ (conns : List PathStep) (st : ExplorationState),
      ((conns.foldl (expl_visit_neighbor center cost) st).visited = st.visited) ∧
      (∀ x : ArtistId, ((st.distances.lookup x).isSome) →
        (((conns.foldl (expl_visit_neighbor center cost) st).distances.lookup x).isSome)) ∧
      ((st.distances.map Prod.fst).Nodup →
        (((conns.foldl (expl_visit_neighbor center cost) st).distances.map Prod.fst).Nodup)) ∧
      ((st.discovered.map Prod.fst).Nodup →
        (((conns.foldl (expl_visit_neighbor center cost) st).discovered.map Prod.fst).Nodup)) ∧
      ((∀ a : ArtistId, ((st.discovered.lookup a).isSome) ↔
          ((st.distances.lookup a).isSome)) →
        ∀ a : ArtistId,
          (((conns.foldl (expl_visit_neighbor center cost) st).discovered.lookup a).isSome) ↔
          (((conns.foldl (expl_visit_neighbor center cost) st).distances.lookup a).isSome)) ∧
      (∀ e ∈ st.heap, e ∈ (conns.foldl (expl_visit_neighbor center cost) st).heap) ∧
      (∀ x : ArtistId,
        (((conns.foldl (expl_visit_neighbor center cost) st).distances.lookup x).isSome) →
        ((st.distances.lookup x).isSome) ∨
        ∃ e ∈ (conns.foldl (expl_visit_neighbor center cost) st).heap, e.2 = x) ∧
      ((∀ a ∈ st.visited, ((st.distances.lookup a).isSome)) →
        ∀ p ∈ conns,
          (((conns.foldl (expl_visit_neighbor center cost) st).distances.lookup p.1).isSome)) := by
  intro conns
  induction conns with
  | nil =>
    intro st
    refine ⟨rfl, fun x h => h, fun h => h, fun h => h, fun h => h, fun e he => he,
      fun x h => Or.inl h, ?_⟩
    intro _ p hp
    exact absurd hp (List.not_mem_nil p)
  | cons q rest ih =>
    intro st
    obtain ⟨svis, smono, snd, scd, skeys, sheap, sprov, sentry⟩ :=
      expl_visit_spec center cost st q
    obtain ⟨ivis, imono, ind, icd, ikeys, iheap, iprov, ientry⟩ :=
      ih (expl_visit_neighbor center cost st q)
    simp only [List.foldl_cons]
    refine ⟨by rw [ivis, svis], ?_, ?_, ?_, ?_, ?_, ?_, ?_⟩
    · intro x h
      exact imono x (smono x h)
    · intro h
      exact ind (snd h)
    · intro h
      exact icd (scd h)
    · intro h
      exact ikeys (skeys h)
    · intro e he
      exact iheap _ (sheap e he)
    · intro x hx
      rcases iprov x hx with h | h
      · rcases sprov x h with h2 | h2
        · exact Or.inl h2
        · obtain ⟨e, he, he2⟩ := h2
          exact Or.inr ⟨e, iheap e he, he2⟩
      · exact Or.inr h
    · intro hvis p hp
      rcases List.mem_cons.mp hp with h | h
      · have hq : (((expl_visit_neighbor center cost st q).distances.lookup q.1).isSome) :=
          sentry (fun hqv => hvis q.1 hqv)
        rw [h]
        exact imono q.1 hq
      · refine ientry ?_ p h
        intro a ha
        rw [svis] at ha
        exact smono a (hvis a ha)

/-- Every heap entry after one relaxation is an old entry or keys into the
new distance table. -/
theorem expl_visit_heap_prov (center : ArtistId) (cost : Sim)
    (st : ExplorationState) (p : PathStep) :
    ∀ e ∈ (expl_visit_neighbor center cost st p).heap,
      e ∈ st.heap ∨
      (((expl_visit_neighbor center cost st p).distances.lookup e.2).isSome) := by
  unfold expl_visit_neighbor
  by_cases hv : p.1 ∈ st.visited
  · rw [if_pos hv]
    exact fun e he => Or.inl he
  · rw [if_neg hv]
    by_cases hbetter : (match st.distances.lookup p.1 with
      | some existing => decide (cost + (1 - p.2) < existing)
      | none => true) = true
    · rw [if_pos hbetter]
      intro e he
      rcases List.mem_append.mp he with h | h
      · exact Or.inl h
      · right
        simp only [List.mem_singleton] at h
        have he2 : e.2 = p.1 := by rw [h]
        rw [he2]
        simp only [lookup_mapInsert_self]
        rfl
    · rw [if_neg hbetter]
      exact fun e he => Or.inl he

/-- Every heap entry after the relaxation fold is an old entry or keys into
the new distance table. -/
theorem expl_fold_heap_prov (center : ArtistId) (cost : Sim) :
    ∀ (conns : List PathStep) (st : ExplorationState),
      ∀ e ∈ (conns.foldl (expl_visit_neighbor center cost) st).heap,
        e ∈ st.heap ∨
        (((conns.foldl (expl_visit_neighbor center cost) st).distances.lookup e.2).isSome) := by
  intro conns
  induction conns with
  | nil => exact fun st e he => Or.inl he
  | cons q rest ih =>
    intro st e he
    simp only [List.foldl_cons] at he ⊢
    rcases ih (expl_visit_neighbor center cost st q) e he with h | h
    · rcases expl_visit_heap_prov center cost st q e h with h2 | h2
      · exact Or.inl h2
      · right
        obtain ⟨_, imono, _⟩ := expl_fold_spec center cost rest
          (expl_visit_neighbor center cost st q)
        exact imono e.2 h2
    · exact Or.inr h

/-- The exploration loop preserves the invariant and can only return at
heap exhaustion or after the budget-threshold break. -/
theorem explore_dijkstra_loop_sound (conn : ConnFun) (center : ArtistId)
    (budget max_relations : Nat) :
    ∀ (fuel : Nat) (st : ExplorationState), DijExpInv conn max_relations center st →
      ∀ st' : ExplorationState,
        explore_dijkstra_loop conn center budget max_relations fuel st = some st' →
        DijExpInv conn max_relations center st' ∧
        (st'.heap = [] ∨ budget ≤ st'.discovered.length) := by
  intro fuel
  induction fuel with
  | zero =>
    intro st inv st' h
    exact absurd h (by simp [explore_dijkstra_loop])
  | succ f ih =>
    intro st inv st' h
    simp only [explore_dijkstra_loop] at h
    revert h
    cases hpop : popMinCost st.heap with
    | none =>
      intro h
      injection h with h
      rw [← h]
      exact ⟨inv, Or.inl ((popMinCost_none_iff st.heap).mp hpop)⟩
    | some pr =>
      obtain ⟨⟨cost, current⟩, heap'⟩ := pr
      have hperm : st.heap.Perm ((cost, current) :: heap') :=
        popMinCost_perm st.heap (cost, current) heap' hpop
      have hmemheap : ∀ e ∈ heap', e ∈ st.heap := by
        intro e he
        exact hperm.mem_iff.mpr (List.mem_cons_of_mem _ he)
      have hcurmem : (cost, current) ∈ st.heap :=
        hperm.mem_iff.mpr (List.mem_cons_self _ _)
      intro h0
      have h : (if breakCheck st.distances st.discovered.length budget cost = true
          then some st
          else if current ∈ st.visited then
            explore_dijkstra_loop conn center budget max_relations f
              { st with heap := heap' }
          else
            explore_dijkstra_loop conn center budget max_relations f
              (((conn current).take max_relations).foldl
                (expl_visit_neighbor center cost)
                { heap := heap', distances := st.distances,
                  discovered := st.discovered,
                  visited := insertOnce current st.visited })) = some st' := h0
      by_cases hbreak : breakCheck st.distances st.discovered.length budget cost = true
      · rw [if_pos hbreak] at h
        injection h with h
        rw [← h]
        refine ⟨inv, Or.inr ?_⟩
        unfold breakCheck at hbreak
        simp only [Bool.and_eq_true, decide_eq_true_eq] at hbreak
        exact hbreak.1
      · rw [if_neg hbreak] at h
        by_cases hv : current ∈ st.visited
        · rw [if_pos hv] at h
          refine ih _ ?_ st' h
          refine ⟨inv.dnd, inv.cnd, inv.keys, inv.vis, ?_, inv.closed, ?_, inv.cmem⟩
          · intro e he
            exact inv.heapk e (hmemheap e he)
          · intro a ha
            rcases inv.actv a ha with h2 | h2
            · exact Or.inl h2
            · obtain ⟨e, he, he2⟩ := h2
              rcases List.mem_cons.mp (hperm.mem_iff.mp he) with h3 | h3
              · left
                have hc : e.2 = current := by rw [h3]
                rw [← he2, hc]
                exact hv
              · exact Or.inr ⟨e, h3, he2⟩
        · rw [if_neg hv] at h
          refine ih _ ?_ st' h
          set st2 : ExplorationState :=
            { heap := heap', distances := st.distances,
              discovered := st.discovered,
              visited := insertOnce current st.visited } with hst2
          set conns := (conn current).take max_relations with hconns
          obtain ⟨fvis, fmono, fnd, fcd, fkeys, fheap, fprov, fentry⟩ :=
            expl_fold_spec center cost conns st2
          have hcurd : ((st.distances.lookup current).isSome) :=
            inv.heapk (cost, current) hcurmem
          have hvis2 : ∀ a ∈ st2.visited, ((st2.distances.lookup a).isSome) := by
            intro a ha
            rcases (mem_insertOnce a current st.visited).mp ha with h2 | h2
            · rw [h2]
              exact hcurd
            · exact inv.vis a h2
          refine ⟨fnd inv.dnd, fcd inv.cnd, fkeys inv.keys, ?_, ?_, ?_, ?_,
            fmono center inv.cmem⟩
          · intro a ha
            rw [fvis] at ha
            exact fmono a (hvis2 a ha)
          · intro e he
            rcases expl_fold_heap_prov center cost conns st2 e he with h2 | h2
            · exact fmono e.2 (inv.heapk e (hmemheap e h2))
            · exact h2
          · intro u hu
            rw [fvis] at hu
            rcases (mem_insertOnce u current st.visited).mp hu with h2 | h2
            · intro p hp
              rw [h2] at hp
              exact fentry hvis2 p hp
            · intro p hp
              exact fmono p.1 (inv.closed u h2 p hp)
          · intro a ha
            rcases fprov a ha with h2 | h2
            · rcases inv.actv a h2 with h3 | h3
              · left
                rw [fvis]
                exact (mem_insertOnce a current st.visited).mpr (Or.inr h3)
              · obtain ⟨e, he, he2⟩ := h3
                rcases List.mem_cons.mp (hperm.mem_iff.mp he) with h4 | h4
                · left
                  rw [fvis]
                  refine (mem_insertOnce a current st.visited).mpr (Or.inl ?_)
                  have hc : e.2 = current := by rw [h4]
                  rw [← he2, hc]
                · exact Or.inr ⟨e, fheap e h4, he2⟩
            · exact Or.inr h2

theorem foldl_mapInsert_length_eq (f : ArtistId → Sim × Nat) :
    ∀ (ids : List ArtistId) (r : DiscoveredArtists), ids.Nodup →
      (∀ id ∈ ids, r.lookup id = none) →
      (ids.foldl (fun r id => mapInsert id (f id) r) r).length =
        r.length + ids.length := by
  intro ids
  induction ids with
  | nil => intro r _ _; simp
  | cons id rest ih =>
    intro r hnd hfresh
    simp only [List.nodup_cons] at hnd
    simp only [List.foldl_cons]
    have hstep : (mapInsert id (f id) r).length = r.length + 1 :=
      mapInsert_length_fresh _ _ _ (hfresh id (List.mem_cons_self _ _))
    have hrest : ∀ id2 ∈ rest, (mapInsert id (f id) r).lookup id2 = none := by
      intro id2 h2
      have hne : id2 ≠ id := fun he => hnd.1 (he ▸ h2)
      rw [lookup_mapInsert_ne _ _ hne]
      exact hfresh id2 (List.mem_cons_of_mem _ h2)
    rw [ih _ hnd.2 hrest, hstep]
    simp only [List.length_cons]
    omega

theorem select_optimal_subset_length (center : ArtistId)
    (distances : List (ArtistId × Sim)) (budget : Nat)
    (hnd : (distances.map Prod.fst).Nodup) :
    (select_optimal_subset center distances budget).length =
      min budget distances.length := by
  unfold select_optimal_subset
  have hperm : (distances.insertionSort (fun a b => a.2 ≤ b.2)).Perm distances :=
    List.perm_insertionSort _ _
  have hcnd : ((distances.insertionSort (fun a b => a.2 ≤ b.2)).map Prod.fst).Nodup :=
    ((hperm.map Prod.fst).nodup_iff).mpr hnd
  have hsnd : (((distances.insertionSort (fun a b => a.2 ≤ b.2)).take budget).map
      Prod.fst).Nodup := by
    rw [List.map_take]
    exact (List.take_sublist _ _).nodup hcnd
  have hfresh : ∀ id ∈ ((distances.insertionSort (fun a b => a.2 ≤ b.2)).take
      budget).map Prod.fst, ([] : DiscoveredArtists).lookup id = none := by
    intro id _
    rfl
  rw [foldl_mapInsert_length_eq _ _ _ hsnd hfresh]
  simp only [List.length_nil, List.length_map, List.length_take, Nat.zero_add]
  rw [hperm.length_eq]

/-- At heap exhaustion the distance table covers everything reachable. -/
theorem dij_reach_covered {conn : ConnFun} {max_relations : Nat}
    {center : ArtistId} {st : ExplorationState}
    (inv : DijExpInv conn max_relations center st) (hheap : st.heap = []) :
    ∀ x : ArtistId, ReachD conn max_relations center x →
      ((st.distances.lookup x).isSome) := by
  intro x hx
  induction hx with
  | base => exact inv.cmem
  | @step u v s _ hedge ih =>
    rcases inv.actv u ih with h | h
    · exact inv.closed u h (v, s) hedge
    · obtain ⟨e, he, _⟩ := h
      rw [hheap] at he
      exact absurd he (List.not_mem_nil e)

/-- Claim C4: both ego-graph explorers return at most `budget` artists, and
exactly `budget` whenever more than `budget` artists are reachable from
the center under the per-query filters (for the BFS variant reachability
additionally steps only onto indexed artists, which is what its admission
check enforces). -/
theorem C4_budget_enforcement_explore :
    (∀ (conn : ConnFun) (index : List ArtistId) (max_relations budget : Nat)
        (center : ArtistId) (fuel : Nat) (d : DiscoveredArtists),
      1 ≤ budget →
      explore_bfs_discover conn index max_relations budget center fuel = some d →
      d.length ≤ budget ∧
      ((∃ S : Finset ArtistId, budget < S.card ∧
          ∀ x ∈ S, ReachAdm conn index max_relations center x) →
        d.length = budget)) ∧
    (∀ (conn : ConnFun) (max_relations budget : Nat) (center : ArtistId)
        (fuel : Nat) (st : ExplorationState),
      1 ≤ budget →
      explore_dijkstra_loop conn center budget max_relations fuel
        (initExplorationState center) = some st →
      (select_optimal_subset center st.distances budget).length ≤ budget ∧
      ((∃ S : Finset ArtistId, budget < S.card ∧
          ∀ x ∈ S, ReachD conn max_relations center x) →
        (select_optimal_subset center st.distances budget).length = budget)) := by
  constructor
  · intro conn index max_relations budget center fuel d hb h
    exact discover_artists_sound conn index max_relations budget center fuel
      [(center, 0)] [(center, (1, 0))]
      (bfsExpInv_init conn index max_relations budget center hb) d h
  · intro conn max_relations budget center fuel st hb h
    obtain ⟨inv, hterm⟩ := explore_dijkstra_loop_sound conn center budget
      max_relations fuel _ (dijExpInv_init conn max_relations center) st h
    have hsel := select_optimal_subset_length center st.distances budget inv.dnd
    constructor
    · rw [hsel]
      exact Nat.min_le_left _ _
    · intro ⟨S, hScard, hSreach⟩
      have hlen : budget ≤ st.distances.length := by
        rcases hterm with hheap | hdisc
        · have hcov := dij_reach_covered inv hheap
          have hsub : S ⊆ (st.distances.map Prod.fst).toFinset := by
            intro x hx
            rw [List.mem_toFinset]
            exact (lookup_isSome_iff_mem_fst _ x).mp (hcov x (hSreach x hx))
          have hcard : S.card ≤ st.distances.length := by
            calc S.card ≤ (st.distances.map Prod.fst).toFinset.card :=
                Finset.card_le_card hsub
              _ ≤ (st.distances.map Prod.fst).length :=
                (st.distances.map Prod.fst).toFinset_card_le
              _ = st.distances.length := by simp
          omega
        · have heq : st.discovered.length = st.distances.length := by
            refine length_eq_of_keyset _ _ inv.cnd inv.dnd ?_
            intro a
            rw [← lookup_isSome_iff_mem_fst, ← lookup_isSome_iff_mem_fst]
            exact inv.keys a
          omega
      rw [hsel]
      omega

theorem C4_witness :
    (([((1 : ArtistId), ((1 : Sim), (0 : Nat)))] : DiscoveredArtists).length ≤ 1 ∧
      ((∃ S : Finset ArtistId, 1 < S.card ∧ ∀ x ∈ S, ReachAdm c1wF [1, 2] 5 1 x) →
        ([((1 : ArtistId), ((1 : Sim), (0 : Nat)))] : DiscoveredArtists).length = 1)) ∧
    ((select_optimal_subset 1
        (⟨[], [(1, 0)], [(1, (1, 0))], [1]⟩ : ExplorationState).distances 1).length ≤ 1 ∧
      ((∃ S : Finset ArtistId, 1 < S.card ∧ ∀ x ∈ S, ReachD c4wE 5 1 x) →
        (select_optimal_subset 1
          (⟨[], [(1, 0)], [(1, (1, 0))], [1]⟩ :
            ExplorationState).distances 1).length = 1)) :=
  ⟨C4_budget_enforcement_explore.1 c1wF [1, 2] 5 1 1 3
      [((1 : ArtistId), ((1 : Sim), (0 : Nat)))] (by decide) (by rfl),
   C4_budget_enforcement_explore.2 c4wE 5 1 1 3
      ⟨[], [(1, 0)], [(1, (1, 0))], [1]⟩ (by decide) (by rfl)⟩

/-- Generic preservation principle for accumulating folds. -/
theorem foldl_preserve {α β : Type} (P : β → Prop) (l : List α)
    (f : List β → α → List β)
    (hf : ∀ (acc : List β) (x : α), x ∈ l → (∀ e ∈ acc, P e) → ∀ e ∈ f acc x, P e) :
    ∀ acc : List β, (∀ e ∈ acc, P e) → ∀ e ∈ l.foldl f acc, P e := by
  induction l with
  | nil => intro acc hacc e he; exact hacc e he
  | cons a rest ih =>
    intro acc hacc e he
    simp only [List.foldl_cons] at he
    refine ih ?_ (f acc a) ?_ e he
    · intro acc2 x hx hacc2
      exact hf acc2 x (List.mem_cons_of_mem _ hx) hacc2
    · exact hf acc a (List.mem_cons_self _ _) hacc

/-- Every edge built by the web explorer's filter has a discovered target,
is not a self-loop, and comes from a listed connection entry. -/
theorem build_graph_edges_spec (discovered : DiscoveredArtists)
    (all_connections : ArtistConnections) :
    ∀ e ∈ build_graph_edges discovered all_connections,
      ((discovered.lookup e.toId).isSome) ∧ e.fromId ≠ e.toId ∧
      ∃ cl : List PathStep, (e.fromId, cl) ∈ all_connections ∧
        (e.toId, e.similarity) ∈ cl := by
  unfold build_graph_edges
  refine foldl_preserve _ all_connections _ ?_ [] (by intro e he; simp at he)
  intro acc entry hentry hacc
  refine foldl_preserve _ entry.2 _ ?_ acc hacc
  intro acc2 p hp hacc2 e he
  by_cases hc : ((discovered.lookup p.1).isSome) ∧ entry.1 ≠ p.1
  · rw [if_pos hc] at he
    rcases List.mem_append.mp he with h | h
    · exact hacc2 e h
    · simp only [List.mem_singleton] at h
      rw [h]
      exact ⟨hc.1, hc.2, entry.2, by
        rw [show ((entry.1, entry.2) : ArtistId × List PathStep) = entry from rfl]
        exact hentry, hp⟩
  · rw [if_neg hc] at he
    exact hacc2 e he

/-- The keys of a key-indexed `mapInsert` fold are exactly the seeds plus
the folded ids. -/
theorem foldl_mapInsert_keys (g : ArtistId → List PathStep) :
    ∀ (ids : List ArtistId) (ac : ArtistConnections) (x : ArtistId),
      x ∈ ((ids.foldl (fun ac id => mapInsert id (g id) ac) ac).map Prod.fst) ↔
        x ∈ ids ∨ x ∈ ac.map Prod.fst := by
  intro ids
  induction ids with
  | nil => intro ac x; simp
  | cons id rest ih =>
    intro ac x
    simp only [List.foldl_cons, List.mem_cons]
    rw [ih, mem_map_fst_mapInsert]
    tauto

/-- Claim C7 (amended, proved): for the web explorer every emitted edge
has both endpoints in the discovered set and is not a self-loop; edge
sources come from the connections map, whose keys are the discovered
artists. -/
theorem C7_amended_edges_endpoints (conn : ConnFun) (max_relations : Nat)
    (discovered : DiscoveredArtists) :
    ∀ e ∈ build_graph_edges discovered
        (get_all_connections conn max_relations discovered),
      e.fromId ∈ discovered.map Prod.fst ∧
      ((discovered.lookup e.toId).isSome) ∧ e.fromId ≠ e.toId := by
  intro e he
  obtain ⟨hto, hne, cl, hcl, _⟩ :=
    build_graph_edges_spec discovered
      (get_all_connections conn max_relations discovered) e he
  refine ⟨?_, hto, hne⟩
  have hmem : e.fromId ∈ ((get_all_connections conn max_relations
      discovered).map Prod.fst) := List.mem_map_of_mem Prod.fst hcl
  unfold get_all_connections at hmem
  rcases (foldl_mapInsert_keys _ _ _ _).mp hmem with h | h
  · exact h
  · simp at h

/-- Claim C7 (counterexample): the CORE ego explorer's edges output
(`BfsExplorer::get_all_connections`) is unfiltered: on a budget-1 run that
discovered only artist 1, the output still lists the connection (1, 2)
although 2 is not discovered; and a stored self-loop (1, 1) is emitted
as-is. -/
theorem C7_counterexample :
    (get_all_connections c1wF 5 [((1 : ArtistId), ((1 : Sim), (0 : Nat)))] =
      [(1, [(2, 1)])]) ∧
    (([((1 : ArtistId), ((1 : Sim), (0 : Nat)))] : DiscoveredArtists).lookup 2 =
      none) ∧
    (get_all_connections c7loop 5 [((1 : ArtistId), ((1 : Sim), (0 : Nat)))] =
      [(1, [(1, 1)])]) := by
  refine ⟨by rfl, by rfl, by rfl⟩

theorem C7_witness :
    (⟨1, 2, 1⟩ : GraphEdge).fromId ∈
      ([((1 : ArtistId), ((1 : Sim), (0 : Nat))), (2, (1, 1))] :
        DiscoveredArtists).map Prod.fst ∧
    ((([((1 : ArtistId), ((1 : Sim), (0 : Nat))), (2, (1, 1))] :
      DiscoveredArtists).lookup (⟨1, 2, 1⟩ : GraphEdge).toId).isSome) ∧
    (⟨1, 2, 1⟩ : GraphEdge).fromId ≠ (⟨1, 2, 1⟩ : GraphEdge).toId :=
  C7_amended_edges_endpoints c1wF 5
    [((1 : ArtistId), ((1 : Sim), (0 : Nat))), (2, (1, 1))]
    ⟨1, 2, 1⟩ (by decide)

/-- Claim C8: with no entry for the normalized query the resolver fails
with not-found; a single listed ID is returned as-is; among several IDs
one whose stored display name lowercases to the lowercased query is
returned when one exists, and the first listed ID otherwise. -/
theorem C8_resolution_disambiguation (lower cleanq : String → String)
    (name : String) (name_lookup : List (String × List ArtistId))
    (meta : List (ArtistId × String)) :
    (name_lookup.lookup (cleanq name) = none →
      find_best_artist_match lower cleanq name name_lookup meta = .error name) ∧
    (∀ id : ArtistId, name_lookup.lookup (cleanq name) = some [id] →
      find_best_artist_match lower cleanq name name_lookup meta = .ok id) ∧
    (∀ ids : List ArtistId, name_lookup.lookup (cleanq name) = some ids →
      1 < ids.length →
      (∃ id ∈ ids, ∃ nm : String, meta.lookup id = some nm ∧ lower nm = lower name) →
      ∃ (id : ArtistId) (nm : String),
        find_best_artist_match lower cleanq name name_lookup meta = .ok id ∧
        id ∈ ids ∧ meta.lookup id = some nm ∧ lower nm = lower name) ∧
    (∀ (id0 : ArtistId) (rest : List ArtistId),
      name_lookup.lookup (cleanq name) = some (id0 :: rest) → rest ≠ [] →
      (∀ id ∈ id0 :: rest, ∀ nm : String, meta.lookup id = some nm →
        lower nm ≠ lower name) →
      find_best_artist_match lower cleanq name name_lookup meta = .ok id0) := by
  refine ⟨?_, ?_, ?_, ?_⟩
  · intro h
    unfold find_best_artist_match
    rw [h]
  · intro id h
    unfold find_best_artist_match
    rw [h]
    simp
  · intro ids h hlen hex
    have hstep : find_best_artist_match lower cleanq name name_lookup meta =
        (if ids = [] then Except.error name
         else if ids.length = 1 then Except.ok (ids.headD 0)
         else match ids.find? (fun id =>
            match meta.lookup id with
            | some nm => lower nm == lower name
            | none => false) with
          | some id => Except.ok id
          | none => Except.ok (ids.headD 0)) := by
      unfold find_best_artist_match
      rw [h]
    have hne : ¬(ids = []) := by
      intro he
      rw [he] at hlen
      simp at hlen
    rw [hstep, if_neg hne, if_neg (by omega)]
    have hfind : (ids.find? (fun id =>
        match meta.lookup id with
        | some nm => lower nm == lower name
        | none => false)).isSome := by
      rw [List.find?_isSome]
      obtain ⟨id, hid, nm, hnm, hlow⟩ := hex
      refine ⟨id, hid, ?_⟩
      rw [hnm]
      simpa using hlow
    cases hf : ids.find? (fun id =>
        match meta.lookup id with
        | some nm => lower nm == lower name
        | none => false) with
    | none => rw [hf] at hfind; simp at hfind
    | some j =>
      have hj := List.find?_some hf
      have hjm := List.mem_of_find?_eq_some hf
      revert hj
      cases hnm : meta.lookup j with
      | none => intro hj; simp at hj
      | some nm =>
        intro hj
        refine ⟨j, nm, ?_, hjm, hnm, by simpa using hj⟩
        simp
  · intro id0 rest h hrest hall
    have hstep : find_best_artist_match lower cleanq name name_lookup meta =
        (if (id0 :: rest : List ArtistId) = [] then Except.error name
         else if (id0 :: rest : List ArtistId).length = 1 then
           Except.ok ((id0 :: rest).headD 0)
         else match (id0 :: rest).find? (fun id =>
            match meta.lookup id with
            | some nm => lower nm == lower name
            | none => false) with
          | some id => Except.ok id
          | none => Except.ok ((id0 :: rest).headD 0)) := by
      unfold find_best_artist_match
      rw [h]
    have hne : ¬((id0 :: rest : List ArtistId) = []) := by simp
    have hlen : ¬((id0 :: rest : List ArtistId).length = 1) := by
      simp only [List.length_cons]
      have : rest.length ≠ 0 := fun he => hrest (List.length_eq_zero.mp he)
      omega
    rw [hstep, if_neg hne, if_neg hlen]
    have hfind : (id0 :: rest).find? (fun id =>
        match meta.lookup id with
        | some nm => lower nm == lower name
        | none => false) = none := by
      rw [List.find?_eq_none]
      intro id hid
      cases hnm : meta.lookup id with
      | none => simp
      | some nm =>
        simp only [beq_iff_eq]
        exact hall id hid nm hnm
    rw [hfind]
    rfl

theorem C8_witness :
    (find_best_artist_match (fun s => s) (fun s => s) "a"
        [("a", [7])] [] = .ok 7) ∧
    (∃ (id : ArtistId) (nm : String),
      find_best_artist_match (fun s => s) (fun s => s) "a"
        [("a", [1, 2])] [(1, "b"), (2, "a")] = .ok id ∧
      id ∈ [1, 2] ∧ ([((1 : ArtistId), "b"), (2, "a")].lookup id) = some nm ∧
      nm = "a") :=
  ⟨(C8_resolution_disambiguation (fun s => s) (fun s => s) "a"
      [("a", [7])] []).2.1 7 (by rfl),
   (C8_resolution_disambiguation (fun s => s) (fun s => s) "a"
      [("a", [1, 2])] [(1, "b"), (2, "a")]).2.2.1 [1, 2] (by rfl) (by decide)
      ⟨2, by decide, "a", by rfl, rfl⟩⟩

theorem char_toNat_ofNat (n : Nat) (h : n.isValidChar) :
    (Char.ofNat n).toNat = n := by
  unfold Char.ofNat
  rw [dif_pos h]
  rfl

theorem toLowerAscii_not_upper (c : Char) :
    ¬('A' ≤ toLowerAscii c ∧ toLowerAscii c ≤ 'Z') := by
  by_cases h : 'A' ≤ c ∧ c ≤ 'Z'
  · unfold toLowerAscii
    rw [if_pos h]
    intro hcon
    have h1 : 65 ≤ c.toNat := h.1
    have h2 : c.toNat ≤ 90 := h.2
    have hv : (c.toNat + 32).isValidChar := Or.inl (by omega)
    have ht : (Char.ofNat (c.toNat + 32)).toNat = c.toNat + 32 :=
      char_toNat_ofNat _ hv
    have hle : (Char.ofNat (c.toNat + 32)).toNat ≤ 90 := hcon.2
    omega
  · unfold toLowerAscii
    rw [if_neg h]
    exact h

theorem toLowerAscii_idem (c : Char) :
    toLowerAscii (toLowerAscii c) = toLowerAscii c := by
  rw [show toLowerAscii (toLowerAscii c) =
    (if 'A' ≤ toLowerAscii c ∧ toLowerAscii c ≤ 'Z' then
      Char.ofNat ((toLowerAscii c).toNat + 32)
    else toLowerAscii c) from rfl, if_neg (toLowerAscii_not_upper c)]

theorem toLowerAscii_ascii (c : Char) (h : c.toNat < 128) :
    (toLowerAscii c).toNat < 128 := by
  unfold toLowerAscii
  by_cases hc : 'A' ≤ c ∧ c ≤ 'Z'
  · rw [if_pos hc]
    have h2 : c.toNat ≤ 90 := hc.2
    rw [char_toNat_ofNat _ (Or.inl (by omega))]
    omega
  · rw [if_neg hc]
    exact h

theorem toLowerAscii_space : toLowerAscii ' ' = ' ' := by decide

/-- Chunks are nonempty and whitespace-free. -/
theorem chunksAux_wf :
    ∀ (s acc : List Char), (∀ c ∈ acc, isWs c = false) →
      ∀ w ∈ chunksAux s acc, w ≠ [] ∧ ∀ c ∈ w, isWs c = false := by
  intro s
  induction s with
  | nil =>
    intro acc hacc w hw
    simp only [chunksAux] at hw
    by_cases h : acc = []
    · rw [if_pos h] at hw
      exact absurd hw (List.not_mem_nil w)
    · rw [if_neg h] at hw
      simp only [List.mem_singleton] at hw
      rw [hw]
      refine ⟨fun he => h (by simpa using he), ?_⟩
      intro c hc
      exact hacc c (List.mem_reverse.mp hc)
  | cons c rest ih =>
    intro acc hacc w hw
    simp only [chunksAux] at hw
    by_cases hws : isWs c
    · rw [if_pos hws] at hw
      by_cases h : acc = []
      · rw [if_pos h] at hw
        exact ih [] (by intro d hd; simp at hd) w hw
      · rw [if_neg h] at hw
        rcases List.mem_cons.mp hw with h2 | h2
        · rw [h2]
          refine ⟨fun he => h (by simpa using he), ?_⟩
          intro d hd
          exact hacc d (List.mem_reverse.mp hd)
        · exact ih [] (by intro d hd; simp at hd) w h2
    · rw [if_neg hws] at hw
      refine ih (c :: acc) ?_ w hw
      intro d hd
      rcases List.mem_cons.mp hd with h2 | h2
      · rw [h2]
        simpa using hws
      · exact hacc d h2

/-- Chunk characters come from the input or the accumulator. -/
theorem chunksAux_chars :
    ∀ (s acc : List Char) (w : List Char), w ∈ chunksAux s acc →
      ∀ c ∈ w, c ∈ s ∨ c ∈ acc := by
  intro s
  induction s with
  | nil =>
    intro acc w hw c hc
    simp only [chunksAux] at hw
    by_cases h : acc = []
    · rw [if_pos h] at hw
      exact absurd hw (List.not_mem_nil w)
    · rw [if_neg h] at hw
      simp only [List.mem_singleton] at hw
      rw [hw] at hc
      exact Or.inr (List.mem_reverse.mp hc)
  | cons a rest ih =>
    intro acc w hw c hc
    simp only [chunksAux] at hw
    by_cases hws : isWs a
    · rw [if_pos hws] at hw
      by_cases h : acc = []
      · rw [if_pos h] at hw
        rcases ih [] w hw c hc with h2 | h2
        · exact Or.inl (List.mem_cons_of_mem _ h2)
        · simp at h2
      · rw [if_neg h] at hw
        rcases List.mem_cons.mp hw with h2 | h2
        · rw [h2] at hc
          exact Or.inr (List.mem_reverse.mp hc)
        · rcases ih [] w h2 c hc with h3 | h3
          · exact Or.inl (List.mem_cons_of_mem _ h3)
          · simp at h3
    · rw [if_neg hws] at hw
      rcases ih (a :: acc) w hw c hc with h2 | h2
      · exact Or.inl (List.mem_cons_of_mem _ h2)
      · rcases List.mem_cons.mp h2 with h3 | h3
        · exact Or.inl (by rw [h3]; exact List.mem_cons_self _ _)
        · exact Or.inr h3

/-- Scanning a whitespace-free prefix just accumulates it reversed. -/
theorem chunksAux_append :
    ∀ (w s acc : List Char), (∀ c ∈ w, isWs c = false) →
      chunksAux (w ++ s) acc = chunksAux s (w.reverse ++ acc) := by
  intro w
  induction w with
  | nil => intro s acc _; simp
  | cons c w' ih =>
    intro s acc hw
    have hc : isWs c = false := hw c (List.mem_cons_self _ _)
    simp only [List.cons_append, chunksAux, hc, Bool.false_eq_true, if_false]
    show chunksAux (w' ++ s) (c :: acc) = chunksAux s ((c :: w').reverse ++ acc)
    rw [ih s (c :: acc) (fun d hd => hw d (List.mem_cons_of_mem _ hd))]
    simp

theorem joinSpace_ne_nil (w : List Char) (ws : List (List Char)) (h : w ≠ []) :
    joinSpace (w :: ws) ≠ [] := by
  cases ws with
  | nil => exact h
  | cons w2 ws' =>
    simp only [joinSpace]
    intro hcon
    rcases List.append_eq_nil.mp hcon with ⟨h1, h2⟩
    exact absurd h2 (List.cons_ne_nil _ _)

/-- Splitting is a left inverse of joining for lists of nonempty
whitespace-free chunks. -/
theorem chunks_joinSpace :
    ∀ cs : List (List Char), (∀ w ∈ cs, w ≠ [] ∧ ∀ c ∈ w, isWs c = false) →
      chunksAux (joinSpace cs) [] = cs := by
  intro cs
  induction cs with
  | nil => intro _; rfl
  | cons w ws ih =>
    intro hcs
    obtain ⟨hwne, hwf⟩ := hcs w (List.mem_cons_self _ _)
    cases ws with
    | nil =>
      show chunksAux (joinSpace [w]) [] = [w]
      have : joinSpace [w] = w ++ [] := by simp [joinSpace]
      rw [this, chunksAux_append w [] [] hwf]
      simp only [chunksAux, List.append_nil]
      rw [if_neg (by simpa using hwne)]
      simp
    | cons w2 ws' =>
      have hj : joinSpace (w :: w2 :: ws') = w ++ ' ' :: joinSpace (w2 :: ws') := rfl
      rw [hj, chunksAux_append w _ [] hwf]
      have hsp : isWs ' ' = true := by decide
      simp only [chunksAux, hsp, if_true, List.append_nil]
      rw [if_neg (by simpa using hwne)]
      rw [List.reverse_reverse]
      rw [ih (fun v hv => hcs v (List.mem_cons_of_mem _ hv))]

/-- Characters of a joined list are spaces or chunk characters. -/
theorem joinSpace_chars :
    ∀ cs : List (List Char), ∀ c ∈ joinSpace cs, c = ' ' ∨ ∃ w ∈ cs, c ∈ w := by
  intro cs
  induction cs with
  | nil => intro c hc; simp [joinSpace] at hc
  | cons w ws ih =>
    intro c hc
    cases ws with
    | nil =>
      right
      exact ⟨w, List.mem_cons_self _ _, hc⟩
    | cons w2 ws' =>
      have hj : joinSpace (w :: w2 :: ws') = w ++ ' ' :: joinSpace (w2 :: ws') := rfl
      rw [hj] at hc
      rcases List.mem_append.mp hc with h | h
      · exact Or.inr ⟨w, List.mem_cons_self _ _, h⟩
      · rcases List.mem_cons.mp h with h2 | h2
        · exact Or.inl h2
        · rcases ih c h2 with h3 | h3
          · exact Or.inl h3
          · obtain ⟨v, hv, hcv⟩ := h3
            exact Or.inr ⟨v, List.mem_cons_of_mem _ hv, hcv⟩

/-- A joined chunk list has no leading whitespace. -/
theorem joinSpace_dropWhile (cs : List (List Char))
    (hcs : ∀ w ∈ cs, w ≠ [] ∧ ∀ c ∈ w, isWs c = false) :
    (joinSpace cs).dropWhile isWs = joinSpace cs := by
  cases cs with
  | nil => rfl
  | cons w ws =>
    obtain ⟨hne, hwf⟩ := hcs w (List.mem_cons_self _ _)
    cases hw : w with
    | nil => exact absurd hw hne
    | cons c w' =>
      have hc : isWs c = false := by
        refine hwf c ?_
        rw [hw]
        exact List.mem_cons_self _ _
      cases ws with
      | nil =>
        show (c :: w').dropWhile isWs = c :: w'
        rw [List.dropWhile_cons, hc]
        simp
      | cons w2 ws' =>
        show ((c :: w') ++ ' ' :: joinSpace (w2 :: ws')).dropWhile isWs =
          (c :: w') ++ ' ' :: joinSpace (w2 :: ws')
        rw [List.cons_append, List.dropWhile_cons, hc]
        simp

/-- A joined chunk list is empty or ends in a non-whitespace character. -/
theorem joinSpace_rev_head :
    ∀ cs : List (List Char), (∀ w ∈ cs, w ≠ [] ∧ ∀ c ∈ w, isWs c = false) →
      joinSpace cs = [] ∨
      ∃ (c : Char) (rest : List Char),
        (joinSpace cs).reverse = c :: rest ∧ isWs c = false := by
  intro cs
  induction cs with
  | nil => intro _; exact Or.inl rfl
  | cons w ws ih =>
    intro hcs
    obtain ⟨hne, hwf⟩ := hcs w (List.mem_cons_self _ _)
    right
    cases ws with
    | nil =>
      show ∃ c rest, w.reverse = c :: rest ∧ isWs c = false
      cases hrev : w.reverse with
      | nil =>
        exact absurd (by simpa using hrev) hne
      | cons c rest =>
        refine ⟨c, rest, rfl, ?_⟩
        refine hwf c ?_
        rw [← List.mem_reverse, hrev]
        exact List.mem_cons_self _ _
    | cons w2 ws' =>
      have hj : joinSpace (w :: w2 :: ws') = w ++ ' ' :: joinSpace (w2 :: ws') := rfl
      rcases ih (fun v hv => hcs v (List.mem_cons_of_mem _ hv)) with h | h
      · exact absurd h (joinSpace_ne_nil w2 ws'
          (hcs w2 (List.mem_cons_of_mem _ (List.mem_cons_self _ _))).1)
      · obtain ⟨c, rest, hrev, hcws⟩ := h
        refine ⟨c, rest ++ ' ' :: w.reverse, ?_, hcws⟩
        rw [hj, List.reverse_append, List.reverse_cons, hrev]
        simp

/-- Mapping a function that fixes every member is the identity. -/
theorem map_eq_self_of_fix {α : Type} (f : α → α) :
    ∀ s : List α, (∀ c ∈ s, f c = c) → s.map f = s := by
  intro s
  induction s with
  | nil => intro _; rfl
  | cons c rest ih =>
    intro h
    simp only [List.map_cons]
    rw [h c (List.mem_cons_self _ _), ih (fun d hd => h d (List.mem_cons_of_mem _ hd))]

/-- Transliteration fixes ASCII-only strings. -/
theorem flatMap_translit_fix (translit : Char → List Char)
    (H2 : ∀ c : Char, c.toNat < 128 → translit c = [c]) :
    ∀ s : List Char, (∀ c ∈ s, c.toNat < 128) → s.flatMap translit = s := by
  intro s
  induction s with
  | nil => intro _; rfl
  | cons c rest ih =>
    intro h
    rw [List.flatMap_cons, H2 c (h c (List.mem_cons_self _ _)),
      ih (fun d hd => h d (List.mem_cons_of_mem _ hd))]
    rfl

/-- Trimming keeps only original characters. -/
theorem trimL_subset (s : List Char) : ∀ c ∈ trimL s, c ∈ s := by
  intro c hc
  unfold trimL at hc
  rw [List.mem_reverse] at hc
  have hsub1 : List.Sublist ((s.dropWhile isWs).reverse.dropWhile isWs)
      ((s.dropWhile isWs).reverse) := List.dropWhile_sublist isWs
  have hsub2 : List.Sublist (s.dropWhile isWs) s := List.dropWhile_sublist isWs
  have h1 := hsub1.subset hc
  rw [List.mem_reverse] at h1
  exact hsub2.subset h1

/-- The pipeline fixes any join of nonempty whitespace-free chunks whose
characters are ASCII and lowercase-fixed. -/
theorem clean_str_fixes (translit : Char → List Char)
    (H2 : ∀ c : Char, c.toNat < 128 → translit c = [c])
    (cs : List (List Char))
    (hwf : ∀ w ∈ cs, w ≠ [] ∧ ∀ c ∈ w, isWs c = false)
    (hascii : ∀ c ∈ joinSpace cs, c.toNat < 128)
    (hfix : ∀ c ∈ joinSpace cs, toLowerAscii c = c) :
    clean_str translit (joinSpace cs) = joinSpace cs := by
  unfold clean_str
  rw [flatMap_translit_fix translit H2 _ hascii]
  have htrim : trimL (joinSpace cs) = joinSpace cs := by
    unfold trimL
    rw [joinSpace_dropWhile cs hwf]
    rcases joinSpace_rev_head cs hwf with h | h
    · rw [h]
      rfl
    · obtain ⟨c, rest, hrev, hcws⟩ := h
      rw [hrev]
      simp only [List.dropWhile_cons, hcws, Bool.false_eq_true, if_false]
      rw [← hrev, List.reverse_reverse]
  rw [htrim, map_eq_self_of_fix _ _ hfix, chunks_joinSpace cs hwf]

/-- Claim C9: the name normalization (transliterate to ASCII, trim,
lowercase, collapse whitespace runs to single spaces) is idempotent, for
any transliteration table that emits ASCII and fixes ASCII (the contract
of `unidecode`). -/
theorem C9_normalization_idempotent (translit : Char → List Char)
    (H1 : ∀ c : Char, ∀ d ∈ translit c, d.toNat < 128)
    (H2 : ∀ c : Char, c.toNat < 128 → translit c = [c]) (x : List Char) :
    clean_str translit (clean_str translit x) = clean_str translit x := by
  have hwf : ∀ w ∈ chunksAux ((trimL (x.flatMap translit)).map toLowerAscii) [],
      w ≠ [] ∧ ∀ c ∈ w, isWs c = false :=
    chunksAux_wf _ [] (by intro c hc; simp at hc)
  have hychar : ∀ c ∈ joinSpace (chunksAux ((trimL (x.flatMap translit)).map
      toLowerAscii) []),
      c = ' ' ∨ c ∈ (trimL (x.flatMap translit)).map toLowerAscii := by
    intro c hc
    rcases joinSpace_chars _ c hc with h | h
    · exact Or.inl h
    · obtain ⟨w, hw, hcw⟩ := h
      rcases chunksAux_chars _ [] w hw c hcw with h2 | h2
      · exact Or.inr h2
      · simp at h2
  have hinnerchar : ∀ c ∈ (trimL (x.flatMap translit)).map toLowerAscii,
      (∃ d : Char, c = toLowerAscii d) ∧ c.toNat < 128 := by
    intro c hc
    obtain ⟨d, hd, hcd⟩ := List.mem_map.mp hc
    have hdmem : d ∈ x.flatMap translit := trimL_subset _ d hd
    obtain ⟨e, _, hde⟩ := List.mem_flatMap.mp hdmem
    have hdasc : d.toNat < 128 := H1 e d hde
    refine ⟨⟨d, hcd.symm⟩, ?_⟩
    rw [← hcd]
    exact toLowerAscii_ascii d hdasc
  have hascii : ∀ c ∈ joinSpace (chunksAux ((trimL (x.flatMap translit)).map
      toLowerAscii) []), c.toNat < 128 := by
    intro c hc
    rcases hychar c hc with h | h
    · rw [h]
      decide
    · exact (hinnerchar c h).2
  have hfix : ∀ c ∈ joinSpace (chunksAux ((trimL (x.flatMap translit)).map
      toLowerAscii) []), toLowerAscii c = c := by
    intro c hc
    rcases hychar c hc with h | h
    · rw [h]
      exact toLowerAscii_space
    · obtain ⟨⟨d, hd⟩, _⟩ := hinnerchar c h
      rw [hd]
      exact toLowerAscii_idem d
  exact clean_str_fixes translit H2 _ hwf hascii hfix

theorem C9_witness :
    clean_str translitO (clean_str translitO ['A', ' ', ' ', 'b']) =
      clean_str translitO ['A', ' ', ' ', 'b'] :=
  C9_normalization_idempotent translitO
    (fun c d hd => by
      unfold translitO at hd
      by_cases h : c.toNat < 128
      · rw [if_pos h] at hd
        simp only [List.mem_singleton] at hd
        rw [hd]
        exact h
      · rw [if_neg h] at hd
        simp only [List.mem_singleton] at hd
        rw [hd]
        decide)
    (fun c hc => by unfold translitO; rw [if_pos hc]) ['A', ' ', ' ', 'b']

/-- One settled node preserves the explorer invariant. -/
theorem bfsExpInv_step (conn : ConnFun) (index : List ArtistId)
    (max_relations budget : Nat) (center current : ArtistId) (layer : Nat)
    (rest : List (ArtistId × Nat)) (d : DiscoveredArtists)
    (inv : BfsExpInv conn index max_relations budget center
      ((current, layer) :: rest) d) (hlt : d.length < budget) :
    BfsExpInv conn index max_relations budget center
      (bfs_admit_neighbors index budget layer ((conn current).take max_relations)
        d rest).2
      (bfs_admit_neighbors index budget layer ((conn current).take max_relations)
        d rest).1 := by
  obtain ⟨imono, ilow, ihigh, iclos, iprov, iprovq, iqpre, iqent⟩ :=
    bfs_admit_spec index budget layer ((conn current).take max_relations)
      d rest inv.lenle
  set r := bfs_admit_neighbors index budget layer
    ((conn current).take max_relations) d rest with hr
  have hcur : (d.lookup current).isSome :=
    inv.qmem (current, layer) (List.mem_cons_self _ _)
  refine ⟨?_, ?_, ihigh, ?_, ?_⟩
  · intro e2 he2
    rcases iqent e2 he2 with h2 | h2
    · exact imono e2.1 (inv.qmem e2 (List.mem_cons_of_mem _ h2))
    · exact h2
  · intro a ha
    rcases iprov a ha with h2 | h2
    · exact inv.reach a h2
    · obtain ⟨s, hs, hsidx⟩ := h2
      exact .step (inv.reach current hcur) hs hsidx
  · intro a ha
    by_cases hda : (d.lookup a).isSome
    · rcases inv.closed a hda with hinq | hcl
      · simp only [List.map_cons, List.mem_cons] at hinq
        rcases hinq with hac | har
        · right
          intro p hp hpidx
          rw [hac] at hp
          exact iclos p hp hpidx
        · left
          obtain ⟨e2, he2, he2a⟩ := List.mem_map.mp har
          have : e2 ∈ r.2 := iqpre e2 he2
          rw [← he2a]
          exact List.mem_map_of_mem Prod.fst this
      · right
        intro p hp hpidx
        rcases hcl p hp hpidx with h2 | h2
        · exact Or.inl (imono p.1 h2)
        · right
          omega
    · rcases iprovq a ha with h2 | h2
      · exact absurd h2 hda
      · exact Or.inl h2
  · exact imono center inv.cmem

/-- Every key of the final discovered map is admissible-reachable. -/
theorem discover_artists_reach (conn : ConnFun) (index : List ArtistId)
    (max_relations budget : Nat) (center : ArtistId) :
    ∀ (fuel : Nat) (queue : List (ArtistId × Nat)) (d : DiscoveredArtists),
      BfsExpInv conn index max_relations budget center queue d →
      ∀ d' : DiscoveredArtists,
        discover_artists conn index max_relations budget fuel queue d = some d' →
        ∀ a : ArtistId, ((d'.lookup a).isSome) →
          ReachAdm conn index max_relations center a := by
  intro fuel
  induction fuel with
  | zero =>
    intro queue d inv d' h
    simp only [discover_artists] at h
    by_cases hc : queue = [] ∨ budget ≤ d.length
    · rw [if_pos hc] at h
      injection h with h
      rw [← h]
      exact inv.reach
    · rw [if_neg hc] at h
      exact absurd h (by simp)
  | succ f ih =>
    intro queue d inv d' h
    simp only [discover_artists] at h
    by_cases hc : queue = [] ∨ budget ≤ d.length
    · rw [if_pos hc] at h
      injection h with h
      rw [← h]
      exact inv.reach
    · rw [if_neg hc] at h
      have hlt : d.length < budget := by
        push_neg at hc
        omega
      revert h
      cases hqe : queue with
      | nil =>
        exfalso
        push_neg at hc
        exact hc.1 hqe
      | cons e rest =>
        obtain ⟨current, layer⟩ := e
        intro h
        simp only at h
        rw [hqe] at inv
        exact ih _ _ (bfsExpInv_step conn index max_relations budget center
          current layer rest d inv hlt) d' h

/-- Admissible reachability forces index membership off the center. -/
theorem reachAdm_center_or_index {conn : ConnFun} {index : List ArtistId}
    {max_relations : Nat} {center a : ArtistId}
    (h : ReachAdm conn index max_relations center a) :
    a = center ∨ a ∈ index := by
  cases h with
  | base => exact Or.inl rfl
  | step _ _ hidx => exact Or.inr hidx

/-- Claim C10: every artist in the discovered set of the BFS ego explorer
other than the center is a key of the admission table — the graph index
for the core variant and the artist-metadata table for the web variant,
both instances of the `index` parameter of `should_add_artist`; an artist
absent from that table is never admitted. -/
theorem C10_admission_requires_table (conn : ConnFun) (index : List ArtistId)
    (max_relations budget : Nat) (center : ArtistId) (fuel : Nat)
    (d : DiscoveredArtists) (hb : 1 ≤ budget)
    (hrun : explore_bfs_discover conn index max_relations budget center fuel =
      some d) :
    ∀ a : ArtistId, ((d.lookup a).isSome) → a = center ∨ a ∈ index := by
  intro a ha
  exact reachAdm_center_or_index
    (discover_artists_reach conn index max_relations budget center fuel
      [(center, 0)] [(center, (1, 0))]
      (bfsExpInv_init conn index max_relations budget center hb) d hrun a ha)

theorem C10_witness : (1 : ArtistId) = 1 ∨ (1 : ArtistId) ∈ [1, 2] :=
  C10_admission_requires_table c1wF [1, 2] 5 1 1 3
    [((1 : ArtistId), ((1 : Sim), (0 : Nat)))] (by decide) (by rfl) 1 (by decide)
